import Mathlib

/-!
DIAMOND: hit culling (`src/align/culling.cpp`) and sequence sets (`src/data/sequence_set.h`)

A shallow embedding of the culling pipeline and of `Sequence_set`, followed by
theorems about them.  Vectors and lists are `List`s, scores of type `int` are `Int`,
sizes and lengths are `Nat`.  A value of type `double` is held as the exact rational it
stands for, and the arithmetic of the cutoff computation is rounded to the nearest
`double` as IEEE 754 prescribes.
-/

namespace Extension

/-! ## Data model -/

/-- A half-open range `[begin_, end_)` on a coordinate axis. -/
structure interval where
  begin_ : Int
  end_ : Int
deriving DecidableEq, Repr

/-- Modelled from the spec: `interval::length()` is declared outside the given
sources; the extent of a range is the distance between its two ends, and a range whose
end does not lie behind its begin has extent 0. -/
def interval.length (r : interval) : Nat := (r.end_ - r.begin_).toNat

/-- One local alignment between the query and a target. -/
structure Hsp where
  score : Int
  frame : Nat
  length : Nat
  identities : Nat
  query_range : interval
  query_source_range : interval
  subject_range : interval
deriving DecidableEq, Repr

/-- All alignments of one query against one target (`struct Match`). -/
structure Match where
  target_block_id : Nat
  filter_score : Int
  hsp : List Hsp
deriving DecidableEq, Repr

/-- A candidate of the streaming stage (`struct Target`), as far as culling reads it. -/
structure Target where
  block_id : Nat
  filter_score : Int
deriving DecidableEq, Repr

/-- The policy knobs of the global `config` object that culling reads. -/
structure Config where
  inner_culling_overlap : ℚ
  max_hsps : Nat
  toppercent : ℚ
  max_alignments : Nat
  min_id : ℚ
  query_cover : ℚ
  subject_cover : ℚ
  no_self_hits : Bool
deriving DecidableEq, Repr

/-- The reference data store: `ref_ids::get()[id]` and `ref_seqs::get()[id].length()`. -/
structure Reference where
  title : Nat → String
  len : Nat → Nat

/-- Operations on `Hsp` that `inner_culling` calls and that are declared outside the
given sources: the frame-to-source coordinate map, `Hsp::operator<` (used by
`hsp.sort()`), and the pairwise envelopment test. -/
structure HspOps where
  absolute_interval : Int → Int → Nat → Nat → interval
  lt : Hsp → Hsp → Bool
  is_enveloped_by : Hsp → Hsp → ℚ → Bool

/-! ## Arithmetic on `double` values

A finite `double` is held as the exact fraction it stands for.  The results of `/`, `-`
and `*` are the exact results rounded to the nearest `double`: 53 significant bits, ties
to the even significand (IEEE 754 binary64, round-to-nearest).  The exponent is not
bounded: with `toppercent` in `[0, 100]` and `int` scores nothing overflows, and a
quotient `toppercent / 100.0` below the normal range leaves `1.0 - q` at 1 either way. -/

/-- The fraction `n / (d * 2^e)` for an exponent `e` of either sign, as numerator and
denominator. -/
def scale_fraction (n d : Nat) (e : Int) : Nat × Nat :=
  if 0 ≤ e then (n, d * 2 ^ e.toNat) else (n * 2 ^ (-e).toNat, d)

/-- The number of halvings that take `n` below 2, counted within `fuel` steps. -/
def log2_steps : Nat → Nat → Nat
  | 0, _ => 0
  | fuel + 1, n => if n < 2 then 0 else log2_steps fuel (n / 2) + 1

/-- The position of the leading bit of a positive number: the `k` with
`2^k <= n < 2^(k+1)`. -/
def floor_log2 (n : Nat) : Nat := log2_steps n n

/-- The exponent `e` of the last place of the `double` nearest to the positive quotient
`n / d`: the one with `2^52 <= (n / d) / 2^e < 2^53`. -/
def ulp_exponent (n d : Nat) : Int :=
  let e := (floor_log2 n : Int) - (floor_log2 d : Int) - 53
  let f := scale_fraction n d e
  if 2 ^ 53 * f.2 ≤ f.1 then e + 1 else e

/-- The integer nearest to `n / d`, a tie going to the even one. -/
def round_half_even (n d : Nat) : Nat :=
  let q := n / d
  let r := n % d
  if d < 2 * r ∨ (2 * r = d ∧ q % 2 = 1) then q + 1 else q

/-- The `double` nearest to the positive quotient `n / d`, as numerator and
denominator. -/
def round_double_pos (n d : Nat) : Nat × Nat :=
  let e := ulp_exponent n d
  let f := scale_fraction n d e
  let m := round_half_even f.1 f.2
  if 0 ≤ e then (m * 2 ^ e.toNat, 1) else (m, 2 ^ (-e).toNat)

/-- The `double` nearest to the quotient `num / den`, as numerator and denominator. -/
def round_double (num : Int) (den : Nat) : Int × Nat :=
  if num = 0 then (0, 1)
  else
    let r := round_double_pos num.natAbs den
    if 0 < num then ((r.1 : Int), r.2) else (-(r.1 : Int), r.2)

/-- The value of an `int` score.  The scores of the model are unbounded integers; one
beyond the range of `int`, which no `filter_score` holds, is taken at the end of the
range.  Every `int` is a `double`, so the conversion in the product is exact. -/
def int_range (s : Int) : Int := max (-(2 ^ 31)) (min s (2 ^ 31 - 1))

/-- The value `int((1.0 - config.toppercent / 100.0) * score)` of lines 75, 95 and 138:
the quotient, the difference and the product are each rounded to a `double`, and `int`
truncates toward zero. -/
def top_score (toppercent : ℚ) (score : Int) : Int :=
  let q := round_double toppercent.num (toppercent.den * 100)
  let a := round_double ((q.2 : Int) - q.1) q.2
  let p := round_double (a.1 * int_range score) a.2
  Int.tdiv p.1 p.2

/-- Modelled from the spec: the percent accessors of `Hsp` (`id_percent`,
`query_cover_percent`, `subject_cover_percent`) are declared outside the given sources.
This is the test `(double)a * 100.0 / b < thr` for two lengths `a` and `b`; for `b = 0`
the quotient is not a number (`a = 0`) or positive infinity (`a > 0`), and the
comparison is false. -/
def percent_lt (a b : Nat) (thr : ℚ) : Bool :=
  if b = 0 then false else decide (Rat.divInt ((a : Int) * 100) (b : Int) < thr)

/-- Test `i->id_percent() < min_id`. -/
def Hsp.id_percent_lt (h : Hsp) (thr : ℚ) : Bool :=
  percent_lt h.identities h.length thr

/-- Test `i->query_cover_percent(source_query_len) < query_cover`. -/
def Hsp.query_cover_percent_lt (h : Hsp) (source_query_len : Nat) (thr : ℚ) : Bool :=
  percent_lt h.query_source_range.length source_query_len thr

/-- Test `i->subject_cover_percent(len) < subject_cover`. -/
def Hsp.subject_cover_percent_lt (h : Hsp) (len : Nat) (thr : ℚ) : Bool :=
  percent_lt h.subject_range.length len thr

/-! ## `Match::apply_filters` (lines 108-126) -/

/-- The erase condition of lines 113-120. -/
def filtered_out (cfg : Config) (source_query_len : Nat) (query_title title : String)
    (len : Nat) (h : Hsp) : Bool :=
  h.id_percent_lt cfg.min_id
    || h.query_cover_percent_lt source_query_len cfg.query_cover
    || h.subject_cover_percent_lt len cfg.subject_cover
    || (cfg.no_self_hits
        && decide (h.identities = h.length)
        && decide (h.query_source_range.length = source_query_len)
        && decide (h.subject_range.length = len)
        && decide (query_title = title))

/-- The assignment `hsp.empty() ? 0 : hsp.front().score`. -/
def front_score : List Hsp → Int
  | [] => 0
  | h :: _ => h.score

/-- The method `Match::apply_filters`: erase every Hsp that meets the erase condition, then
recompute `filter_score`. -/
def Match.apply_filters (cfg : Config) (ref : Reference) (m : Match)
    (source_query_len : Nat) (query_title : String) : Match :=
  let title := ref.title m.target_block_id
  let len := ref.len m.target_block_id
  let hsp := m.hsp.filter
    (fun h => !(filtered_out cfg source_query_len query_title title len h))
  { m with hsp := hsp, filter_score := front_score hsp }

/-! ## Prefix selection shared by `culling` and `score_only_culling` -/

/-- Modelled from the spec: `Match::operator<` and `Target::operator<` are declared
outside the given sources; `std::sort` arranges the entries best-first by
`filter_score`.  `best_first score a b` says that `a` may stand before `b`. -/
def best_first {α : Type} (score : α → Int) (a b : α) : Prop := score b ≤ score a

instance best_first_decidable {α : Type} (score : α → Int) :
    DecidableRel (best_first score) :=
  fun a b => inferInstanceAs (Decidable (score b ≤ score a))

/-- The call `std::sort(targets.begin(), targets.end())`.  It rearranges the vector
best-first and promises no order among entries of equal `filter_score`, so every
function that returns a best-first rearrangement of its argument is admitted. -/
structure StdSort (α : Type) (score : α → Int) where
  sort : List α → List α
  perm : ∀ l, (sort l).Perm l
  sorted : ∀ l, (sort l).Sorted (best_first score)

/-- The stable insertion sort by `filter_score`: entries of equal score keep their
order. -/
def sort_targets {α : Type} (score : α → Int) (targets : List α) : List α :=
  targets.insertionSort (best_first score)

/-- One admitted `std::sort`: the stable insertion sort. -/
def stable_sort {α : Type} (score : α → Int) : StdSort α score :=
  { sort := sort_targets score
    perm := fun l => List.perm_insertionSort _ l
    sorted := fun l =>
      @List.sorted_insertionSort α (best_first score) _
        ⟨fun a b => le_total (score b) (score a)⟩ ⟨fun _ _ _ hab hbc => le_trans hbc hab⟩ l }

/-- Another admitted `std::sort`: entries of equal score come out in the reverse of
their order in the argument. -/
def reversing_sort {α : Type} (score : α → Int) : StdSort α score :=
  { sort := fun l => sort_targets score l.reverse
    perm := fun l => (List.perm_insertionSort _ l.reverse).trans (List.reverse_perm l)
    sorted := fun l =>
      @List.sorted_insertionSort α (best_first score) _
        ⟨fun a b => le_total (score b) (score a)⟩ ⟨fun _ _ _ hab hbc => le_trans hbc hab⟩
        l.reverse }

/-- The loop `while (--i > targets.begin() && i->filter_score == 0);` of lines 101 and
144.  The argument is the index `i` points at when the loop is entered, the result is
the index it points at when the loop is left.  (Entering with `i == begin`, which needs
`max_alignments == 0`, steps before the first element in the source; the claims below
all have `max_alignments >= 1`.) -/
def trim_zero {α : Type} (score : α → Int) (targets : List α) : Nat → Nat
  | 0 => 0
  | k + 1 =>
    if 0 < k ∧ (targets.get? k).map score = some 0 then trim_zero score targets k else k

/-- Lines 93-104 and 136-147: from a sorted, non-empty vector whose best score is
`best`, the vector left after `targets.erase(i, targets.end())`. -/
def select_front {α : Type} (cfg : Config) (score : α → Int) (best : Int)
    (targets : List α) : List α :=
  if cfg.toppercent < 100 then
    let cutoff := max (top_score cfg.toppercent best) 1
    targets.takeWhile (fun t => decide (cutoff ≤ score t))
  else
    targets.take (trim_zero score targets (min cfg.max_alignments targets.length) + 1)

/-- Lines 85-104 and 132-147 after the sort, apart from the early return of line 91:
the vector is cleared when it is empty or its best score is 0, otherwise the selected
front is kept. -/
def kept_front {α : Type} (cfg : Config) (score : α → Int) (targets : List α) : List α :=
  match targets with
  | [] => []
  | t :: _ => if score t = 0 then [] else select_front cfg score (score t) targets

/-- The score of the first entry of a vector (0 for an empty vector). -/
def head_score {α : Type} (score : α → Int) (targets : List α) : Int :=
  (targets.head?.map score).getD 0

/-- The selection in closed form: in top-percent mode the entries that reach the cutoff
computed from the first entry, in fixed-count mode the first `max_alignments` entries of
positive score. -/
def kept_closed {α : Type} (cfg : Config) (score : α → Int) (targets : List α) : List α :=
  if cfg.toppercent < 100 then
    targets.filter
      (fun t => decide (max (top_score cfg.toppercent (head_score score targets)) 1 ≤ score t))
  else (targets.filter (fun t => decide (1 ≤ score t))).take cfg.max_alignments

/-! ## `culling` (lines 128-148) -/

/-- The function `culling`: filter every Match, sort best-first, clear the vector when
there is no qualifying hit, otherwise keep the selected front. -/
def culling (S : StdSort Match Match.filter_score) (cfg : Config) (ref : Reference)
    (targets : List Match) (source_query_len : Nat) (query_title : String) : List Match :=
  let filtered := targets.map (fun m => m.apply_filters cfg ref source_query_len query_title)
  let sorted := S.sort filtered
  match sorted with
  | [] => []
  | t :: _ =>
    if t.filter_score = 0 then []
    else select_front cfg Match.filter_score t.filter_score sorted

/-! ## `Match::inner_culling` and `Match::max_hsp_culling` (lines 31-56) -/

/-- Line 34: the query range of an Hsp is mapped from frame coordinates to source
coordinates and stored in `query_source_range`. -/
def map_source_range (ops : HspOps) (source_query_len : Nat) (h : Hsp) : Hsp :=
  { h with query_source_range :=
      ops.absolute_interval h.query_range.begin_ h.query_range.end_ h.frame source_query_len }

/-- The order `hsp.sort()` sorts by: `a` may stand before `b` unless `b < a`. -/
def hsp_le (ops : HspOps) (a b : Hsp) : Prop := ops.lt b a = false

instance hsp_le_decidable (ops : HspOps) : DecidableRel (hsp_le ops) :=
  fun a b => inferInstanceAs (Decidable (ops.lt b a = false))

/-- The call `hsp.sort()`: a stable sort of the list by `Hsp::operator<`. -/
def sort_hsp (ops : HspOps) (hsp : List Hsp) : List Hsp :=
  hsp.insertionSort (hsp_le ops)

/-- Modelled from the spec: the range form `is_enveloped_by(begin, end, overlap)` is
declared outside the given sources; an Hsp is enveloped by a range when some Hsp of the
range envelops it. -/
def enveloped_by_any (ops : HspOps) (overlap : ℚ) (kept : List Hsp) (h : Hsp) : Bool :=
  kept.any (fun k => ops.is_enveloped_by h k overlap)

/-- The erase loop of lines 39-44.  `kept` holds the entries before the iterator `i`
(the survivors so far, in order), the second list the entries from `i` on. -/
def envelope_scan (ops : HspOps) (overlap : ℚ) : List Hsp → List Hsp → List Hsp
  | kept, [] => kept
  | kept, h :: rest =>
    if enveloped_by_any ops overlap kept h then envelope_scan ops overlap kept rest
    else envelope_scan ops overlap (kept ++ [h]) rest

/-- The method `Match::max_hsp_culling`: cut the list after `max_hsps` entries. -/
def Match.max_hsp_culling (cfg : Config) (m : Match) : Match :=
  if m.hsp.length > cfg.max_hsps then { m with hsp := m.hsp.take cfg.max_hsps } else m

/-- The method `Match::inner_culling`. -/
def Match.inner_culling (cfg : Config) (ops : HspOps) (m : Match)
    (source_query_len : Nat) : Match :=
  let mapped := m.hsp.map (map_source_range ops source_query_len)
  let sorted := sort_hsp ops mapped
  let filter_score := match sorted with
    | [] => m.filter_score
    | h :: _ => h.score
  let overlap := cfg.inner_culling_overlap / 100
  let m1 : Match := { m with hsp := envelope_scan ops overlap [] sorted,
                             filter_score := filter_score }
  if cfg.max_hsps > 0 then m1.max_hsp_culling cfg else m1

/-! ## The streaming variant (lines 58-106) -/

/-- The test `min_id > 0 || query_cover > 0 || subject_cover > 0 || no_self_hits`. -/
def filters_active (cfg : Config) : Bool :=
  decide (cfg.min_id > 0) || decide (cfg.query_cover > 0) || decide (cfg.subject_cover > 0)
    || cfg.no_self_hits

/-- The loop of lines 61-63: the largest `filter_score` of the batch, starting from 0. -/
def batch_max (batch : List Target) : Int :=
  batch.foldl (fun m t => max m t.filter_score) 0

/-- The value `targets.front().filter_score` of a non-empty vector. -/
def front_filter_score (targets : List Target) : Int :=
  (targets.head?.map Target.filter_score).getD 0

/-- The value `targets.back().filter_score` of a non-empty vector. -/
def back_filter_score (targets : List Target) : Int :=
  (targets.getLast?.map Target.filter_score).getD 0

/-- The function `add_more_targets`; `batch` is the range `[begin, end)`. -/
def add_more_targets (cfg : Config) (targets batch : List Target) (low_score : Int) : Bool :=
  if targets.isEmpty then true
  else
    let max_score := batch_max batch
    if max_score ≤ low_score then false
    else if cfg.toppercent = 100 ∧ targets.length < cfg.max_alignments then true
    else if cfg.toppercent = 100 ∧ filters_active cfg = true then true
    else if cfg.toppercent = 100 then decide (back_filter_score targets ≤ max_score)
    else decide (top_score cfg.toppercent (front_filter_score targets) ≤ max_score)

/-- The function `score_only_culling`: the new content of `targets` and the returned
flag. -/
def score_only_culling (S : StdSort Target Target.filter_score) (cfg : Config)
    (targets batch : List Target) (low_score : Int) : List Target × Nat :=
  let more := add_more_targets cfg targets batch low_score
  let merged := if more then targets ++ batch else targets
  let sorted := S.sort merged
  match sorted with
  | [] => ([], 0)
  | t :: _ =>
    if t.filter_score = 0 then ([], 0)
    else if cfg.toppercent = 100 ∧ filters_active cfg = true then (sorted, 1)
    else (select_front cfg Target.filter_score t.filter_score sorted, if more then 1 else 0)

/-- The caller of the streaming variant as the streaming-equivalence property words it:
starting from the kept vector, `score_only_culling` is called on each batch in turn
with low-score bound 0 until it returns 0 or the batches run out. -/
def stream_batches (S : StdSort Target Target.filter_score) (cfg : Config) :
    List Target → List (List Target) → List Target
  | kept, [] => kept
  | kept, b :: bs =>
    let r := score_only_culling S cfg kept b 0
    if r.2 = 0 then r.1 else stream_batches S cfg r.1 bs

/-- The candidate of the streaming stage that stands for a Match. -/
def Match.toTarget (m : Match) : Target := ⟨m.target_block_id, m.filter_score⟩

end Extension

/-! # `Sequence_set` -/

/-- A residue of a sequence. -/
abbrev Letter := Nat

/-- The packed collection: `seqs` lists the sequences in index order. -/
structure Sequence_set where
  seqs : List (List Letter)
deriving DecidableEq, Repr

namespace Sequence_set

/-- Modelled from the spec: `String_set::get_length()` is declared outside the given
sources; it is the number N of sequences. -/
def get_length (s : Sequence_set) : Nat := s.seqs.length

/-- Modelled from the spec: `String_set::length(i)` is declared outside the given
sources; it is the length of sequence `i`. -/
def length (s : Sequence_set) (i : Nat) : Nat := (s.seqs.getD i []).length

/-- Modelled from the spec: `String_set::letters()` is declared outside the given
sources; it is the total letter count of the collection. -/
def letters (s : Sequence_set) : Nat := (s.seqs.map List.length).sum

/-- The loop `while (i < get_length() && n < l) n += length(i++);` of lines 75-76,
returning the final `i`.  The first argument bounds the number of iterations; the loop
ends within `get_length() - i` of them. -/
def partition_scan (s : Sequence_set) (l : Nat) : Nat → Nat → Nat → Nat
  | 0, i, _ => i
  | fuel + 1, i, n =>
    if i < s.get_length ∧ n < l then partition_scan s l fuel (i + 1) (n + s.length i) else i

/-- The loop `for (unsigned i = 0; i < get_length();)` of lines 73-78 from the state
`(i, v)`.  The first argument bounds the number of iterations: `none` means the loop
has not ended within that many. -/
def partition_loop (s : Sequence_set) (l : Nat) : Nat → Nat → List Nat → Option (List Nat)
  | 0, _, _ => none
  | fuel + 1, i, v =>
    if i < s.get_length then
      let j := partition_scan s l (s.get_length - i) i 0
      partition_loop s l fuel j (v ++ [j])
    else some v

/-- The padding loop of lines 79-80.  Its bound `n_part + 1` is computed in `unsigned`
(32 bits) before it is compared with the `size_t` counter, so it wraps to 0 for
`n_part = 2^32 - 1`. -/
def partition_pad (s : Sequence_set) (n_part : Nat) (v : List Nat) : List Nat :=
  v ++ List.replicate ((n_part + 1) % 2 ^ 32 - v.length) s.get_length

/-- The method `Sequence_set::partition`, with a bound on the iterations of the outer loop. -/
def partition (s : Sequence_set) (n_part : Nat) (fuel : Nat) : Option (List Nat) :=
  let l := (s.letters + n_part - 1) / n_part
  (partition_loop s l fuel 0 [0]).map (partition_pad s n_part)

/-- The summed letter count of the sequences with index in `[a, b)`. -/
def range_letters (s : Sequence_set) (a b : Nat) : Nat :=
  ((List.range' a (b - a)).map s.length).sum

/-- The summed letter counts of the partitions delimited by a boundary vector. -/
def partition_sums (s : Sequence_set) : List Nat → List Nat
  | a :: b :: rest => range_letters s a b :: partition_sums s (b :: rest)
  | _ => []

/-- The method `Sequence_set::max_len`: the longest sequence with index in `[b, e)`. -/
def max_len (s : Sequence_set) (b e : Nat) : Nat :=
  ((List.range' b (e - b)).map s.length).foldl max 0

/-- One round of the outer loop of `partition` with budget `l`, from boundary `a` to
boundary `b`: the round takes at least one sequence, stays within the collection,
reaches the budget unless the collection ends, and was below the budget before its last
sequence. -/
def partition_round (s : Sequence_set) (l a b : Nat) : Prop :=
  a < b ∧ b ≤ s.get_length ∧ (b < s.get_length → l ≤ range_letters s a b) ∧
    range_letters s a (b - 1) < l

/-! ## `enum_seeds_worker` (lines 190-240) -/

/-- A seed pattern, as far as the dispatch reads it: its length and the result of
`contiguous()`. -/
structure Shape where
  length_ : Nat
  contiguous : Bool
deriving DecidableEq, Repr

/-- The global state the dispatch reads: the shape table (`shapes[i]`,
`shapes.count()`), `Reduction::reduction.bit_size()`, `config.algo`, the constant
`Config::query_indexed` and `config.hashed_seeds`. -/
structure SeedEnv where
  shapes : Nat → Shape
  count : Nat
  bit_size : Nat
  algo : Nat
  query_indexed : Nat
  hashed_seeds : Bool

/-- A call received by the sink: `(*f)(key, position(i, j), shape_id)` or `f->finish()`. -/
inductive SinkCall where
  | emit (key seq offset shape_id : Nat)
  | finish
deriving DecidableEq, Repr

/-- The three enumeration strategies the worker dispatches to, each giving the calls
its run makes on the sink: `enum_seeds (begin, end, shape_range)`,
`enum_seeds_hashed<b> (begin, end, shape_range)` and
`enum_seeds_contiguous<Contiguous_seed_iterator<l, b>> (begin, end)`. -/
structure Strategies where
  enum_seeds : Nat → Nat → Nat × Nat → List SinkCall
  enum_seeds_hashed : Nat → Nat → Nat → Nat × Nat → List SinkCall
  enum_seeds_contiguous : Nat → Nat → Nat → Nat → List SinkCall

/-- What a worker run leaves behind: the calls the sink received and the
`std::runtime_error` that ended the run, if any. -/
structure WorkerResult where
  calls : List SinkCall
  error : Option String
deriving DecidableEq, Repr

/-- The condition of line 194.  The difference `shape_range.second - shape_range.first`
is taken on a range with `first <= second`, as every caller passes. -/
def contiguous_path (env : SeedEnv) (shape_range : Nat × Nat) (contig : Bool) : Bool :=
  decide (shape_range.2 - shape_range.1 = 1)
    && (env.shapes shape_range.1).contiguous
    && decide (env.count = 1)
    && (decide (env.algo = env.query_indexed) || contig)

/-- The function `enum_seeds_worker`. -/
def enum_seeds_worker (env : SeedEnv) (st : Strategies) (b e : Nat)
    (shape_range : Nat × Nat) (contig : Bool) : WorkerResult :=
  if contiguous_path env shape_range contig then
    let bits := env.bit_size
    let l := (env.shapes shape_range.1).length_
    if l = 7 then
      if bits = 4 then ⟨st.enum_seeds_contiguous 7 4 b e, none⟩
      else ⟨[], some "Unsupported contiguous seed."⟩
    else if l = 6 then
      if bits = 4 then ⟨st.enum_seeds_contiguous 6 4 b e, none⟩
      else ⟨[], some "Unsupported contiguous seed."⟩
    else if l = 5 then
      if bits = 4 then ⟨st.enum_seeds_contiguous 5 4 b e, none⟩
      else ⟨[], some "Unsupported contiguous seed."⟩
    else ⟨[], some "Unsupported contiguous seed."⟩
  else if env.hashed_seeds then
    if env.bit_size = 4 then ⟨st.enum_seeds_hashed 4 b e shape_range, none⟩
    else ⟨[], some "Unsupported reduction."⟩
  else ⟨st.enum_seeds b e shape_range, none⟩

/-! ## `reverse_translated_len` (lines 84-94) -/

/-- The method `Sequence_set::reverse_translated_len`. -/
def reverse_translated_len (s : Sequence_set) (i : Nat) : Nat :=
  let j := i - i % 6
  let l := s.length j
  if s.length (j + 2) = l then l * 3 + 2
  else if s.length (j + 1) = l then l * 3 + 1
  else l * 3

/-! ## The enumeration strategies (lines 123-188) -/

/-- The parts of the seed computation that are declared outside the given sources:
the reduction of a letter (`Reduction::reduction`), the positions a shape samples from
its window (`Shape`), the packing of the selected reduced letters into a key for a given
bit-width (`none` when the letters give no valid key), and the rolling hash of
`Hashed_seed_iterator` for a bit-width, a shape, a sequence and an offset. -/
structure SeedCoding where
  reduce : Letter → Letter
  positions : Nat → List Nat
  pack : Nat → List Letter → Option Nat
  hash : Nat → Nat → List Letter → Nat → Option Nat

/-- Modelled from the spec: `Reduction::reduce_seq` is declared outside the given
sources; it maps the sequence through the reduction into the scratch buffer, which then
holds as many letters as the sequence. -/
def reduce_seq (cod : SeedCoding) (seq : List Letter) : List Letter := seq.map cod.reduce

/-- Modelled from the spec: `Seed_iterator::get` is declared outside the given sources;
at offset `j` of the reduced buffer it yields the SeedKey, the packed encoding of the
reduced letters the shape selects there. -/
def seed_key (env : SeedEnv) (cod : SeedCoding) (shape_id : Nat) (buf : List Letter)
    (j : Nat) : Option Nat :=
  cod.pack env.bit_size ((cod.positions shape_id).map (fun p => buf.getD (j + p) 0))

/-- Modelled from the spec: `Contiguous_seed_iterator<l, b>::get` is declared outside
the given sources; at offset `j` it yields the SeedKey of the unbroken window of `l`
letters, reduced as they are read and packed with bit-width `b`. -/
def contiguous_key (cod : SeedCoding) (l bits : Nat) (seq : List Letter) (j : Nat) :
    Option Nat :=
  cod.pack bits ((List.range l).map (fun p => cod.reduce (seq.getD (j + p) 0)))

/-- Modelled from the spec: `Hashed_seed_iterator<b>::get` is declared outside the given
sources; at offset `j` of the raw sequence it yields the hashed key of the shape. -/
def hashed_key (cod : SeedCoding) (bits shape_id : Nat) (seq : List Letter) (j : Nat) :
    Option Nat :=
  cod.hash bits shape_id seq j

/-- Modelled from the spec: the iterators (`Seed_iterator`, `Hashed_seed_iterator`) are
declared outside the given sources; they visit, left to right, the offsets at which the
shape fits within the sequence, so `good()` holds for one offset per such position.
This is the loop `while (it.good()) { ...; ++j; }` of lines 136-141 and 159-164: the
iterator stands at offset `j` and has `n` offsets left; `key` is `it.get`. -/
def seed_loop (key : Nat → Option Nat) (contains : Nat → Nat → Bool) (i shape_id : Nat) :
    Nat → Nat → List SinkCall
  | 0, _ => []
  | n + 1, j =>
    (match key j with
      | some k => if contains k shape_id then [SinkCall.emit k i j shape_id] else []
      | none => []) ++ seed_loop key contains i shape_id n (j + 1)

/-- The loop over the shapes of lines 131-142 and 153-165 for sequence `i` of length
`seq_len`: `n` shapes are left, the next one is `shape_id`. -/
def shape_loop (shape_len : Nat → Nat) (key : Nat → Nat → Option Nat)
    (contains : Nat → Nat → Bool) (i seq_len : Nat) : Nat → Nat → List SinkCall
  | 0, _ => []
  | n + 1, shape_id =>
    (if seq_len < shape_len shape_id then []
      else seed_loop (key shape_id) contains i shape_id (seq_len - shape_len shape_id + 1) 0)
      ++ shape_loop shape_len key contains i seq_len n (shape_id + 1)

/-- The loop over the sequences of lines 128-143: `n` sequences are left, the next one
is `i`.  (The size given to `buf` at line 126 has no effect, `reduce_seq` refills it.) -/
def enum_seeds_range (s : Sequence_set) (env : SeedEnv) (cod : SeedCoding)
    (contains : Nat → Nat → Bool) (shape_range : Nat × Nat) : Nat → Nat → List SinkCall
  | 0, _ => []
  | n + 1, i =>
    shape_loop (fun sid => (env.shapes sid).length_)
        (fun sid j => seed_key env cod sid (reduce_seq cod (s.seqs.getD i [])) j)
        contains i (s.seqs.getD i []).length (shape_range.2 - shape_range.1) shape_range.1
      ++ enum_seeds_range s env cod contains shape_range n (i + 1)

/-- The private method `enum_seeds` (lines 123-145): the calls its run makes on the
sink. -/
def enum_seeds (s : Sequence_set) (env : SeedEnv) (cod : SeedCoding)
    (contains : Nat → Nat → Bool) (b e : Nat) (shape_range : Nat × Nat) : List SinkCall :=
  enum_seeds_range s env cod contains shape_range (e - b) b ++ [SinkCall.finish]

/-- The loop over the sequences of lines 151-166. -/
def enum_seeds_hashed_range (s : Sequence_set) (env : SeedEnv) (cod : SeedCoding)
    (contains : Nat → Nat → Bool) (bits : Nat) (shape_range : Nat × Nat) :
    Nat → Nat → List SinkCall
  | 0, _ => []
  | n + 1, i =>
    shape_loop (fun sid => (env.shapes sid).length_)
        (fun sid j => hashed_key cod bits sid (s.seqs.getD i []) j)
        contains i (s.seqs.getD i []).length (shape_range.2 - shape_range.1) shape_range.1
      ++ enum_seeds_hashed_range s env cod contains bits shape_range n (i + 1)

/-- The method `enum_seeds_hashed<b>` (lines 147-168). -/
def enum_seeds_hashed (s : Sequence_set) (env : SeedEnv) (cod : SeedCoding)
    (contains : Nat → Nat → Bool) (bits b e : Nat) (shape_range : Nat × Nat) :
    List SinkCall :=
  enum_seeds_hashed_range s env cod contains bits shape_range (e - b) b ++ [SinkCall.finish]

/-- The loop `while (it.good())` of lines 179-185 for sequence `i`.  The third argument
holds the calls the sink has received so far; `respond` gives the value an emit returns,
as a function of the calls received up to and including it.  The result is the calls
received when the loop is left and whether it was left by `return`. -/
def contiguous_loop (key : Nat → Option Nat) (contains : Nat → Nat → Bool)
    (respond : List SinkCall → Bool) (i : Nat) :
    Nat → Nat → List SinkCall → List SinkCall × Bool
  | 0, _, hist => (hist, false)
  | n + 1, j, hist =>
    match key j with
    | some k =>
      if contains k 0 then
        if respond (hist ++ [SinkCall.emit k i j 0]) then
          contiguous_loop key contains respond i n (j + 1) (hist ++ [SinkCall.emit k i j 0])
        else (hist ++ [SinkCall.emit k i j 0], true)
      else contiguous_loop key contains respond i n (j + 1) hist
    | none => contiguous_loop key contains respond i n (j + 1) hist

/-- The loop over the sequences of lines 174-186. -/
def contiguous_range (s : Sequence_set) (cod : SeedCoding) (contains : Nat → Nat → Bool)
    (respond : List SinkCall → Bool) (l bits : Nat) :
    Nat → Nat → List SinkCall → List SinkCall × Bool
  | 0, _, hist => (hist, false)
  | n + 1, i, hist =>
    if (s.seqs.getD i []).length < l then
      contiguous_range s cod contains respond l bits n (i + 1) hist
    else
      let r := contiguous_loop (contiguous_key cod l bits (s.seqs.getD i [])) contains
        respond i ((s.seqs.getD i []).length - l + 1) 0 hist
      if r.2 then r else contiguous_range s cod contains respond l bits n (i + 1) r.1

/-- The method `enum_seeds_contiguous<Contiguous_seed_iterator<l, b>>` (lines 170-188):
the calls its run makes on the sink. -/
def enum_seeds_contiguous (s : Sequence_set) (cod : SeedCoding)
    (contains : Nat → Nat → Bool) (respond : List SinkCall → Bool) (l bits b e : Nat) :
    List SinkCall :=
  let r := contiguous_range s cod contains respond l bits (e - b) b []
  if r.2 then r.1 else r.1 ++ [SinkCall.finish]

/-- The emits of a run for sequence `i` and shape `shape_id`. -/
def emits_of (i shape_id : Nat) (calls : List SinkCall) : List SinkCall :=
  calls.filter (fun c => match c with
    | SinkCall.emit _ seq _ sid => decide (seq = i) && decide (sid = shape_id)
    | SinkCall.finish => false)

/-- The (key, position) pairs a run has emitted. -/
def emitted_pairs (calls : List SinkCall) : List (Nat × Nat × Nat) :=
  calls.filterMap (fun c => match c with
    | SinkCall.emit k seq off _ => some (k, seq, off)
    | SinkCall.finish => none)

/-- Every call of `ext`, received after the calls `hist`, was answered with true. -/
def answered_true (respond : List SinkCall → Bool) (hist ext : List SinkCall) : Prop :=
  ∀ n, n < ext.length → respond (hist ++ ext.take (n + 1)) = true

/-- A coding for examples: the identity reduction, every shape samples two adjacent
positions, letters are packed with the given bit-width and the letter 9 gives no valid
key. -/
def sample_coding : SeedCoding :=
  { reduce := fun x => x
    positions := fun _ => [0, 1]
    pack := fun bits ls =>
      if ls.contains 9 then none else some (ls.foldl (fun a x => a * 2 ^ bits + x) 0)
    hash := fun _ _ seq j => some (seq.getD j 0) }

/-- A seed environment for examples: every shape is contiguous of length 2. -/
def sample_env : SeedEnv :=
  { shapes := fun _ => ⟨2, true⟩, count := 1, bit_size := 4, algo := 0, query_indexed := 1,
    hashed_seeds := false }

end Sequence_set

/-! # Reference definitions -/

namespace Extension

/-- The greedy reference of the envelopment culling, in the words of the specification:
scanning the sorted Hsps best-first, an Hsp is kept exactly when no Hsp kept before it
envelops it. -/
def greedy_keep (ops : HspOps) (overlap : ℚ) (sorted : List Hsp) : List Hsp :=
  sorted.foldl
    (fun kept h => if kept.any (fun k => ops.is_enveloped_by h k overlap) then kept
      else kept ++ [h]) []

/-- The reference result of `inner_culling` on the sorted list: the first `max_hsps`
entries of the greedy selection, all of them when `max_hsps == 0`. -/
def inner_culling_reference (cfg : Config) (ops : HspOps) (sorted : List Hsp) : List Hsp :=
  if cfg.max_hsps = 0 then greedy_keep ops (cfg.inner_culling_overlap / 100) sorted
  else (greedy_keep ops (cfg.inner_culling_overlap / 100) sorted).take cfg.max_hsps

/-- A candidate stripped of its identity: only the score is left. -/
def Target.score_only (t : Target) : Target := ⟨0, t.filter_score⟩

/-- The comparison "the percentage `a * 100 / b` is at least `thr`" for two lengths.  Over
a zero length the percentage of a non-zero numerator is infinite, and at least any
threshold; the percentage `0 / 0` is not a number, and no comparison with it holds. -/
def percent_ge (a b : Nat) (thr : ℚ) : Bool :=
  if b = 0 then decide (a ≠ 0) else decide (thr ≤ Rat.divInt ((a : Int) * 100) (b : Int))

/-- The percentage `a * 100 / b` is not a number: both lengths are 0. -/
def percent_nan (a b : Nat) : Bool := decide (a = 0) && decide (b = 0)

/-- The self-hit condition of lines 117-120. -/
def is_self_hit (source_query_len : Nat) (query_title title : String) (len : Nat)
    (h : Hsp) : Prop :=
  h.identities = h.length ∧ h.query_source_range.length = source_query_len ∧
    h.subject_range.length = len ∧ query_title = title

instance is_self_hit_decidable (source_query_len : Nat) (query_title title : String)
    (len : Nat) (h : Hsp) : Decidable (is_self_hit source_query_len query_title title len h) :=
  inferInstanceAs (Decidable (_ ∧ _ ∧ _ ∧ _))

/-- The survivors of the quality filtering, in the words of the specification: percent
identity, percent query coverage and percent subject coverage reach their minimums, and
the Hsp is not a self hit under `no_self_hits`. -/
def passes_filters (cfg : Config) (source_query_len : Nat) (query_title title : String)
    (len : Nat) (h : Hsp) : Bool :=
  percent_ge h.identities h.length cfg.min_id
    && percent_ge h.query_source_range.length source_query_len cfg.query_cover
    && percent_ge h.subject_range.length len cfg.subject_cover
    && !(cfg.no_self_hits
          && decide (is_self_hit source_query_len query_title title len h))

/-- The survivors of the quality filtering when a percentage that is not a number counts
as reaching its minimum. -/
def passes_filters_or_nan (cfg : Config) (source_query_len : Nat)
    (query_title title : String) (len : Nat) (h : Hsp) : Bool :=
  (percent_ge h.identities h.length cfg.min_id || percent_nan h.identities h.length)
    && (percent_ge h.query_source_range.length source_query_len cfg.query_cover
        || percent_nan h.query_source_range.length source_query_len)
    && (percent_ge h.subject_range.length len cfg.subject_cover
        || percent_nan h.subject_range.length len)
    && !(cfg.no_self_hits
          && decide (is_self_hit source_query_len query_title title len h))

end Extension

/-! # Sample data -/

namespace Extension

/-- A configuration with the quality filters off. -/
def sample_config (toppercent : ℚ) (max_alignments : Nat) : Config :=
  { inner_culling_overlap := 50, max_hsps := 0, toppercent := toppercent,
    max_alignments := max_alignments, min_id := 0, query_cover := 0, subject_cover := 0,
    no_self_hits := false }

/-- A reference store in which every target has title "target" and length 10. -/
def sample_reference : Reference := ⟨fun _ => "target", fun _ => 10⟩

/-- An Hsp of the given score covering ten positions of query and subject. -/
def sample_hsp (score : Int) : Hsp :=
  { score := score, frame := 0, length := 10, identities := 10, query_range := ⟨0, 10⟩,
    query_source_range := ⟨0, 10⟩, subject_range := ⟨0, 10⟩ }

/-- A Match with one Hsp of the given score. -/
def sample_match (id : Nat) (score : Int) : Match := ⟨id, score, [sample_hsp score]⟩

/-- An Hsp of the given score on the query range `[b, e)` in frame 0. -/
def sample_hsp_at (score b e : Int) : Hsp :=
  { score := score, frame := 0, length := 10, identities := 10, query_range := ⟨b, e⟩,
    query_source_range := ⟨0, 0⟩, subject_range := ⟨0, 10⟩ }

/-- Sample operations on Hsps: the source range is the query range, Hsps are ordered by
decreasing score, and an Hsp is enveloped by one whose source range contains its own. -/
def sample_ops : HspOps :=
  { absolute_interval := fun b e _ _ => ⟨b, e⟩
    lt := fun a b => decide (b.score < a.score)
    is_enveloped_by := fun h k _ =>
      decide (k.query_source_range.begin_ ≤ h.query_source_range.begin_ ∧
        h.query_source_range.end_ ≤ k.query_source_range.end_) }

end Extension

/-! # Theorems -/

namespace Extension

/-! ## The order of the targets -/

theorem best_first_total {α : Type} (score : α → Int) : IsTotal α (best_first score) :=
  ⟨fun a b => le_total (score b) (score a)⟩

theorem best_first_trans {α : Type} (score : α → Int) : IsTrans α (best_first score) :=
  ⟨fun _ _ _ hab hbc => le_trans hbc hab⟩

theorem best_first_refl {α : Type} (score : α → Int) : IsRefl α (best_first score) :=
  ⟨fun a => le_refl (score a)⟩

theorem sort_targets_sorted {α : Type} (score : α → Int) (l : List α) :
    (sort_targets score l).Sorted (best_first score) :=
  have := best_first_total score
  have := best_first_trans score
  List.sorted_insertionSort _ l

theorem mem_sort_targets {α : Type} (score : α → Int) (l : List α) (x : α) :
    x ∈ sort_targets score l ↔ x ∈ l :=
  List.mem_insertionSort _

theorem sort_targets_of_sorted {α : Type} (score : α → Int) (l : List α)
    (h : l.Sorted (best_first score)) : sort_targets score l = l :=
  List.Sorted.insertionSort_eq h

theorem std_sort_mem {α : Type} {score : α → Int} (S : StdSort α score) (l : List α)
    (x : α) : x ∈ S.sort l ↔ x ∈ l :=
  (S.perm l).mem_iff

theorem std_sort_singleton {α : Type} {score : α → Int} (S : StdSort α score) (x : α) :
    S.sort [x] = [x] :=
  List.perm_singleton.1 (S.perm [x])

/-- Two best-first arrangements of the same scores are the same list of scores. -/
theorem sort_scores_eq {α β : Type} {sa : α → Int} {sb : β → Int} (S : StdSort α sa)
    (l : List α) (l' : List β) (hs : l'.Sorted (best_first sb))
    (hp : (l.map sa).Perm (l'.map sb)) : (S.sort l).map sa = l'.map sb := by
  have h1 : ((S.sort l).map sa).Sorted (· ≥ ·) :=
    (List.pairwise_map).2 (S.sorted l)
  have h2 : (l'.map sb).Sorted (· ≥ ·) := (List.pairwise_map).2 hs
  exact List.eq_of_perm_of_sorted (((S.perm l).map sa).trans hp) h1 h2

/-- Two lists over entries that their images tell apart are equal when their images
are. -/
theorem eq_of_map_eq_of_nodup {α β : Type} (f : α → β) (A : List α)
    (hA : (A.map f).Nodup) :
    ∀ l1 l2 : List α, (∀ x ∈ l1, x ∈ A) → (∀ y ∈ l2, y ∈ A) →
      l1.map f = l2.map f → l1 = l2 := by
  intro l1
  induction l1 with
  | nil =>
    intro l2 _ _ h
    cases l2 with
    | nil => rfl
    | cons y ys => simp at h
  | cons x xs ih =>
    intro l2 h1 h2 h
    cases l2 with
    | nil => simp at h
    | cons y ys =>
      simp only [List.map_cons, List.cons.injEq] at h
      have hxy : x = y :=
        List.inj_on_of_nodup_map hA (h1 x (List.mem_cons_self _ _))
          (h2 y (List.mem_cons_self _ _)) h.1
      rw [hxy, ih ys (fun z hz => h1 z (List.mem_cons_of_mem _ hz))
        (fun z hz => h2 z (List.mem_cons_of_mem _ hz)) h.2]

/-- A best-first vector without equal scores is left as it is by every `std::sort`. -/
theorem std_sort_eq_of_strict {α : Type} {score : α → Int} (S : StdSort α score)
    (l : List α) (hs : l.Sorted (best_first score)) (hnd : (l.map score).Nodup) :
    S.sort l = l :=
  eq_of_map_eq_of_nodup score l hnd (S.sort l) l (fun x hx => (std_sort_mem S l x).1 hx)
    (fun _ hy => hy) (sort_scores_eq S l l hs (List.Perm.refl _))

/-- In a best-first sorted list the head has the largest score. -/
theorem head_score_max {α : Type} (score : α → Int) (t : α) (rest : List α)
    (h : (t :: rest).Sorted (best_first score)) : ∀ x ∈ t :: rest, score x ≤ score t := by
  intro x hx
  rcases List.mem_cons.1 hx with rfl | hx
  · exact le_refl _
  · exact List.rel_of_sorted_cons h x hx

/-! ## The fixed-count cut -/

theorem trim_zero_lt {α : Type} (score : α → Int) (l : List α) :
    ∀ k, 0 < k → trim_zero score l k < k := by
  intro k
  induction k with
  | zero => intro h; exact absurd h (lt_irrefl 0)
  | succ k ih =>
    intro _
    unfold trim_zero
    split
    · rename_i h
      exact lt_trans (ih h.1) (Nat.lt_succ_self k)
    · exact Nat.lt_succ_self k

theorem trim_zero_stop {α : Type} (score : α → Int) (l : List α) :
    ∀ k, 0 < k → trim_zero score l k = 0 ∨
      (l.get? (trim_zero score l k)).map score ≠ some 0 := by
  intro k
  induction k with
  | zero => intro h; exact absurd h (lt_irrefl 0)
  | succ k ih =>
    intro _
    unfold trim_zero
    split
    · rename_i h
      exact ih h.1
    · rename_i h
      by_cases hk : 0 < k
      · right
        intro hz
        exact h ⟨hk, hz⟩
      · left
        omega

/-- The entries kept by the fixed-count cut of a sorted vector with non-negative scores
and a non-zero best score all have a non-zero score. -/
theorem fixed_cut_nonzero {α : Type} (score : α → Int) (l : List α) (k : Nat)
    (hs : l.Sorted (best_first score)) (hnn : ∀ x ∈ l, 0 ≤ score x)
    (hhead : ∀ t ∈ l.head?, score t ≠ 0) (hk : 0 < k) (hkl : k ≤ l.length) :
    ∀ x ∈ l.take (trim_zero score l k + 1), score x ≠ 0 := by
  intro x hx
  obtain ⟨i, hi, rfl⟩ := List.mem_take_iff_getElem.1 hx
  have hjk := trim_zero_lt score l k hk
  have hil : i < l.length := by omega
  have hjl : trim_zero score l k < l.length := by omega
  have := best_first_refl score
  rcases trim_zero_stop score l k hk with h0 | hne
  · have hi0 : i = 0 := by omega
    subst hi0
    apply hhead
    cases l with
    | nil => simp at hil
    | cons a as => simp
  · have hrel : best_first score (l.get ⟨i, hil⟩) (l.get ⟨trim_zero score l k, hjl⟩) :=
      hs.rel_get_of_le (by show i ≤ trim_zero score l k; omega)
    have hj0 : score (l.get ⟨trim_zero score l k, hjl⟩) ≠ 0 := by
      intro hz
      apply hne
      rw [List.get?_eq_get hjl]
      simpa using hz
    have hjnn : 0 ≤ score (l.get ⟨trim_zero score l k, hjl⟩) := hnn _ (List.get_mem _ _ _)
    have hpos : 0 < score (l.get ⟨trim_zero score l k, hjl⟩) := lt_of_le_of_ne hjnn (Ne.symm hj0)
    have : 0 < score (l.get ⟨i, hil⟩) := lt_of_lt_of_le hpos hrel
    simpa using (ne_of_gt this)

/-! ## The top-percent cut -/

/-- On a best-first sorted vector the scan `while (i < end && i->filter_score >= cutoff)`
keeps exactly the entries that reach the cutoff. -/
theorem takeWhile_cutoff_eq_filter {α : Type} (score : α → Int) (c : Int) :
    ∀ l : List α, l.Sorted (best_first score) →
      l.takeWhile (fun t => decide (c ≤ score t)) = l.filter (fun t => decide (c ≤ score t)) := by
  intro l
  induction l with
  | nil => intro _; rfl
  | cons a as ih =>
    intro hs
    have hs' := List.sorted_cons.1 hs
    by_cases ha : c ≤ score a
    · simp [List.takeWhile_cons, List.filter_cons, ha, ih hs'.2]
    · have hall : ∀ b ∈ as, ¬ c ≤ score b := by
        intro b hb hcb
        exact ha (le_trans hcb (hs'.1 b hb))
      have : as.filter (fun t => decide (c ≤ score t)) = [] := by
        rw [List.filter_eq_nil_iff]
        intro b hb
        simpa using hall b hb
      simp [List.takeWhile_cons, List.filter_cons, ha, this]

/-! ## Rounding to a `double` -/

/-- Rounding to the nearest integer does not pass an integer bound. -/
theorem round_half_even_le (n d K : Nat) (hd : 0 < d) (h : n ≤ K * d) :
    round_half_even n d ≤ K := by
  have hq : n / d ≤ K := Nat.div_le_of_le_mul (by rwa [Nat.mul_comm] at h)
  unfold round_half_even
  simp only
  split_ifs with hc
  · rcases Nat.lt_or_ge (n / d) K with hlt | hge
    · omega
    · exfalso
      have hqK : n / d = K := le_antisymm hq hge
      have h1 := Nat.div_add_mod n d
      rw [hqK, Nat.mul_comm] at h1
      have hr : n % d = 0 := by omega
      rw [hr] at hc
      omega
  · exact hq

theorem log2_steps_spec : ∀ fuel n : Nat, n ≤ fuel → n ≠ 0 →
    2 ^ log2_steps fuel n ≤ n ∧ n < 2 ^ (log2_steps fuel n + 1) := by
  intro fuel
  induction fuel with
  | zero => intro n h hn; omega
  | succ fuel ih =>
    intro n h hn
    rw [log2_steps]
    split_ifs with h2
    · constructor <;> simp <;> omega
    · obtain ⟨h3, h4⟩ := ih (n / 2) (by omega) (by omega)
      rw [pow_succ] at h4 ⊢
      rw [pow_succ]
      constructor <;> omega

/-- The leading bit of a positive number. -/
theorem floor_log2_spec (n : Nat) (hn : n ≠ 0) :
    2 ^ floor_log2 n ≤ n ∧ n < 2 ^ (floor_log2 n + 1) :=
  log2_steps_spec n n (le_refl n) hn

/-- A positive quotient below `2^53` has a last place of exponent at most 0. -/
theorem ulp_exponent_nonpos (n d : Nat) (hn : 0 < n) (hd : 0 < d) (h : n < 2 ^ 53 * d) :
    ulp_exponent n d ≤ 0 := by
  have h1 : 2 ^ floor_log2 n ≤ n := (floor_log2_spec n (by omega)).1
  have h2 : d < 2 ^ (floor_log2 d + 1) := (floor_log2_spec d (by omega)).2
  have hlog : floor_log2 n < floor_log2 d + 54 := by
    by_contra hc
    have h3 : 2 ^ (floor_log2 d + 54) ≤ 2 ^ floor_log2 n :=
      Nat.pow_le_pow_right (by norm_num) (by omega)
    have h4 : 2 ^ (floor_log2 d + 54) = 2 ^ 53 * 2 ^ (floor_log2 d + 1) := by
      rw [← pow_add]; congr 1; omega
    have h5 : 2 ^ 53 * d < 2 ^ 53 * 2 ^ (floor_log2 d + 1) :=
      Nat.mul_lt_mul_of_pos_left h2 (by norm_num)
    omega
  unfold ulp_exponent
  simp only
  split_ifs with hc
  · by_cases he : (0 : Int) ≤ (floor_log2 n : Int) - (floor_log2 d : Int) - 53
    · exfalso
      have he0 : (floor_log2 n : Int) - (floor_log2 d : Int) - 53 = 0 := by omega
      rw [he0] at hc
      simp [scale_fraction] at hc
      omega
    · omega
  · omega

/-- Rounding a positive quotient of at most `R` gives at most `R`, for an integer `R`
below `2^53`. -/
theorem round_double_pos_le (n d R : Nat) (hn : 0 < n) (hd : 0 < d) (hR : R < 2 ^ 53)
    (h : n ≤ R * d) :
    0 < (round_double_pos n d).2 ∧ (round_double_pos n d).1 ≤ R * (round_double_pos n d).2 := by
  have hlt : n < 2 ^ 53 * d := lt_of_le_of_lt h (Nat.mul_lt_mul_of_pos_right hR hd)
  have he := ulp_exponent_nonpos n d hn hd hlt
  unfold round_double_pos
  simp only
  generalize ulp_exponent n d = e at he
  by_cases h0 : 0 ≤ e
  · have : e = 0 := le_antisymm he h0
    subst this
    simp only [le_refl, if_true, scale_fraction, Int.toNat_zero, pow_zero, mul_one]
    exact ⟨by norm_num, by simpa using round_half_even_le n d R hd h⟩
  · simp only [h0, if_false, scale_fraction]
    refine ⟨by positivity, ?_⟩
    apply round_half_even_le _ _ _ hd
    calc n * 2 ^ (-e).toNat ≤ (R * d) * 2 ^ (-e).toNat := Nat.mul_le_mul_right _ h
      _ = R * 2 ^ (-e).toNat * d := by ring

/-- Rounding keeps a value of `[0, R]` within `[0, R]`, for an integer `R` below `2^53`. -/
theorem round_double_le (num : Int) (den R : Nat) (hd : 0 < den) (hR : R < 2 ^ 53)
    (h0 : 0 ≤ num) (h : num ≤ (R : Int) * den) :
    0 ≤ (round_double num den).1 ∧ 0 < (round_double num den).2 ∧
      (round_double num den).1 ≤ (R : Int) * (round_double num den).2 := by
  unfold round_double
  by_cases hz : num = 0
  · simp only [hz, if_true]
    exact ⟨le_refl _, by norm_num, by positivity⟩
  · have hpos : 0 < num := lt_of_le_of_ne h0 (Ne.symm hz)
    simp only [hz, if_false, hpos, if_true]
    have hn : 0 < num.natAbs := Int.natAbs_pos.2 hz
    have hle : num.natAbs ≤ R * den := by
      have : (num.natAbs : Int) = num := Int.natAbs_of_nonneg h0
      have h' : (num.natAbs : Int) ≤ ((R * den : Nat) : Int) := by rw [this]; push_cast; exact h
      exact_mod_cast h'
    obtain ⟨h1, h2⟩ := round_double_pos_le num.natAbs den R hn hd hR hle
    exact ⟨Int.ofNat_nonneg _, h1, by exact_mod_cast h2⟩

/-- For a percentage in `[0, 100)` the raw cutoff does not exceed a positive score. -/
theorem top_score_le (tp : ℚ) (s : Int) (h0 : 0 ≤ tp) (htp : tp < 100) (hs : 0 < s) :
    top_score tp s ≤ s := by
  have hden : 0 < tp.den * 100 := by have := tp.den_pos; omega
  have hnum0 : 0 ≤ tp.num := Rat.num_nonneg.2 h0
  have hnum : tp.num ≤ ((1 : Nat) : Int) * ((tp.den * 100 : Nat) : Int) := by
    have h1 : (tp.num : ℚ) / (tp.den : ℚ) < 100 := by rw [Rat.num_div_den]; exact htp
    have hd : (0 : ℚ) < (tp.den : ℚ) := by exact_mod_cast tp.den_pos
    have h2 : (tp.num : ℚ) < 100 * (tp.den : ℚ) := by
      rwa [div_lt_iff₀ hd] at h1
    have h3 : tp.num < 100 * (tp.den : Int) := by exact_mod_cast h2
    push_cast
    omega
  obtain ⟨q0, qd, q1⟩ := round_double_le tp.num (tp.den * 100) 1 hden (by norm_num) hnum0 hnum
  unfold top_score
  simp only
  generalize round_double tp.num (tp.den * 100) = q at q0 qd q1
  obtain ⟨a0, ad, a1⟩ := round_double_le ((q.2 : Int) - q.1) q.2 1 qd (by norm_num)
    (by push_cast at q1; omega) (by push_cast; omega)
  generalize round_double ((q.2 : Int) - q.1) q.2 = a at a0 ad a1
  have hc0 : 0 < int_range s := by unfold int_range; omega
  have hcs : int_range s ≤ s := by unfold int_range; omega
  have hc53 : (int_range s).toNat < 2 ^ 53 := by unfold int_range; omega
  have hcn : ((int_range s).toNat : Int) = int_range s := Int.toNat_of_nonneg hc0.le
  obtain ⟨p0, pd, p1⟩ := round_double_le (a.1 * int_range s) a.2 (int_range s).toNat ad hc53
    (mul_nonneg a0 hc0.le) (by
      rw [hcn, mul_comm]
      push_cast at a1
      exact mul_le_mul_of_nonneg_left (by linarith) hc0.le)
  generalize round_double (a.1 * int_range s) a.2 = p at p0 pd p1
  rw [hcn] at p1
  have hpd : (0 : Int) < (p.2 : Int) := by exact_mod_cast pd
  rw [Int.tdiv_eq_ediv p0 (Int.ofNat_nonneg _)]
  have h4 : p.1 / (p.2 : Int) ≤ int_range s := by
    have := Int.ediv_le_ediv hpd p1
    rwa [Int.mul_ediv_cancel _ (ne_of_gt hpd)] at this
  omega

/-- The nearest integer is within one half of the quotient. -/
theorem round_half_even_near (n d : Nat) (hd : 0 < d) :
    2 * (round_half_even n d * d) ≤ 2 * n + d ∧ 2 * n ≤ 2 * (round_half_even n d * d) + d := by
  have h1 := Nat.div_add_mod n d
  have h2 := Nat.mod_lt n hd
  have h3 : n / d * d = d * (n / d) := Nat.mul_comm _ _
  unfold round_half_even
  simp only
  split_ifs with hc
  · rw [Nat.add_mul, h3]
    rcases hc with hc | hc <;> omega
  · rw [h3]
    have : ¬ d < 2 * (n % d) := fun h => hc (Or.inl h)
    omega

/-- Before the last adjustment the scaled quotient is at least `2^52`. -/
theorem scale_fraction_lower (n d : Nat) (hn : 0 < n) (hd : 0 < d) :
    2 ^ 52 * (scale_fraction n d ((floor_log2 n : Int) - (floor_log2 d : Int) - 53)).2
      ≤ (scale_fraction n d ((floor_log2 n : Int) - (floor_log2 d : Int) - 53)).1 := by
  have h1 : 2 ^ floor_log2 n ≤ n := (floor_log2_spec n (by omega)).1
  have h2 : d < 2 ^ (floor_log2 d + 1) := (floor_log2_spec d (by omega)).2
  unfold scale_fraction
  split_ifs with he
  · simp only
    obtain ⟨k, hk⟩ : ∃ k : Nat, ((floor_log2 n : Int) - (floor_log2 d : Int) - 53).toNat = k :=
      ⟨_, rfl⟩
    rw [hk]
    have hk' : floor_log2 n = floor_log2 d + 53 + k := by omega
    have h3 : 2 ^ 52 * (d * 2 ^ k) ≤ 2 ^ 52 * (2 ^ (floor_log2 d + 1) * 2 ^ k) :=
      Nat.mul_le_mul_left _ (Nat.mul_le_mul_right _ h2.le)
    have h4 : 2 ^ 52 * (2 ^ (floor_log2 d + 1) * 2 ^ k) = 2 ^ floor_log2 n := by
      rw [hk', ← pow_add, ← pow_add]
      congr 1
      omega
    omega
  · simp only
    obtain ⟨k, hk⟩ : ∃ k : Nat,
        (-((floor_log2 n : Int) - (floor_log2 d : Int) - 53)).toNat = k := ⟨_, rfl⟩
    rw [hk]
    have hk' : floor_log2 n + k = floor_log2 d + 53 := by omega
    have h3 : 2 ^ 52 * d ≤ 2 ^ 52 * 2 ^ (floor_log2 d + 1) := Nat.mul_le_mul_left _ h2.le
    have h4 : 2 ^ 52 * 2 ^ (floor_log2 d + 1) = 2 ^ floor_log2 n * 2 ^ k := by
      rw [← pow_add, ← pow_add, hk']
      congr 1
      omega
    have h5 : 2 ^ floor_log2 n * 2 ^ k ≤ n * 2 ^ k := Nat.mul_le_mul_right _ h1
    omega

/-- At the exponent of the last place the scaled quotient is at least `2^52`. -/
theorem ulp_exponent_lower (n d : Nat) (hn : 0 < n) (hd : 0 < d) :
    2 ^ 52 * (scale_fraction n d (ulp_exponent n d)).2
      ≤ (scale_fraction n d (ulp_exponent n d)).1 := by
  have h0 := scale_fraction_lower n d hn hd
  unfold ulp_exponent
  simp only
  generalize (floor_log2 n : Int) - (floor_log2 d : Int) - 53 = e at h0
  split_ifs with hb
  · unfold scale_fraction at hb ⊢
    by_cases he : 0 ≤ e
    · rw [if_pos he] at hb
      rw [if_pos (by omega)]
      simp only at hb ⊢
      have : (e + 1).toNat = e.toNat + 1 := by omega
      rw [this, pow_succ 2 e.toNat]
      have h : 2 ^ 52 * (d * (2 ^ e.toNat * 2)) = 2 ^ 53 * (d * 2 ^ e.toNat) := by ring
      rw [h]
      exact hb
    · rw [if_neg he] at hb
      simp only at hb
      by_cases he1 : e = -1
      · subst he1
        rw [if_pos (by decide)]
        simp only
        have h1 : (-(-1 : Int)).toNat = 1 := by decide
        have h2 : ((-1 : Int) + 1).toNat = 0 := by decide
        rw [h1] at hb
        rw [h2]
        omega
      · rw [if_neg (by omega)]
        simp only
        have : (-e).toNat = (-(e + 1)).toNat + 1 := by omega
        rw [this, pow_succ 2 (-(e + 1)).toNat] at hb
        have h : n * (2 ^ (-(e + 1)).toNat * 2) = 2 * (n * 2 ^ (-(e + 1)).toNat) := by ring
        rw [h] at hb
        omega
  · exact h0

/-- Rounding a positive quotient changes it by at most one part in `2^53`. -/
theorem round_double_pos_near (n d : Nat) (hn : 0 < n) (hd : 0 < d) :
    2 ^ 53 * ((round_double_pos n d).1 * d) ≤ 2 ^ 53 * (n * (round_double_pos n d).2)
        + n * (round_double_pos n d).2 ∧
    2 ^ 53 * (n * (round_double_pos n d).2) ≤ 2 ^ 53 * ((round_double_pos n d).1 * d)
        + n * (round_double_pos n d).2 := by
  have hA := ulp_exponent_lower n d hn hd
  unfold round_double_pos
  simp only
  generalize ulp_exponent n d = e at hA
  unfold scale_fraction at hA ⊢
  by_cases he : 0 ≤ e
  · simp only [he, if_true] at hA ⊢
    have hD : 0 < d * 2 ^ e.toNat := by positivity
    obtain ⟨b1, b2⟩ := round_half_even_near n (d * 2 ^ e.toNat) hD
    generalize round_half_even n (d * 2 ^ e.toNat) = m at b1 b2
    have e1 : m * 2 ^ e.toNat * d = m * (d * 2 ^ e.toNat) := by ring
    rw [e1, Nat.mul_one]
    generalize m * (d * 2 ^ e.toNat) = X at b1 b2
    generalize d * 2 ^ e.toNat = D at hA b1 b2
    constructor <;> omega
  · simp only [he, if_false] at hA ⊢
    obtain ⟨b1, b2⟩ := round_half_even_near (n * 2 ^ (-e).toNat) d hd
    generalize round_half_even (n * 2 ^ (-e).toNat) d = m at b1 b2
    generalize n * 2 ^ (-e).toNat = N at hA b1 b2
    generalize m * d = X at b1 b2
    constructor <;> omega


theorem round_double_pos_den_pos (n d : Nat) : 0 < (round_double_pos n d).2 := by
  unfold round_double_pos
  simp only
  split_ifs
  · exact Nat.one_pos
  · positivity

/-- Rounding a non-negative quotient changes it by at most one part in `2^53`. -/
theorem round_double_near (num : Int) (den : Nat) (h0 : 0 ≤ num) (hd : 0 < den) :
    |((round_double num den).1 : ℚ) / ((round_double num den).2 : ℚ) - (num : ℚ) / (den : ℚ)|
      ≤ (num : ℚ) / (den : ℚ) / 2 ^ 53 := by
  unfold round_double
  by_cases hz : num = 0
  · simp [hz]
  · have hpos : 0 < num := lt_of_le_of_ne h0 (Ne.symm hz)
    simp only [hz, if_false, hpos, if_true]
    have hn : 0 < num.natAbs := Int.natAbs_pos.2 hz
    obtain ⟨b1, b2⟩ := round_double_pos_near num.natAbs den hn hd
    have hr2 := round_double_pos_den_pos num.natAbs den
    have hnum : (num : ℚ) = ((num.natAbs : Nat) : ℚ) := by
      have h : (num.natAbs : Int) = num := Int.natAbs_of_nonneg h0
      calc (num : ℚ) = ((num.natAbs : Int) : ℚ) := by rw [h]
        _ = ((num.natAbs : Nat) : ℚ) := Int.cast_natCast _
    rw [hnum]
    generalize num.natAbs = n at hn b1 b2 hr2
    generalize round_double_pos n den = r at b1 b2 hr2
    have c1 : (2 : ℚ) ^ 53 * ((r.1 : ℚ) * den) ≤ 2 ^ 53 * ((n : ℚ) * r.2) + (n : ℚ) * r.2 := by
      exact_mod_cast b1
    have c2 : (2 : ℚ) ^ 53 * ((n : ℚ) * r.2) ≤ 2 ^ 53 * ((r.1 : ℚ) * den) + (n : ℚ) * r.2 := by
      exact_mod_cast b2
    have hd' : (0 : ℚ) < (den : ℚ) := by exact_mod_cast hd
    have hr' : (0 : ℚ) < (r.2 : ℚ) := by exact_mod_cast hr2
    have hcast : (((r.1 : Nat) : Int) : ℚ) = ((r.1 : Nat) : ℚ) := Int.cast_natCast _
    rw [hcast]
    have hK : (0 : ℚ) < 2 ^ 53 * ((den : ℚ) * r.2) := by positivity
    have e1 : (r.1 : ℚ) / r.2 = (2 ^ 53 * ((r.1 : ℚ) * den)) / (2 ^ 53 * ((den : ℚ) * r.2)) := by
      field_simp
      ring
    have e2 : (n : ℚ) / den = (2 ^ 53 * ((n : ℚ) * r.2)) / (2 ^ 53 * ((den : ℚ) * r.2)) := by
      field_simp
      ring
    have e3 : (n : ℚ) / den / 2 ^ 53 = ((n : ℚ) * r.2) / (2 ^ 53 * ((den : ℚ) * r.2)) := by
      field_simp
      ring
    rw [e3, e1, e2, ← sub_div, abs_le, ← neg_div, div_le_div_iff_of_pos_right hK, div_le_div_iff_of_pos_right hK]
    constructor <;> linarith


/-- The cutoff computed in `double` arithmetic is the floor of the exact product
`(1 - toppercent/100) * score` or differs from it by 1, for a percentage in `[0, 100]`
and a non-negative `int` score. -/
theorem top_score_near_floor (tp : ℚ) (s : Int) (h0 : 0 ≤ tp) (h100 : tp ≤ 100)
    (hs0 : 0 ≤ s) (hs : s < 2 ^ 31) :
    |top_score tp s - ⌊(1 - tp / 100) * (s : ℚ)⌋| ≤ 1 := by
  have hden : 0 < tp.den * 100 := by have := tp.den_pos; omega
  have hnum0 : 0 ≤ tp.num := Rat.num_nonneg.2 h0
  have hdq : (0 : ℚ) < (tp.den : ℚ) := by exact_mod_cast tp.den_pos
  have hnum : tp.num ≤ ((1 : Nat) : Int) * ((tp.den * 100 : Nat) : Int) := by
    have h1 : (tp.num : ℚ) / (tp.den : ℚ) ≤ 100 := by rw [Rat.num_div_den]; exact h100
    have h2 : (tp.num : ℚ) ≤ 100 * (tp.den : ℚ) := by
      rwa [div_le_iff₀ hdq] at h1
    have h3 : tp.num ≤ 100 * (tp.den : Int) := by exact_mod_cast h2
    push_cast
    omega
  -- the quotient
  have hq : (tp.num : ℚ) / ((tp.den * 100 : Nat) : ℚ) = tp / 100 := by
    push_cast
    rw [← div_div, Rat.num_div_den]
  obtain ⟨q0, qd, q1⟩ := round_double_le tp.num (tp.den * 100) 1 hden (by norm_num) hnum0 hnum
  have qn := round_double_near tp.num (tp.den * 100) hnum0 hden
  rw [hq] at qn
  unfold top_score
  simp only
  generalize round_double tp.num (tp.den * 100) = q at q0 qd q1 qn
  have hqd : (0 : ℚ) < (q.2 : ℚ) := by exact_mod_cast qd
  -- the difference
  have ha : (((q.2 : Int) - q.1 : Int) : ℚ) / (q.2 : ℚ) = 1 - (q.1 : ℚ) / (q.2 : ℚ) := by
    push_cast
    rw [sub_div, div_self hqd.ne']
  have a0' : (0 : Int) ≤ (q.2 : Int) - q.1 := by push_cast at q1; omega
  obtain ⟨a0, ad, a1⟩ := round_double_le ((q.2 : Int) - q.1) q.2 1 qd (by norm_num) a0'
    (by push_cast; omega)
  have an := round_double_near ((q.2 : Int) - q.1) q.2 a0' qd
  rw [ha] at an
  generalize round_double ((q.2 : Int) - q.1) q.2 = a at a0 ad a1 an
  have had : (0 : ℚ) < (a.2 : ℚ) := by exact_mod_cast ad
  -- the product
  have hc : int_range s = s := by unfold int_range; omega
  rw [hc]
  have hp : ((a.1 * s : Int) : ℚ) / (a.2 : ℚ) = (a.1 : ℚ) / (a.2 : ℚ) * (s : ℚ) := by
    push_cast
    ring
  have pn := round_double_near (a.1 * s) a.2 (mul_nonneg a0 hs0) ad
  rw [hp] at pn
  have p0 : 0 ≤ (round_double (a.1 * s) a.2).1 := by
    by_cases hz : a.1 * s = 0
    · simp [round_double, hz]
    · have hpos : 0 < a.1 * s := lt_of_le_of_ne (mul_nonneg a0 hs0) (Ne.symm hz)
      simp only [round_double, hz, if_false, hpos, if_true]
      exact Int.ofNat_nonneg _
  generalize round_double (a.1 * s) a.2 = p at pn p0
  -- the three values as rationals
  have hQ1 : (q.1 : ℚ) / (q.2 : ℚ) ≤ 1 := by
    rw [div_le_one hqd]
    have : q.1 ≤ (q.2 : Int) := by push_cast at q1; omega
    exact_mod_cast this
  have hQ0 : 0 ≤ (q.1 : ℚ) / (q.2 : ℚ) := div_nonneg (by exact_mod_cast q0) hqd.le
  have hA1 : (a.1 : ℚ) / (a.2 : ℚ) ≤ 1 := by
    rw [div_le_one had]
    have : a.1 ≤ (a.2 : Int) := by push_cast at a1; omega
    exact_mod_cast this
  have hA0 : 0 ≤ (a.1 : ℚ) / (a.2 : ℚ) := div_nonneg (by exact_mod_cast a0) had.le
  have hT0 : 0 ≤ tp / 100 := by positivity
  have hT1 : tp / 100 ≤ 1 := by linarith
  have hsq0 : (0 : ℚ) ≤ (s : ℚ) := by exact_mod_cast hs0
  have hsq : (s : ℚ) ≤ 2 ^ 31 := by exact_mod_cast hs.le
  generalize (q.1 : ℚ) / (q.2 : ℚ) = Q at qn an hQ0 hQ1
  generalize (a.1 : ℚ) / (a.2 : ℚ) = A at an pn hA0 hA1
  generalize tp / 100 = t at qn hT0 hT1
  rw [Int.tdiv_eq_ediv p0 (Int.ofNat_nonneg _), ← Rat.floor_intCast_div_natCast]
  generalize (p.1 : ℚ) / (p.2 : ℚ) = P at pn
  rw [abs_le] at qn an pn
  have u : (0 : ℚ) < 2 ^ 53 := by positivity
  have e1 : t / 2 ^ 53 ≤ 1 / 2 ^ 53 := div_le_div_of_nonneg_right hT1 u.le
  have e2 : (1 - Q) / 2 ^ 53 ≤ 1 / 2 ^ 53 := div_le_div_of_nonneg_right (by linarith) u.le
  have e3 : A * (s : ℚ) / 2 ^ 53 ≤ (s : ℚ) / 2 ^ 53 :=
    div_le_div_of_nonneg_right (by nlinarith) u.le
  have e4 : (s : ℚ) / 2 ^ 53 ≤ 2 ^ 31 / 2 ^ 53 := div_le_div_of_nonneg_right hsq u.le
  have d1 : |A - (1 - t)| ≤ 2 / 2 ^ 53 := by
    rw [abs_le]
    constructor <;> linarith [qn.1, qn.2, an.1, an.2]
  have d2 : |A * (s : ℚ) - (1 - t) * (s : ℚ)| ≤ 2 / 2 ^ 53 * 2 ^ 31 := by
    rw [← sub_mul, abs_mul, abs_of_nonneg hsq0]
    exact mul_le_mul d1 hsq (by positivity) (by positivity)
  rw [abs_le] at d2
  have hlt : |P - (1 - t) * (s : ℚ)| < 1 := by
    rw [abs_lt]
    have hsmall : (2 : ℚ) / 2 ^ 53 * 2 ^ 31 + 2 ^ 31 / 2 ^ 53 < 1 := by norm_num
    constructor <;> linarith [pn.1, pn.2, d2.1, d2.2]
  rw [abs_lt] at hlt
  rw [abs_le]
  constructor
  · have h1 : (1 - t) * (s : ℚ) < P + 1 := by linarith [hlt.1]
    have h2 : ⌊(1 - t) * (s : ℚ)⌋ ≤ ⌊P + 1⌋ := Int.floor_le_floor h1.le
    rw [Int.floor_add_one] at h2
    omega
  · have h1 : P ≤ (1 - t) * (s : ℚ) + 1 := by linarith [hlt.2]
    have h2 : ⌊P⌋ ≤ ⌊(1 - t) * (s : ℚ) + 1⌋ := Int.floor_le_floor h1
    rw [Int.floor_add_one] at h2
    omega

/-! ## `culling` -/

/-- The vector `culling` sorts: every Match after `apply_filters`. -/
theorem culling_unfold (S : StdSort Match Match.filter_score) (cfg : Config)
    (ref : Reference) (targets : List Match) (len : Nat) (title : String) :
    culling S cfg ref targets len title =
      kept_front cfg Match.filter_score (S.sort
          (targets.map (fun m => m.apply_filters cfg ref len title))) := by
  unfold culling kept_front
  simp only
  generalize S.sort _ = L
  cases L <;> rfl

/-- C1: in fixed-count mode (`toppercent == 100`) with `max_alignments >= 1` and
non-negative filter scores, the list left by `culling` has at most `max_alignments`
entries and no entry whose `filter_score` is 0. -/
theorem culling_fixed_count_bound (S : StdSort Match Match.filter_score) (cfg : Config)
    (ref : Reference) (targets : List Match) (len : Nat) (title : String)
    (htp : cfg.toppercent = 100) (hma : 1 ≤ cfg.max_alignments)
    (hnn : ∀ m ∈ targets, 0 ≤ (m.apply_filters cfg ref len title).filter_score) :
    (culling S cfg ref targets len title).length ≤ cfg.max_alignments ∧
      ∀ m ∈ culling S cfg ref targets len title, m.filter_score ≠ 0 := by
  rw [culling_unfold]
  have hs := S.sorted (targets.map (fun m => m.apply_filters cfg ref len title))
  have hnn' : ∀ x ∈ S.sort
      (targets.map (fun m => m.apply_filters cfg ref len title)), 0 ≤ x.filter_score := by
    intro x hx
    rw [std_sort_mem, List.mem_map] at hx
    obtain ⟨m, hm, rfl⟩ := hx
    exact hnn m hm
  generalize S.sort
    (targets.map (fun m => m.apply_filters cfg ref len title)) = L at hs hnn'
  cases L with
  | nil => simp [kept_front]
  | cons t rest =>
    simp only [kept_front]
    split
    · simp
    · rename_i ht
      have hnot : ¬ cfg.toppercent < 100 := by rw [htp]; exact lt_irrefl _
      unfold select_front
      rw [if_neg hnot]
      have hk : 0 < min cfg.max_alignments (t :: rest).length := by
        simp only [List.length_cons]; omega
      have hlt := trim_zero_lt Match.filter_score (t :: rest) _ hk
      constructor
      · rw [List.length_take]
        omega
      · exact fixed_cut_nonzero Match.filter_score (t :: rest) _ hs hnn'
          (by intro x hx; simp at hx; subst hx; exact ht) hk (min_le_right _ _)

/-- The fixed-count bound at three Matches, one of them without an Hsp, and
`max_alignments = 2`. -/
theorem culling_fixed_count_bound_witness :
    (sample_config 100 2).toppercent = 100 ∧ 1 ≤ (sample_config 100 2).max_alignments ∧
    (culling (stable_sort Match.filter_score) (sample_config 100 2) sample_reference
        [sample_match 1 100, ⟨2, 5, []⟩, sample_match 3 50, sample_match 4 7] 10 "query").length
      ≤ (sample_config 100 2).max_alignments ∧
    ∀ m ∈ culling (stable_sort Match.filter_score) (sample_config 100 2) sample_reference
        [sample_match 1 100, ⟨2, 5, []⟩, sample_match 3 50, sample_match 4 7] 10 "query",
      m.filter_score ≠ 0 :=
  ⟨by decide, by decide,
    culling_fixed_count_bound (stable_sort Match.filter_score) (sample_config 100 2)
      sample_reference
      [sample_match 1 100, ⟨2, 5, []⟩, sample_match 3 50, sample_match 4 7] 10 "query"
      (by decide) (by decide) (by decide)⟩

/-- C2 (as stated, refuted): with `toppercent = 90` and the scores 100 and 9, the cutoff
of the claim is `max(floor((1 - 90/100) * 100), 1) = 10` and excludes the Match of score
9, but the product computed in `double` is just below 10, `int` makes it 9, and
`culling` keeps both Matches. -/
theorem culling_top_percent_rounding :
    max ⌊(1 - (90 : ℚ) / 100) * ((100 : Int) : ℚ)⌋ 1 = 10 ∧
    (sample_match 2 9).filter_score < 10 ∧
    top_score 90 100 = 9 ∧
    ∀ S : StdSort Match Match.filter_score,
      culling S (sample_config 90 1) sample_reference
          [sample_match 1 100, sample_match 2 9] 10 "query"
        = [sample_match 1 100, sample_match 2 9] := by
  refine ⟨?_, by decide, by decide, ?_⟩
  · have h : (1 - (90 : ℚ) / 100) * ((100 : Int) : ℚ) = ((10 : Int) : ℚ) := by norm_num
    rw [h, Int.floor_intCast]
    decide
  · intro S
    have hf : [sample_match 1 100, sample_match 2 9].map
        (fun m => m.apply_filters (sample_config 90 1) sample_reference 10 "query")
        = [sample_match 1 100, sample_match 2 9] := by decide
    rw [culling_unfold, hf, std_sort_eq_of_strict S _ (by decide) (by decide)]
    decide

/-- C2 (amended): in percentage mode (`toppercent < 100`), when the best `filter_score`
after filtering is positive, `culling` keeps exactly the Matches whose `filter_score` is
at least `max(c, 1)`, in best-first order (so ties at the boundary score are all kept),
where `c` is `int((1.0 - toppercent/100.0) * best)` as computed in `double` arithmetic,
which is `floor((1 - toppercent/100) * best)` or differs from it by 1 (for `toppercent`
in `[0, 100)` and a best score in the range of `int`); on the scores `[100, 80, 50, 10]`
with `toppercent = 70` the cutoff is 30 and the kept scores are `[100, 80, 50]`. -/
theorem culling_top_percent (S : StdSort Match Match.filter_score) (cfg : Config)
    (ref : Reference) (targets : List Match) (len : Nat) (title : String) (best : Match)
    (htp : cfg.toppercent < 100)
    (hbest : best ∈ targets.map (fun m => m.apply_filters cfg ref len title))
    (hmax : ∀ m ∈ targets.map (fun m => m.apply_filters cfg ref len title),
      m.filter_score ≤ best.filter_score)
    (hpos : 0 < best.filter_score) :
    (culling S cfg ref targets len title =
      (S.sort (targets.map (fun m => m.apply_filters cfg ref len title))).filter
        (fun m => decide
          (max (top_score cfg.toppercent best.filter_score) 1 ≤ m.filter_score))) ∧
    (0 ≤ cfg.toppercent → best.filter_score < 2 ^ 31 →
      |top_score cfg.toppercent best.filter_score
          - ⌊(1 - cfg.toppercent / 100) * (best.filter_score : ℚ)⌋| ≤ 1) ∧
    (max (top_score 70 100) 1 = 30 ∧
      ∀ S0 : StdSort Match Match.filter_score,
        (culling S0 (sample_config 70 1) sample_reference
          [sample_match 1 100, sample_match 2 80, sample_match 3 50, sample_match 4 10]
          10 "query").map Match.filter_score = [100, 80, 50]) := by
  refine ⟨?_, fun h0 hr => top_score_near_floor _ _ h0 htp.le hpos.le hr, by decide, ?_⟩
  · rw [culling_unfold]
    have hs := S.sorted (targets.map (fun m => m.apply_filters cfg ref len title))
    have hb := (std_sort_mem S _ best).2 hbest
    have hmax' : ∀ x ∈ S.sort
        (targets.map (fun m => m.apply_filters cfg ref len title)),
        x.filter_score ≤ best.filter_score := fun x hx =>
      hmax x ((std_sort_mem S _ x).1 hx)
    generalize S.sort
      (targets.map (fun m => m.apply_filters cfg ref len title)) = L at hs hb hmax'
    cases L with
    | nil => simp at hb
    | cons t rest =>
      have ht : t.filter_score = best.filter_score :=
        le_antisymm (hmax' t (List.mem_cons_self _ _))
          (head_score_max Match.filter_score t rest hs best hb)
      simp only [kept_front]
      rw [if_neg (by rw [ht]; exact ne_of_gt hpos)]
      unfold select_front
      rw [if_pos htp, ht]
      exact takeWhile_cutoff_eq_filter Match.filter_score _ _ hs
  · intro S0
    have hf : [sample_match 1 100, sample_match 2 80, sample_match 3 50,
        sample_match 4 10].map
        (fun m => m.apply_filters (sample_config 70 1) sample_reference 10 "query")
        = [sample_match 1 100, sample_match 2 80, sample_match 3 50, sample_match 4 10] := by
      decide
    rw [culling_unfold, hf, std_sort_eq_of_strict S0 _ (by decide) (by decide)]
    decide

/-- The top-percent selection at the scores `[10, 100, 50, 80, 30]` with
`toppercent = 70`. -/
theorem culling_top_percent_witness :
    (culling (stable_sort Match.filter_score) (sample_config 70 1) sample_reference
        [sample_match 1 10, sample_match 2 100, sample_match 3 50, sample_match 4 80,
          sample_match 5 30] 10 "query").map Match.filter_score = [100, 80, 50, 30] := by
  have h := (culling_top_percent (stable_sort Match.filter_score) (sample_config 70 1)
    sample_reference
    [sample_match 1 10, sample_match 2 100, sample_match 3 50, sample_match 4 80,
      sample_match 5 30] 10 "query" (sample_match 2 100)
    (by decide) (by decide) (by decide) (by decide)).1
  rw [h]
  decide

/-- C3: in both selection modes (`toppercent` in `[0, 100]`, `max_alignments >= 1`,
non-negative scores) the list left by `culling` is sorted best-first, and it is empty if
and only if no Match has a non-zero `filter_score` after `apply_filters`. -/
theorem culling_sorted_and_empty_iff (S : StdSort Match Match.filter_score) (cfg : Config)
    (ref : Reference) (targets : List Match) (len : Nat) (title : String)
    (h0 : 0 ≤ cfg.toppercent) (_h100 : cfg.toppercent ≤ 100) (_hma : 1 ≤ cfg.max_alignments)
    (hnn : ∀ m ∈ targets, 0 ≤ (m.apply_filters cfg ref len title).filter_score) :
    (culling S cfg ref targets len title).Sorted (best_first Match.filter_score) ∧
    (culling S cfg ref targets len title = [] ↔
      ∀ m ∈ targets, (m.apply_filters cfg ref len title).filter_score = 0) := by
  rw [culling_unfold]
  have hs := S.sorted (targets.map (fun m => m.apply_filters cfg ref len title))
  have hmem : ∀ x, x ∈ S.sort
      (targets.map (fun m => m.apply_filters cfg ref len title)) ↔
      ∃ m ∈ targets, m.apply_filters cfg ref len title = x := by
    intro x
    rw [std_sort_mem, List.mem_map]
  generalize S.sort
    (targets.map (fun m => m.apply_filters cfg ref len title)) = L at hs hmem
  cases L with
  | nil =>
    refine ⟨List.sorted_nil, ?_⟩
    simp only [kept_front, true_iff]
    intro m hm
    exact absurd ((hmem _).2 ⟨m, hm, rfl⟩) (List.not_mem_nil _)
  | cons t rest =>
    simp only [kept_front]
    obtain ⟨mt, hmt, hmt'⟩ := (hmem t).1 (List.mem_cons_self _ _)
    have htop := head_score_max Match.filter_score t rest hs
    split
    · rename_i ht
      refine ⟨List.sorted_nil, ?_⟩
      simp only [true_iff]
      intro m hm
      have h1 := htop _ ((hmem _).2 ⟨m, hm, rfl⟩)
      have h2 := hnn m hm
      omega
    · rename_i ht
      have htpos : 0 < t.filter_score := by
        have := hnn mt hmt
        rw [hmt'] at this
        omega
      have hne : ¬ ∀ m ∈ targets, (m.apply_filters cfg ref len title).filter_score = 0 := by
        intro hall
        apply ht
        rw [← hmt']
        exact hall mt hmt
      unfold select_front
      split
      · rename_i htp
        refine ⟨List.Pairwise.sublist (List.takeWhile_sublist _) hs, ?_⟩
        have hcut := top_score_le _ _ h0 htp htpos
        have hone : 1 ≤ t.filter_score := by omega
        simp [List.takeWhile_cons, hcut, hone, hne]
      · refine ⟨List.Pairwise.sublist (List.take_sublist _ _) hs, ?_⟩
        simp [List.take_succ_cons, hne]

/-- Sortedness and non-emptiness at three Matches in fixed-count mode. -/
theorem culling_sorted_and_empty_iff_witness :
    (culling (stable_sort Match.filter_score) (sample_config 100 2) sample_reference
        [sample_match 1 3, ⟨2, 5, []⟩, sample_match 3 50] 10 "query").Sorted
      (best_first Match.filter_score) ∧
    (culling (stable_sort Match.filter_score) (sample_config 100 2) sample_reference
        [sample_match 1 3, ⟨2, 5, []⟩, sample_match 3 50] 10 "query" = [] ↔
      ∀ m ∈ [sample_match 1 3, ⟨2, 5, []⟩, sample_match 3 50],
        (m.apply_filters (sample_config 100 2) sample_reference 10 "query").filter_score = 0) :=
  culling_sorted_and_empty_iff (stable_sort Match.filter_score) (sample_config 100 2)
    sample_reference
    [sample_match 1 3, ⟨2, 5, []⟩, sample_match 3 50] 10 "query"
    (by decide) (by decide) (by decide) (by decide)

/-! ## The selection in closed form -/

theorem select_front_sublist {α : Type} (cfg : Config) (score : α → Int) (best : Int)
    (L : List α) : (select_front cfg score best L).Sublist L := by
  unfold select_front
  split
  · exact List.takeWhile_sublist _
  · exact List.take_sublist _ _

theorem kept_front_sublist {α : Type} (cfg : Config) (score : α → Int) (L : List α) :
    (kept_front cfg score L).Sublist L := by
  cases L with
  | nil => exact List.Sublist.refl _
  | cons t rest =>
    simp only [kept_front]
    split
    · exact List.nil_sublist _
    · exact select_front_sublist _ _ _ _

/-- Behind the first entry of a sorted vector that misses a cutoff, every entry misses
it. -/
theorem dropWhile_cutoff_fail {α : Type} (score : α → Int) (c : Int) :
    ∀ l : List α, l.Sorted (best_first score) →
      ∀ z ∈ l.dropWhile (fun t => decide (c ≤ score t)), ¬ c ≤ score z := by
  intro l
  induction l with
  | nil => intro _ z hz; simp at hz
  | cons a as ih =>
    intro hs z hz
    have hs' := List.sorted_cons.1 hs
    by_cases ha : c ≤ score a
    · rw [List.dropWhile_cons_of_pos (by simpa using ha)] at hz
      exact ih hs'.2 z hz
    · rw [List.dropWhile_cons_of_neg (by simpa using ha)] at hz
      rcases List.mem_cons.1 hz with rfl | hz
      · exact ha
      · exact fun hc => ha (le_trans hc (hs'.1 z hz))

/-- The loop of lines 101 and 144 on a vector that is a block of non-zero scores
followed by a block of zero scores: it stops at the end of the window or at the last
non-zero score, whichever comes first. -/
theorem trim_zero_append {α : Type} (score : α → Int) (A Z : List α)
    (hA : ∀ a ∈ A, score a ≠ 0) (hZ : ∀ z ∈ Z, score z = 0) (hne : A ≠ []) :
    ∀ k, 1 ≤ k → k ≤ (A ++ Z).length →
      trim_zero score (A ++ Z) k + 1 = min k A.length := by
  have hlen : 1 ≤ A.length := by
    cases A with
    | nil => exact absurd rfl hne
    | cons a as => simp
  intro k
  induction k with
  | zero => intro h; omega
  | succ k ih =>
    intro _ hk
    unfold trim_zero
    by_cases hkA : k < A.length
    · have hget : (A ++ Z).get? k = some (A.get ⟨k, hkA⟩) := by
        rw [List.get?_eq_getElem?, List.getElem?_append_left hkA, List.getElem?_eq_getElem hkA]
        rfl
      have hnz := hA _ (List.get_mem A k hkA)
      rw [if_neg]
      · omega
      · rintro ⟨_, h⟩
        rw [hget] at h
        simp at h
        exact hnz h
    · have hkZ : k - A.length < Z.length := by
        rw [List.length_append] at hk; omega
      have hget : (A ++ Z).get? k = some (Z.get ⟨k - A.length, hkZ⟩) := by
        rw [List.get?_eq_getElem?, List.getElem?_append_right (by omega),
          List.getElem?_eq_getElem hkZ]
        rfl
      have hz := hZ _ (List.get_mem Z (k - A.length) hkZ)
      rw [if_pos]
      · rw [ih (by omega) (by omega)]
        omega
      · refine ⟨by omega, ?_⟩
        rw [hget]
        simpa using hz

/-- On a sorted vector with non-negative scores and `max_alignments >= 1`, the code of
lines 132-147 keeps what the closed form keeps. -/
theorem kept_front_eq_closed {α : Type} (cfg : Config) (score : α → Int) (L : List α)
    (hma : 1 ≤ cfg.max_alignments) (hs : L.Sorted (best_first score))
    (hnn : ∀ x ∈ L, 0 ≤ score x) :
    kept_front cfg score L = kept_closed cfg score L := by
  cases L with
  | nil => simp [kept_front, kept_closed]
  | cons t rest =>
    have htop := head_score_max score t rest hs
    unfold kept_front kept_closed
    simp only [head_score, List.head?_cons, Option.map_some', Option.getD_some]
    by_cases ht : score t = 0
    · rw [if_pos ht]
      split
      · symm
        rw [List.filter_eq_nil_iff]
        intro x hx
        have h1 := htop x hx
        have h2 : (1 : Int) ≤ max (top_score cfg.toppercent (score t)) 1 := le_max_right _ _
        simp only [decide_eq_true_eq]
        omega
      · have : (t :: rest).filter (fun x => decide (1 ≤ score x)) = [] := by
          rw [List.filter_eq_nil_iff]
          intro x hx
          have h1 := htop x hx
          simp only [decide_eq_true_eq]
          omega
        rw [this]
        simp
    · rw [if_neg ht]
      unfold select_front
      split
      · exact takeWhile_cutoff_eq_filter score _ _ hs
      · have hsplit := List.takeWhile_append_dropWhile (fun x => decide (1 ≤ score x)) (t :: rest)
        have hA : ∀ a ∈ (t :: rest).takeWhile (fun x => decide (1 ≤ score x)), score a ≠ 0 := by
          intro a ha
          have := List.mem_takeWhile_imp ha
          simp only [decide_eq_true_eq] at this
          omega
        have hZ : ∀ z ∈ (t :: rest).dropWhile (fun x => decide (1 ≤ score x)), score z = 0 := by
          intro z hz
          have h1 := dropWhile_cutoff_fail score 1 _ hs z hz
          have h2 := hnn z ((List.dropWhile_sublist _).subset hz)
          omega
        have htpos : 1 ≤ score t := by
          have := hnn t (List.mem_cons_self _ _)
          omega
        have hne : (t :: rest).takeWhile (fun x => decide (1 ≤ score x)) ≠ [] := by
          rw [List.takeWhile_cons_of_pos (by simpa using htpos)]
          exact List.cons_ne_nil _ _
        rw [← takeWhile_cutoff_eq_filter score 1 _ hs]
        generalize (t :: rest).takeWhile (fun x => decide (1 ≤ score x)) = A at hsplit hA hne
        generalize (t :: rest).dropWhile (fun x => decide (1 ≤ score x)) = Z at hsplit hZ
        rw [← hsplit]
        have hk1 : 1 ≤ min cfg.max_alignments (A ++ Z).length := by
          have : 1 ≤ (A ++ Z).length := by rw [hsplit]; simp
          omega
        rw [trim_zero_append score A Z hA hZ hne _ hk1 (min_le_right _ _)]
        rw [List.take_append_of_le_length (min_le_right _ _)]
        have hmin : min (min cfg.max_alignments (A ++ Z).length) A.length
            = min cfg.max_alignments A.length := by
          rw [List.length_append]; omega
        rw [hmin, ← List.take_take, List.take_length]

/-! ## Algebra of the closed form -/

theorem take_take_append {α : Type} (n : Nat) (X Y : List α) :
    (X.take n ++ Y).take n = (X ++ Y).take n := by
  by_cases h : n ≤ X.length
  · rw [List.take_append_of_le_length (by rw [List.length_take]; omega),
      List.take_append_of_le_length h, List.take_take, min_self]
  · rw [List.take_of_length_le (l := X) (by omega)]

theorem head_score_append {α : Type} (score : α → Int) (p : α) (P Y : List α) :
    head_score score (p :: P ++ Y) = head_score score (p :: P) := by
  simp [head_score]

theorem kept_closed_pct {α : Type} (cfg : Config) (score : α → Int) (L : List α)
    (htp : cfg.toppercent < 100) :
    kept_closed cfg score L = L.filter (fun t => decide
      (max (top_score cfg.toppercent (head_score score L)) 1 ≤ score t)) := by
  unfold kept_closed; rw [if_pos htp]

theorem kept_closed_fix {α : Type} (cfg : Config) (score : α → Int) (L : List α)
    (htp : ¬ cfg.toppercent < 100) :
    kept_closed cfg score L
      = (L.filter (fun t => decide (1 ≤ score t))).take cfg.max_alignments := by
  unfold kept_closed; rw [if_neg htp]

/-- Entries of score at most 0 behind a vector do not change the selection. -/
theorem kept_closed_append_nonpos {α : Type} (cfg : Config) (score : α → Int)
    (P Y : List α) (hY : ∀ y ∈ Y, score y ≤ 0) :
    kept_closed cfg score (P ++ Y) = kept_closed cfg score P := by
  have hfix : Y.filter (fun t => decide (1 ≤ score t)) = [] := by
    rw [List.filter_eq_nil_iff]
    intro y hy
    have := hY y hy
    simp only [decide_eq_true_eq]
    omega
  have hpc : ∀ c : Int, Y.filter (fun t => decide (max c 1 ≤ score t)) = [] := by
    intro c
    rw [List.filter_eq_nil_iff]
    intro y hy
    have := hY y hy
    have h2 : (1 : Int) ≤ max c 1 := le_max_right _ _
    simp only [decide_eq_true_eq]
    omega
  by_cases htp : cfg.toppercent < 100
  · rw [kept_closed_pct _ _ _ htp, kept_closed_pct _ _ _ htp]
    cases P with
    | nil => rw [List.nil_append, hpc]; rfl
    | cons p P => rw [head_score_append, List.filter_append, hpc, List.append_nil]
  · rw [kept_closed_fix _ _ _ htp, kept_closed_fix _ _ _ htp, List.filter_append, hfix,
      List.append_nil]

/-- In fixed-count mode a full window is not changed by entries behind the vector. -/
theorem kept_closed_append_full {α : Type} (cfg : Config) (score : α → Int)
    (P Y : List α) (htp : ¬ cfg.toppercent < 100)
    (hfull : cfg.max_alignments ≤ (kept_closed cfg score P).length) :
    kept_closed cfg score (P ++ Y) = kept_closed cfg score P := by
  rw [kept_closed_fix _ _ _ htp] at hfull ⊢
  rw [kept_closed_fix _ _ _ htp]
  rw [List.length_take] at hfull
  rw [List.filter_append, List.take_append_of_le_length (by omega)]

/-- In top-percent mode entries below the raw cutoff behind a non-empty vector do not
change the selection. -/
theorem kept_closed_append_below {α : Type} (cfg : Config) (score : α → Int)
    (p : α) (P Y : List α) (htp : cfg.toppercent < 100)
    (hY : ∀ y ∈ Y, score y < top_score cfg.toppercent (score p)) :
    kept_closed cfg score (p :: P ++ Y) = kept_closed cfg score (p :: P) := by
  rw [kept_closed_pct _ _ _ htp, kept_closed_pct _ _ _ htp, head_score_append,
    List.filter_append]
  have : Y.filter (fun t => decide
      (max (top_score cfg.toppercent (head_score score (p :: P))) 1 ≤ score t)) = [] := by
    rw [List.filter_eq_nil_iff]
    intro y hy
    have h1 := hY y hy
    have h2 : top_score cfg.toppercent (score p)
        ≤ max (top_score cfg.toppercent (score p)) 1 := le_max_left _ _
    simp only [head_score, List.head?_cons, Option.map_some', Option.getD_some,
      decide_eq_true_eq]
    omega
  rw [this, List.append_nil]

/-- The selection keeps the first entry of a vector whose best score is positive. -/
theorem kept_closed_head {α : Type} (cfg : Config) (score : α → Int) (p : α) (P : List α)
    (hma : 1 ≤ cfg.max_alignments) (h0 : 0 ≤ cfg.toppercent) (hp : 0 < score p) :
    ∃ tl, kept_closed cfg score (p :: P) = p :: tl := by
  unfold kept_closed
  split
  · rename_i htp
    have h1 := top_score_le _ _ h0 htp hp
    have h2 : max (top_score cfg.toppercent (score p)) 1 ≤ score p := max_le h1 hp
    refine ⟨_, List.filter_cons_of_pos ?_⟩
    simpa [head_score] using h2
  · have h2 : (1 : Int) ≤ score p := hp
    rw [List.filter_cons_of_pos (by simpa using h2)]
    obtain ⟨n, hn⟩ : ∃ n, cfg.max_alignments = n + 1 := ⟨cfg.max_alignments - 1, by omega⟩
    rw [hn, List.take_succ_cons]
    exact ⟨_, rfl⟩

/-- Selecting from the selection followed by a batch gives the selection of the vector
followed by the batch. -/
theorem kept_closed_merge {α : Type} (cfg : Config) (score : α → Int) (P Y : List α)
    (hma : 1 ≤ cfg.max_alignments) (h0 : 0 ≤ cfg.toppercent)
    (hP : P = [] ∨ 0 < head_score score P) :
    kept_closed cfg score (kept_closed cfg score P ++ Y) = kept_closed cfg score (P ++ Y) := by
  cases P with
  | nil => simp [kept_closed]
  | cons p P =>
    have hp : 0 < score p := by
      rcases hP with h | h
      · exact absurd h (List.cons_ne_nil _ _)
      · simpa [head_score] using h
    obtain ⟨tl, htl⟩ := kept_closed_head cfg score p P hma h0 hp
    by_cases htp : cfg.toppercent < 100
    · have hhead : head_score score (kept_closed cfg score (p :: P) ++ Y)
          = head_score score (p :: P) := by
        rw [htl]; simp [head_score]
      rw [kept_closed_pct cfg score (kept_closed cfg score (p :: P) ++ Y) htp, hhead,
        List.filter_append, kept_closed_pct cfg score (p :: P) htp, List.filter_filter,
        kept_closed_pct cfg score (p :: P ++ Y) htp, head_score_append, List.filter_append]
      simp
    · have hself : (((p :: P).filter (fun t => decide (1 ≤ score t))).take
          cfg.max_alignments).filter (fun t => decide (1 ≤ score t))
          = ((p :: P).filter (fun t => decide (1 ≤ score t))).take cfg.max_alignments := by
        rw [List.filter_eq_self]
        intro a ha
        exact (List.mem_filter.1 ((List.take_sublist _ _).subset ha)).2
      rw [kept_closed_fix cfg score (kept_closed cfg score (p :: P) ++ Y) htp,
        kept_closed_fix cfg score (p :: P) htp, List.filter_append, hself, take_take_append,
        kept_closed_fix cfg score (p :: P ++ Y) htp, List.filter_append]

/-- The selection is a sublist of the vector. -/
theorem kept_closed_sublist {α : Type} (cfg : Config) (score : α → Int) (P : List α) :
    (kept_closed cfg score P).Sublist P := by
  unfold kept_closed
  split
  · exact List.filter_sublist _
  · exact (List.take_sublist _ _).trans (List.filter_sublist _)

/-! ## The streaming variant -/

theorem foldl_max_ge (b : List Target) :
    ∀ m0 : Int, m0 ≤ b.foldl (fun m t => max m t.filter_score) m0 ∧
      ∀ x ∈ b, x.filter_score ≤ b.foldl (fun m t => max m t.filter_score) m0 := by
  induction b with
  | nil => intro m0; simp
  | cons a as ih =>
    intro m0
    obtain ⟨h1, h2⟩ := ih (max m0 a.filter_score)
    simp only [List.foldl_cons]
    refine ⟨le_trans (le_max_left _ _) h1, ?_⟩
    intro x hx
    rcases List.mem_cons.1 hx with rfl | hx
    · exact le_trans (le_max_right _ _) h1
    · exact h2 x hx

/-- Every entry of a non-empty sorted batch, and every entry sorted behind it, has a
score of at most the batch maximum. -/
theorem le_batch_max (b Y : List Target) (hb : b ≠ [])
    (hs : (b ++ Y).Sorted (best_first Target.filter_score)) :
    ∀ y ∈ b ++ Y, y.filter_score ≤ batch_max b := by
  intro y hy
  cases b with
  | nil => exact absurd rfl hb
  | cons t rest =>
    have h1 := head_score_max Target.filter_score t (rest ++ Y) hs y hy
    exact le_trans h1 ((foldl_max_ge (t :: rest) 0).2 t (List.mem_cons_self _ _))

/-- With the quality filters off and a merged vector that is already sorted,
`score_only_culling` keeps the selected front of the merged vector. -/
theorem score_only_culling_sorted (cfg : Config) (T b : List Target) (low : Int)
    (hf : filters_active cfg = false)
    (hs : (if add_more_targets cfg T b low then T ++ b else T).Sorted
      (best_first Target.filter_score)) :
    score_only_culling (stable_sort Target.filter_score) cfg T b low =
      (kept_front cfg Target.filter_score (if add_more_targets cfg T b low then T ++ b else T),
        if head_score Target.filter_score
            (if add_more_targets cfg T b low then T ++ b else T) = 0 then 0
        else if add_more_targets cfg T b low then 1 else 0) := by
  unfold score_only_culling
  simp only [stable_sort]
  rw [sort_targets_of_sorted _ _ hs]
  generalize (if add_more_targets cfg T b low = true then T ++ b else T) = M
  cases M with
  | nil => simp [kept_front, head_score]
  | cons t rest =>
    by_cases ht : t.filter_score = 0
    · simp [kept_front, head_score, ht]
    · simp [kept_front, head_score, ht, hf]

/-- When `add_more_targets` rejects a batch, neither the batch nor anything sorted
behind it would be selected. -/
theorem rejected_batch_irrelevant (cfg : Config) (p : Target) (P b Y : List Target)
    (hma : 1 ≤ cfg.max_alignments) (h0 : 0 ≤ cfg.toppercent) (h100 : cfg.toppercent ≤ 100)
    (hp : 0 < p.filter_score) (hb : b ≠ [])
    (hs : (b ++ Y).Sorted (best_first Target.filter_score))
    (hrej : add_more_targets cfg (kept_closed cfg Target.filter_score (p :: P)) b 0 = false) :
    kept_closed cfg Target.filter_score (p :: P ++ (b ++ Y))
      = kept_closed cfg Target.filter_score (p :: P) := by
  obtain ⟨tl, htl⟩ := kept_closed_head cfg Target.filter_score p P hma h0 hp
  have hmax := le_batch_max b Y hb hs
  unfold add_more_targets at hrej
  rw [htl] at hrej
  simp only [List.isEmpty_cons, Bool.false_eq_true, if_false] at hrej
  by_cases h1 : batch_max b ≤ 0
  · exact kept_closed_append_nonpos _ _ _ _ (fun y hy => le_trans (hmax y hy) h1)
  · rw [if_neg h1] at hrej
    by_cases htp : cfg.toppercent < 100
    · have hne : cfg.toppercent ≠ 100 := ne_of_lt htp
      simp only [hne, false_and, if_false, decide_eq_false_iff_not, not_le] at hrej
      have hfront : front_filter_score (p :: tl) = p.filter_score := by
        simp [front_filter_score]
      rw [hfront] at hrej
      exact kept_closed_append_below _ _ _ _ _ htp
        (fun y hy => lt_of_le_of_lt (hmax y hy) hrej)
    · have heq : cfg.toppercent = 100 := le_antisymm h100 (not_lt.1 htp)
      by_cases hlen : (p :: tl).length < cfg.max_alignments
      · rw [if_pos ⟨heq, hlen⟩] at hrej
        exact absurd hrej (by decide)
      · apply kept_closed_append_full _ _ _ _ htp
        rw [htl]
        omega

/-- One call of `score_only_culling` on the selection of a sorted vector `P` and the
next batch `b`: the kept vector becomes the selection of `P ++ b`; when the call returns
0, nothing sorted behind the batch would be selected either; when it returns a non-zero
flag, the best score is positive. -/
theorem score_only_culling_step (cfg : Config) (P b : List Target)
    (hf : filters_active cfg = false) (hma : 1 ≤ cfg.max_alignments)
    (h0 : 0 ≤ cfg.toppercent) (h100 : cfg.toppercent ≤ 100) (hb : b ≠ [])
    (hs : (P ++ b).Sorted (best_first Target.filter_score))
    (hnn : ∀ x ∈ P ++ b, 0 ≤ x.filter_score)
    (hP : P = [] ∨ 0 < head_score Target.filter_score P) :
    (score_only_culling (stable_sort Target.filter_score) cfg
        (kept_closed cfg Target.filter_score P) b 0).1
        = kept_closed cfg Target.filter_score (P ++ b) ∧
    ((score_only_culling (stable_sort Target.filter_score) cfg
        (kept_closed cfg Target.filter_score P) b 0).2 = 0 →
      ∀ rest, (P ++ b ++ rest).Sorted (best_first Target.filter_score) →
        kept_closed cfg Target.filter_score (P ++ b ++ rest)
          = kept_closed cfg Target.filter_score (P ++ b)) ∧
    ((score_only_culling (stable_sort Target.filter_score) cfg
        (kept_closed cfg Target.filter_score P) b 0).2 ≠ 0 →
      0 < head_score Target.filter_score (P ++ b)) := by
  have hsubK : (kept_closed cfg Target.filter_score P).Sublist P := kept_closed_sublist _ _ _
  have hsM : (if add_more_targets cfg (kept_closed cfg Target.filter_score P) b 0
      then kept_closed cfg Target.filter_score P ++ b
      else kept_closed cfg Target.filter_score P).Sorted (best_first Target.filter_score) := by
    split
    · exact List.Pairwise.sublist (hsubK.append (List.Sublist.refl b)) hs
    · exact List.Pairwise.sublist (hsubK.trans (List.sublist_append_left P b)) hs
  have hnnM : ∀ x ∈ (if add_more_targets cfg (kept_closed cfg Target.filter_score P) b 0
      then kept_closed cfg Target.filter_score P ++ b
      else kept_closed cfg Target.filter_score P), 0 ≤ x.filter_score := by
    intro x hx
    split at hx
    · exact hnn x ((hsubK.append (List.Sublist.refl b)).subset hx)
    · exact hnn x ((hsubK.trans (List.sublist_append_left P b)).subset hx)
  rw [score_only_culling_sorted cfg _ b 0 hf hsM, kept_front_eq_closed cfg _ _ hma hsM hnnM]
  simp only
  cases hmore : add_more_targets cfg (kept_closed cfg Target.filter_score P) b 0 with
  | true =>
    simp only [if_true]
    refine ⟨kept_closed_merge cfg _ P b hma h0 hP, ?_, ?_⟩
    · intro hflag rest hsr
      have hhead0 : head_score Target.filter_score
          (kept_closed cfg Target.filter_score P ++ b) = 0 := by
        by_contra hne
        rw [if_neg hne] at hflag
        exact absurd hflag (by decide)
      cases P with
      | nil =>
        have hK : kept_closed cfg Target.filter_score ([] : List Target) = [] := by
          simp [kept_closed]
        rw [hK, List.nil_append] at hhead0
        simp only [List.nil_append]
        cases b with
        | nil => exact absurd rfl hb
        | cons t bt =>
          have ht : t.filter_score = 0 := by simpa [head_score] using hhead0
          have hall : ∀ y ∈ t :: bt ++ rest, y.filter_score ≤ 0 := by
            intro y hy
            have := head_score_max Target.filter_score t (bt ++ rest)
              (by simpa using hsr) y (by simpa using hy)
            omega
          have e1 := kept_closed_append_nonpos cfg Target.filter_score [] (t :: bt ++ rest) hall
          have e2 := kept_closed_append_nonpos cfg Target.filter_score [] (t :: bt)
            (fun y hy => hall y (List.mem_append_left _ hy))
          rw [List.nil_append] at e1 e2
          rw [e1, e2]
      | cons p P =>
        have hp : 0 < p.filter_score := by
          rcases hP with h | h
          · exact absurd h (List.cons_ne_nil _ _)
          · simpa [head_score] using h
        obtain ⟨tl, htl⟩ := kept_closed_head cfg Target.filter_score p P hma h0 hp
        rw [htl] at hhead0
        simp [head_score] at hhead0
        omega
    · intro hflag
      have hne : head_score Target.filter_score
          (kept_closed cfg Target.filter_score P ++ b) ≠ 0 := by
        intro h
        rw [if_pos h] at hflag
        exact hflag rfl
      cases P with
      | nil =>
        have hK : kept_closed cfg Target.filter_score ([] : List Target) = [] := by
          simp [kept_closed]
        rw [hK] at hne
        cases b with
        | nil => exact absurd rfl hb
        | cons t bt =>
          have := hnn t (by simp)
          simp only [List.nil_append, head_score, List.head?_cons, Option.map_some',
            Option.getD_some] at hne ⊢
          omega
      | cons p P =>
        rcases hP with h | h
        · exact absurd h (List.cons_ne_nil _ _)
        · simpa [head_score] using h
  | false =>
    simp only [Bool.false_eq_true, if_false]
    cases P with
    | nil =>
      have hK : kept_closed cfg Target.filter_score ([] : List Target) = [] := by
        simp [kept_closed]
      rw [hK] at hmore
      simp [add_more_targets] at hmore
    | cons p P =>
      have hp : 0 < p.filter_score := by
        rcases hP with h | h
        · exact absurd h (List.cons_ne_nil _ _)
        · simpa [head_score] using h
      have key : ∀ Y, (b ++ Y).Sorted (best_first Target.filter_score) →
          kept_closed cfg Target.filter_score (p :: P ++ (b ++ Y))
            = kept_closed cfg Target.filter_score (p :: P) := fun Y hY =>
        rejected_batch_irrelevant cfg p P b Y hma h0 h100 hp hb hY hmore
      have hsb : (b ++ []).Sorted (best_first Target.filter_score) := by
        rw [List.append_nil]
        exact List.Pairwise.sublist (List.sublist_append_right (p :: P) b) hs
      have kb := key [] hsb
      rw [List.append_nil] at kb
      have hidem := kept_closed_merge cfg Target.filter_score (p :: P) [] hma h0 hP
      rw [List.append_nil, List.append_nil] at hidem
      refine ⟨by rw [hidem, kb], ?_, ?_⟩
      · intro _ rest hsr
        have hsr' : (b ++ rest).Sorted (best_first Target.filter_score) := by
          rw [List.append_assoc] at hsr
          exact List.Pairwise.sublist (List.sublist_append_right (p :: P) (b ++ rest)) hsr
        rw [List.append_assoc, key rest hsr', kb]
      · intro _
        simpa [head_score] using hp

/-- Streaming over sorted batches keeps the selection of the whole sorted vector. -/
theorem stream_batches_eq_closed (cfg : Config)
    (hf : filters_active cfg = false) (hma : 1 ≤ cfg.max_alignments)
    (h0 : 0 ≤ cfg.toppercent) (h100 : cfg.toppercent ≤ 100) :
    ∀ (bs : List (List Target)) (P : List Target),
      (∀ b ∈ bs, b ≠ []) →
      (P ++ bs.flatten).Sorted (best_first Target.filter_score) →
      (∀ x ∈ P ++ bs.flatten, 0 ≤ x.filter_score) →
      (P = [] ∨ 0 < head_score Target.filter_score P) →
      stream_batches (stable_sort Target.filter_score) cfg
          (kept_closed cfg Target.filter_score P) bs
        = kept_closed cfg Target.filter_score (P ++ bs.flatten) := by
  intro bs
  induction bs with
  | nil => intro P _ _ _ _; simp [stream_batches]
  | cons b bs ih =>
    intro P hne hs hnn hP
    have hb : b ≠ [] := hne b (List.mem_cons_self _ _)
    rw [List.flatten_cons, ← List.append_assoc] at hs hnn ⊢
    have hs1 : (P ++ b).Sorted (best_first Target.filter_score) :=
      List.Pairwise.sublist (List.sublist_append_left _ _) hs
    have hnn1 : ∀ x ∈ P ++ b, 0 ≤ x.filter_score := fun x hx =>
      hnn x (List.mem_append_left _ hx)
    obtain ⟨e1, e2, e3⟩ := score_only_culling_step cfg P b hf hma h0 h100 hb hs1 hnn1 hP
    rw [stream_batches]
    split
    · rename_i hflag
      rw [e1, e2 hflag bs.flatten hs]
    · rename_i hflag
      rw [e1]
      exact ih (P ++ b) (fun c hc => hne c (List.mem_cons_of_mem _ hc)) hs hnn
        (Or.inr (e3 hflag))

/-! ## `apply_filters` with the filters off -/

theorem percent_lt_zero (a b : Nat) : percent_lt a b 0 = false := by
  unfold percent_lt
  split
  · rfl
  · have h : (0 : ℚ) ≤ Rat.divInt ((a : Int) * 100) (b : Int) :=
      Rat.divInt_nonneg (by positivity) (by positivity)
    simp [h]

theorem filtered_out_off (cfg : Config) (len : Nat) (q t : String) (l : Nat) (h : Hsp)
    (hmin : cfg.min_id = 0) (hq : cfg.query_cover = 0) (hsc : cfg.subject_cover = 0)
    (hno : cfg.no_self_hits = false) :
    filtered_out cfg len q t l h = false := by
  simp [filtered_out, Hsp.id_percent_lt, Hsp.query_cover_percent_lt,
    Hsp.subject_cover_percent_lt, hmin, hq, hsc, hno, percent_lt_zero]

/-- With the thresholds at 0 and `no_self_hits` off, `apply_filters` keeps every Hsp. -/
theorem apply_filters_off_hsp (cfg : Config) (ref : Reference) (m : Match) (len : Nat)
    (title : String)
    (hmin : cfg.min_id = 0) (hq : cfg.query_cover = 0) (hsc : cfg.subject_cover = 0)
    (hno : cfg.no_self_hits = false) :
    m.apply_filters cfg ref len title = { m with filter_score := front_score m.hsp } := by
  unfold Match.apply_filters
  have : m.hsp.filter (fun h => !(filtered_out cfg len title (ref.title m.target_block_id)
      (ref.len m.target_block_id) h)) = m.hsp := by
    rw [List.filter_eq_self]
    intro h _
    rw [filtered_out_off cfg len title _ _ h hmin hq hsc hno]
    rfl
  simp only [this]

theorem filters_active_off (cfg : Config)
    (hmin : cfg.min_id = 0) (hq : cfg.query_cover = 0) (hsc : cfg.subject_cover = 0)
    (hno : cfg.no_self_hits = false) : filters_active cfg = false := by
  simp [filters_active, hmin, hq, hsc, hno]

theorem head_score_map (ms : List Match) :
    head_score Target.filter_score (ms.map Match.toTarget)
      = head_score Match.filter_score ms := by
  cases ms <;> simp [head_score, Match.toTarget]

/-- The selection commutes with the passage from Matches to streaming candidates. -/
theorem kept_closed_map (cfg : Config) (ms : List Match) :
    (kept_closed cfg Match.filter_score ms).map Match.toTarget
      = kept_closed cfg Target.filter_score (ms.map Match.toTarget) := by
  by_cases htp : cfg.toppercent < 100
  · rw [kept_closed_pct _ _ _ htp, kept_closed_pct _ _ _ htp, head_score_map,
      List.filter_map]
    rfl
  · rw [kept_closed_fix _ _ _ htp, kept_closed_fix _ _ _ htp, List.filter_map,
      List.map_take]
    rfl

/-! ## Streaming under an arbitrary `std::sort` -/

theorem map_score_only_scores (l : List Target) :
    (l.map Target.score_only).map Target.filter_score = l.map Target.filter_score := by
  rw [List.map_map]
  rfl

/-- A list of stripped candidates is determined by its scores. -/
theorem stripped_eq_of_scores : ∀ l1 l2 : List Target,
    (∀ x ∈ l1, x.block_id = 0) → (∀ x ∈ l2, x.block_id = 0) →
    l1.map Target.filter_score = l2.map Target.filter_score → l1 = l2 := by
  intro l1
  induction l1 with
  | nil =>
    intro l2 _ _ h
    cases l2 with
    | nil => rfl
    | cons y ys => simp at h
  | cons x xs ih =>
    intro l2 h1 h2 h
    cases l2 with
    | nil => simp at h
    | cons y ys =>
      simp only [List.map_cons, List.cons.injEq] at h
      have hx := h1 x (List.mem_cons_self _ _)
      have hy := h2 y (List.mem_cons_self _ _)
      have hxy : x = y := by
        cases x; cases y
        simp only [Target.mk.injEq]
        exact ⟨hx.trans hy.symm, h.1⟩
      rw [hxy, ih ys (fun z hz => h1 z (List.mem_cons_of_mem _ hz))
        (fun z hz => h2 z (List.mem_cons_of_mem _ hz)) h.2]

/-- Stripping the identities commutes with every pair of admitted sorts. -/
theorem sort_strip {α : Type} {sa : α → Int} (S : StdSort α sa)
    (S0 : StdSort Target Target.filter_score) (g : α → Target)
    (hg0 : ∀ x, (g x).block_id = 0) (hgs : ∀ x, (g x).filter_score = sa x) (l : List α) :
    (S.sort l).map g = S0.sort (l.map g) := by
  have hmap : ∀ l' : List α, (l'.map g).map Target.filter_score = l'.map sa := by
    intro l'
    rw [List.map_map]
    exact List.map_congr_left (fun x _ => hgs x)
  apply stripped_eq_of_scores
  · intro x hx
    obtain ⟨y, _, rfl⟩ := List.mem_map.1 hx
    exact hg0 y
  · intro x hx
    obtain ⟨y, _, rfl⟩ := List.mem_map.1 ((std_sort_mem S0 _ x).1 hx)
    exact hg0 y
  · rw [hmap]
    symm
    apply sort_scores_eq S0 (l.map g) (S.sort l) (S.sorted l)
    rw [hmap]
    exact ((S.perm l).map sa).symm

theorem trim_zero_map {α β : Type} (sa : α → Int) (sb : β → Int) (g : α → β)
    (hg : ∀ x, sb (g x) = sa x) (l : List α) :
    ∀ k, trim_zero sb (l.map g) k = trim_zero sa l k := by
  intro k
  induction k with
  | zero => rfl
  | succ k ih =>
    have hget : ((l.map g).get? k).map sb = (l.get? k).map sa := by
      rw [List.get?_eq_getElem?, List.get?_eq_getElem?, List.getElem?_map]
      cases l[k]? with
      | none => rfl
      | some x => simp [hg]
    unfold trim_zero
    rw [hget, ih]

/-- The selection of the front commutes with a map that keeps the scores. -/
theorem select_front_map {α β : Type} (cfg : Config) (sa : α → Int) (sb : β → Int)
    (g : α → β) (hg : ∀ x, sb (g x) = sa x) (best : Int) (l : List α) :
    (select_front cfg sa best l).map g = select_front cfg sb best (l.map g) := by
  unfold select_front
  split
  · simp only
    rw [List.takeWhile_map]
    congr 2
    funext x
    simp [hg]
  · rw [List.map_take, trim_zero_map sa sb g hg, List.length_map]

theorem kept_front_map {α β : Type} (cfg : Config) (sa : α → Int) (sb : β → Int)
    (g : α → β) (hg : ∀ x, sb (g x) = sa x) (l : List α) :
    (kept_front cfg sa l).map g = kept_front cfg sb (l.map g) := by
  cases l with
  | nil => rfl
  | cons t rest =>
    simp only [kept_front, List.map_cons, hg]
    split
    · rfl
    · rw [select_front_map cfg sa sb g hg]
      rfl

theorem batch_max_map (g : Target → Target) (hg : ∀ x, (g x).filter_score = x.filter_score)
    (b : List Target) : batch_max (b.map g) = batch_max b := by
  unfold batch_max
  rw [List.foldl_map]
  simp only [hg]

theorem add_more_targets_map (cfg : Config) (g : Target → Target)
    (hg : ∀ x, (g x).filter_score = x.filter_score) (T b : List Target) (low : Int) :
    add_more_targets cfg (T.map g) (b.map g) low = add_more_targets cfg T b low := by
  have hfront : front_filter_score (T.map g) = front_filter_score T := by
    cases T <;> simp [front_filter_score, hg]
  have hback : back_filter_score (T.map g) = back_filter_score T := by
    unfold back_filter_score
    rw [List.getLast?_map]
    cases T.getLast? <;> simp [hg]
  unfold add_more_targets
  rw [batch_max_map g hg, hfront, hback, List.length_map]
  cases T <;> rfl

/-- One call of `score_only_culling` commutes with stripping the identities, whatever
the two sorts. -/
theorem score_only_culling_strip (S S0 : StdSort Target Target.filter_score) (cfg : Config)
    (T b : List Target) (low : Int) :
    ((score_only_culling S cfg T b low).1.map Target.score_only,
        (score_only_culling S cfg T b low).2)
      = score_only_culling S0 cfg (T.map Target.score_only) (b.map Target.score_only) low := by
  have hadd := add_more_targets_map cfg Target.score_only (fun _ => rfl) T b low
  have hmerged : (if add_more_targets cfg T b low = true then T ++ b else T).map
      Target.score_only =
      (if add_more_targets cfg T b low = true
        then T.map Target.score_only ++ b.map Target.score_only
        else T.map Target.score_only) := by
    split <;> simp
  have hsort := sort_strip S S0 Target.score_only (fun _ => rfl) (fun _ => rfl)
    (if add_more_targets cfg T b low = true then T ++ b else T)
  rw [hmerged] at hsort
  unfold score_only_culling
  simp only [hadd]
  rw [← hsort]
  generalize S.sort (if add_more_targets cfg T b low = true then T ++ b else T) = L
  cases L with
  | nil => rfl
  | cons t rest =>
    simp only [List.map_cons]
    have ht : t.score_only.filter_score = t.filter_score := rfl
    rw [ht]
    by_cases h0 : t.filter_score = 0
    · simp [h0]
    · simp only [h0, if_false]
      by_cases hf : cfg.toppercent = 100 ∧ filters_active cfg = true
      · simp [hf]
      · simp only [hf, if_false]
        rw [select_front_map cfg Target.filter_score Target.filter_score Target.score_only
          (fun _ => rfl)]
        rfl

/-- Streaming commutes with stripping the identities, whatever the two sorts. -/
theorem stream_batches_strip (S S0 : StdSort Target Target.filter_score) (cfg : Config) :
    ∀ (bs : List (List Target)) (T : List Target),
      (stream_batches S cfg T bs).map Target.score_only
        = stream_batches S0 cfg (T.map Target.score_only)
            (bs.map (List.map Target.score_only)) := by
  intro bs
  induction bs with
  | nil => intro T; rfl
  | cons b bs ih =>
    intro T
    have h := score_only_culling_strip S S0 cfg T b 0
    simp only [stream_batches, List.map_cons]
    rw [← h]
    simp only
    split
    · rfl
    · exact ih _

/-- What `score_only_culling` keeps comes from the kept vector or the batch. -/
theorem score_only_culling_subset (S : StdSort Target Target.filter_score) (cfg : Config)
    (T b : List Target) (low : Int) :
    ∀ x ∈ (score_only_culling S cfg T b low).1, x ∈ T ++ b := by
  have hm : ∀ x ∈ S.sort (if add_more_targets cfg T b low = true then T ++ b else T),
      x ∈ T ++ b := by
    intro x hx
    rw [std_sort_mem] at hx
    split at hx
    · exact hx
    · exact List.mem_append_left _ hx
  unfold score_only_culling
  simp only
  generalize S.sort (if add_more_targets cfg T b low = true then T ++ b else T) = L at hm
  cases L with
  | nil => intro x hx; simp at hx
  | cons t rest =>
    simp only
    intro x hx
    split at hx
    · simp at hx
    · split at hx
      · exact hm x hx
      · exact hm x ((select_front_sublist _ _ _ _).subset hx)

theorem stream_batches_subset (S : StdSort Target Target.filter_score) (cfg : Config) :
    ∀ (bs : List (List Target)) (T : List Target),
      ∀ x ∈ stream_batches S cfg T bs, x ∈ T ++ bs.flatten := by
  intro bs
  induction bs with
  | nil => intro T x hx; simpa [stream_batches] using hx
  | cons b bs ih =>
    intro T x hx
    have hsub := score_only_culling_subset S cfg T b 0
    rw [stream_batches] at hx
    rw [List.flatten_cons, ← List.append_assoc]
    split at hx
    · exact List.mem_append_left _ (hsub x hx)
    · rcases List.mem_append.1 (ih _ x hx) with h | h
      · exact List.mem_append_left _ (hsub x h)
      · exact List.mem_append_right _ h


theorem std_sort_agree {α : Type} {score : α → Int} (S1 S2 : StdSort α score) (l : List α)
    (hs : l.Sorted (best_first score)) (hnd : (l.map score).Nodup) :
    S1.sort l = S2.sort l := by
  rw [std_sort_eq_of_strict S1 l hs hnd, std_sort_eq_of_strict S2 l hs hnd]

/-- Two sorts that agree on the merged vector give the same call. -/
theorem score_only_culling_congr (S1 S2 : StdSort Target Target.filter_score) (cfg : Config)
    (T b : List Target) (low : Int)
    (h : S1.sort (if add_more_targets cfg T b low = true then T ++ b else T)
      = S2.sort (if add_more_targets cfg T b low = true then T ++ b else T)) :
    score_only_culling S1 cfg T b low = score_only_culling S2 cfg T b low := by
  unfold score_only_culling
  simp only [h]

/-- C4 (as stated, refuted).  First, with the quality filters off, `max_alignments = 5`,
fixed-count mode and the candidates of scores -1 and -2 given as two batches in
non-increasing score order, the streaming calls keep only the first candidate under every
`std::sort` (the second batch has maximum 0, which does not exceed the low-score bound
0), while one `culling` call keeps both.  Second, with `max_alignments = 2` and three
candidates of score 5 given as three batches, under a `std::sort` that reverses entries of
equal score the streaming calls keep the candidates 3 and 1 and one `culling` call keeps
the candidates 3 and 2. -/
theorem streaming_equivalence_refuted :
    (sample_config 100 5).min_id = 0 ∧ (sample_config 100 5).query_cover = 0 ∧
    (sample_config 100 5).subject_cover = 0 ∧ (sample_config 100 5).no_self_hits = false ∧
    1 ≤ (sample_config 100 5).max_alignments ∧ (sample_config 100 5).toppercent = 100 ∧
    (∀ m ∈ [sample_match 1 (-1), sample_match 2 (-2)], m.filter_score = front_score m.hsp) ∧
    [[(⟨1, -1⟩ : Target)], [⟨2, -2⟩]].flatten
      = [sample_match 1 (-1), sample_match 2 (-2)].map Match.toTarget ∧
    (∀ b ∈ [[(⟨1, -1⟩ : Target)], [⟨2, -2⟩]], b ≠ []) ∧
    [sample_match 1 (-1), sample_match 2 (-2)].Sorted (best_first Match.filter_score) ∧
    (∀ (S : StdSort Match Match.filter_score) (ST : StdSort Target Target.filter_score),
      stream_batches ST (sample_config 100 5) [] [[⟨1, -1⟩], [⟨2, -2⟩]] = [⟨1, -1⟩] ∧
      (culling S (sample_config 100 5) sample_reference
          [sample_match 1 (-1), sample_match 2 (-2)] 10 "query").map Match.toTarget
        = [⟨1, -1⟩, ⟨2, -2⟩]) ∧
    (filters_active (sample_config 100 2) = false ∧
      (∀ m ∈ [sample_match 1 5, sample_match 2 5, sample_match 3 5],
        m.filter_score = front_score m.hsp ∧ 0 ≤ m.filter_score) ∧
      [[(⟨1, 5⟩ : Target)], [⟨2, 5⟩], [⟨3, 5⟩]].flatten
        = [sample_match 1 5, sample_match 2 5, sample_match 3 5].map Match.toTarget ∧
      [sample_match 1 5, sample_match 2 5, sample_match 3 5].Sorted
        (best_first Match.filter_score) ∧
      stream_batches (reversing_sort Target.filter_score) (sample_config 100 2) []
          [[⟨1, 5⟩], [⟨2, 5⟩], [⟨3, 5⟩]] = [⟨3, 5⟩, ⟨1, 5⟩] ∧
      (culling (reversing_sort Match.filter_score) (sample_config 100 2) sample_reference
          [sample_match 1 5, sample_match 2 5, sample_match 3 5] 10 "query").map Match.toTarget
        = [⟨3, 5⟩, ⟨2, 5⟩]) := by
  refine ⟨by decide, by decide, by decide, by decide, by decide, by decide, by decide,
    by decide, by decide, by decide, ?_,
    ⟨by decide, by decide, by decide, by decide, by decide, by decide⟩⟩
  intro S ST
  constructor
  · have e1 : score_only_culling ST (sample_config 100 5) [] [⟨1, -1⟩] 0 = ([⟨1, -1⟩], 1) := by
      rw [score_only_culling_congr ST (stable_sort Target.filter_score) _ _ _ _
        (std_sort_agree _ _ _ (by decide) (by decide))]
      decide
    have e2 : score_only_culling ST (sample_config 100 5) [⟨1, -1⟩] [⟨2, -2⟩] 0
        = ([⟨1, -1⟩], 0) := by
      rw [score_only_culling_congr ST (stable_sort Target.filter_score) _ _ _ _
        (std_sort_agree _ _ _ (by decide) (by decide))]
      decide
    rw [stream_batches]
    simp only [e1]
    rw [if_neg (by decide), stream_batches]
    simp only [e2]
    rfl
  · have hf : [sample_match 1 (-1), sample_match 2 (-2)].map
        (fun m => m.apply_filters (sample_config 100 5) sample_reference 10 "query")
        = [sample_match 1 (-1), sample_match 2 (-2)] := by decide
    rw [culling_unfold, hf, std_sort_eq_of_strict S _ (by decide) (by decide)]
    decide

/-- C4 (amended): streaming equivalence for non-negative scores, up to the order that
`std::sort` gives to equal scores.  With the quality filters off, `max_alignments >= 1`,
`toppercent` in `[0, 100]` (fixed-count or top-percent mode), low-score bound 0, every
candidate's `filter_score` equal to its best Hsp score and non-negative, and the
candidates split into consecutive non-empty batches in non-increasing score order,
calling `score_only_culling` on each batch in turn from an empty kept vector until it
returns 0 or the batches run out yields kept targets with the same scores in the same
order as one `culling` call over all candidates; when no two candidates have the same
`filter_score`, it yields the same kept targets in the same order. -/
theorem streaming_equivalence (S : StdSort Match Match.filter_score)
    (ST : StdSort Target Target.filter_score) (cfg : Config) (ref : Reference)
    (ms : List Match) (batches : List (List Target)) (len : Nat) (title : String)
    (hmin : cfg.min_id = 0) (hq : cfg.query_cover = 0) (hsc : cfg.subject_cover = 0)
    (hno : cfg.no_self_hits = false) (hma : 1 ≤ cfg.max_alignments)
    (h0 : 0 ≤ cfg.toppercent) (h100 : cfg.toppercent ≤ 100)
    (hscore : ∀ m ∈ ms, m.filter_score = front_score m.hsp)
    (hsplit : batches.flatten = ms.map Match.toTarget)
    (hne : ∀ b ∈ batches, b ≠ [])
    (hsorted : ms.Sorted (best_first Match.filter_score))
    (hnn : ∀ m ∈ ms, 0 ≤ m.filter_score) :
    (stream_batches ST cfg [] batches).map Target.filter_score
        = (culling S cfg ref ms len title).map Match.filter_score ∧
    ((ms.map Match.filter_score).Nodup →
      stream_batches ST cfg [] batches
        = (culling S cfg ref ms len title).map Match.toTarget) := by
  have hf := filters_active_off cfg hmin hq hsc hno
  have hmap : ms.map (fun m => m.apply_filters cfg ref len title) = ms := by
    conv_rhs => rw [← List.map_id ms]
    apply List.map_congr_left
    intro m hm
    rw [apply_filters_off_hsp cfg ref m len title hmin hq hsc hno, ← hscore m hm]
    rfl
  -- the candidates, stripped of their identities
  have hsG : (ms.map (fun m => m.toTarget.score_only)).Sorted
      (best_first Target.filter_score) := (List.pairwise_map).2 hsorted
  have hnnG : ∀ x ∈ ms.map (fun m => m.toTarget.score_only), 0 ≤ x.filter_score := by
    intro x hx
    obtain ⟨m, hm, rfl⟩ := List.mem_map.1 hx
    exact hnn m hm
  -- one call of `culling`
  have hcull : (culling S cfg ref ms len title).map (fun m => m.toTarget.score_only)
      = kept_closed cfg Target.filter_score (ms.map (fun m => m.toTarget.score_only)) := by
    rw [culling_unfold, hmap,
      kept_front_map cfg Match.filter_score Target.filter_score
        (fun m => m.toTarget.score_only) (fun _ => rfl),
      sort_strip S (stable_sort Target.filter_score) (fun m => m.toTarget.score_only)
        (fun _ => rfl) (fun _ => rfl)]
    show kept_front cfg Target.filter_score (sort_targets Target.filter_score _) = _
    rw [sort_targets_of_sorted _ _ hsG, kept_front_eq_closed cfg _ _ hma hsG hnnG]
  -- the streaming calls
  have hflat : (batches.map (List.map Target.score_only)).flatten
      = ms.map (fun m => m.toTarget.score_only) := by
    rw [← List.map_flatten, hsplit, List.map_map]
    rfl
  have hstream : (stream_batches ST cfg [] batches).map Target.score_only
      = kept_closed cfg Target.filter_score (ms.map (fun m => m.toTarget.score_only)) := by
    rw [stream_batches_strip ST (stable_sort Target.filter_score) cfg batches []]
    have h := stream_batches_eq_closed cfg hf hma h0 h100
      (batches.map (List.map Target.score_only)) []
      (by
        intro b hb
        obtain ⟨c, hc, rfl⟩ := List.mem_map.1 hb
        have := hne c hc
        simpa using this)
      (by rw [List.nil_append, hflat]; exact hsG)
      (by rw [List.nil_append, hflat]; exact hnnG) (Or.inl rfl)
    rw [List.nil_append, hflat] at h
    rw [← h]
    simp [kept_closed]
  have hscores : (stream_batches ST cfg [] batches).map Target.filter_score
      = (culling S cfg ref ms len title).map Match.filter_score := by
    have h := congrArg (List.map Target.filter_score) (hstream.trans hcull.symm)
    rw [map_score_only_scores, List.map_map] at h
    exact h
  refine ⟨hscores, fun hnd => ?_⟩
  apply eq_of_map_eq_of_nodup Target.filter_score (ms.map Match.toTarget)
    (by rw [List.map_map]; exact hnd)
  · intro x hx
    have := stream_batches_subset ST cfg batches [] x hx
    rwa [List.nil_append, hsplit] at this
  · intro y hy
    obtain ⟨m, hm, rfl⟩ := List.mem_map.1 hy
    rw [culling_unfold, hmap] at hm
    exact List.mem_map_of_mem _
      ((std_sort_mem S ms m).1 ((kept_front_sublist _ _ _).subset hm))
  · rw [hscores, List.map_map]
    rfl

/-- Streaming equivalence at four candidates of different scores in three batches,
`max_alignments = 2`. -/
theorem streaming_equivalence_witness :
    (stream_batches (stable_sort Target.filter_score) (sample_config 100 2) []
        [[⟨1, 5⟩, ⟨2, 4⟩], [⟨3, 3⟩], [⟨4, 0⟩]]).map Target.filter_score
      = (culling (stable_sort Match.filter_score) (sample_config 100 2) sample_reference
          [sample_match 1 5, sample_match 2 4, sample_match 3 3, sample_match 4 0]
          10 "query").map Match.filter_score ∧
    stream_batches (stable_sort Target.filter_score) (sample_config 100 2) []
        [[⟨1, 5⟩, ⟨2, 4⟩], [⟨3, 3⟩], [⟨4, 0⟩]]
      = (culling (stable_sort Match.filter_score) (sample_config 100 2) sample_reference
          [sample_match 1 5, sample_match 2 4, sample_match 3 3, sample_match 4 0]
          10 "query").map Match.toTarget :=
  have h := streaming_equivalence (stable_sort Match.filter_score)
    (stable_sort Target.filter_score) (sample_config 100 2) sample_reference
    [sample_match 1 5, sample_match 2 4, sample_match 3 3, sample_match 4 0]
    [[⟨1, 5⟩, ⟨2, 4⟩], [⟨3, 3⟩], [⟨4, 0⟩]] 10 "query"
    (by decide) (by decide) (by decide) (by decide) (by decide) (by decide) (by decide)
    (by decide) (by decide) (by decide) (by decide) (by decide)
  ⟨h.1, h.2 (by decide)⟩

/-! ## `inner_culling` -/

theorem map_source_range_idem (ops : HspOps) (len : Nat) (h : Hsp) :
    map_source_range ops len (map_source_range ops len h) = map_source_range ops len h := rfl

/-- The erase loop only appends survivors: its result is `kept` followed by a sublist
`ext` of the scanned entries, and scanning any front part of `ext` again erases
nothing. -/
theorem envelope_scan_stable (ops : HspOps) (overlap : ℚ) :
    ∀ (rest kept : List Hsp), ∃ ext,
      envelope_scan ops overlap kept rest = kept ++ ext ∧ ext.Sublist rest ∧
      ∀ n, envelope_scan ops overlap kept (ext.take n) = kept ++ ext.take n := by
  intro rest
  induction rest with
  | nil =>
    intro kept
    exact ⟨[], by simp [envelope_scan], List.Sublist.refl _, by simp [envelope_scan]⟩
  | cons h r ih =>
    intro kept
    by_cases he : enveloped_by_any ops overlap kept h = true
    · obtain ⟨ext, h1, h2, h3⟩ := ih kept
      refine ⟨ext, ?_, h2.trans (List.sublist_cons_self h r), h3⟩
      rw [envelope_scan, if_pos he, h1]
    · obtain ⟨ext, h1, h2, h3⟩ := ih (kept ++ [h])
      refine ⟨h :: ext, ?_, h2.cons₂ h, ?_⟩
      · rw [envelope_scan, if_neg he, h1]
        simp
      · intro n
        cases n with
        | zero => simp [envelope_scan]
        | succ n =>
          rw [List.take_succ_cons, envelope_scan, if_neg he, h3 n]
          simp

/-- The erase loop keeps the first entry of the list. -/
theorem envelope_scan_head (ops : HspOps) (overlap : ℚ) (h : Hsp) (r : List Hsp) :
    ∃ tl, envelope_scan ops overlap [] (h :: r) = h :: tl := by
  obtain ⟨ext, h1, _, _⟩ := envelope_scan_stable ops overlap r ([] ++ [h])
  refine ⟨ext, ?_⟩
  rw [envelope_scan]
  have : enveloped_by_any ops overlap [] h = false := rfl
  rw [this]
  simpa using h1

theorem hsp_le_total (ops : HspOps) (hasym : ∀ a b, ops.lt a b = true → ops.lt b a = false) :
    IsTotal Hsp (hsp_le ops) := by
  constructor
  intro a b
  unfold hsp_le
  cases hba : ops.lt b a with
  | false => exact Or.inl rfl
  | true => exact Or.inr (hasym b a hba)

theorem hsp_le_trans (ops : HspOps)
    (htrans : ∀ a b c, ops.lt b a = false → ops.lt c b = false → ops.lt c a = false) :
    IsTrans Hsp (hsp_le ops) :=
  ⟨fun a b c hab hbc => htrans a b c hab hbc⟩

theorem sort_hsp_sorted (ops : HspOps)
    (hasym : ∀ a b, ops.lt a b = true → ops.lt b a = false)
    (htrans : ∀ a b c, ops.lt b a = false → ops.lt c b = false → ops.lt c a = false)
    (l : List Hsp) : (sort_hsp ops l).Sorted (hsp_le ops) :=
  have := hsp_le_total ops hasym
  have := hsp_le_trans ops htrans
  List.sorted_insertionSort _ l

/-- The Hsp list left by `max_hsp_culling` after the erase loop. -/
theorem inner_culling_hsp (cfg : Config) (ops : HspOps) (m : Match) (len : Nat) :
    (m.inner_culling cfg ops len).hsp =
      if 0 < cfg.max_hsps ∧ cfg.max_hsps <
          (envelope_scan ops (cfg.inner_culling_overlap / 100) []
            (sort_hsp ops (m.hsp.map (map_source_range ops len)))).length
      then (envelope_scan ops (cfg.inner_culling_overlap / 100) []
            (sort_hsp ops (m.hsp.map (map_source_range ops len)))).take cfg.max_hsps
      else envelope_scan ops (cfg.inner_culling_overlap / 100) []
            (sort_hsp ops (m.hsp.map (map_source_range ops len))) := by
  unfold Match.inner_culling Match.max_hsp_culling
  simp only
  by_cases h1 : cfg.max_hsps > 0
  · by_cases h2 : cfg.max_hsps < (envelope_scan ops (cfg.inner_culling_overlap / 100) []
        (sort_hsp ops (m.hsp.map (map_source_range ops len)))).length
    · simp [h1, h2]
    · simp [h1, h2]
  · simp [h1]

/-- The score `inner_culling` stores (line 37). -/
theorem inner_culling_score (cfg : Config) (ops : HspOps) (m : Match) (len : Nat) :
    (m.inner_culling cfg ops len).filter_score =
      match sort_hsp ops (m.hsp.map (map_source_range ops len)) with
      | [] => m.filter_score
      | h :: _ => h.score := by
  unfold Match.inner_culling Match.max_hsp_culling
  simp only
  split_ifs <;> rfl

theorem inner_culling_id (cfg : Config) (ops : HspOps) (m : Match) (len : Nat) :
    (m.inner_culling cfg ops len).target_block_id = m.target_block_id := by
  unfold Match.inner_culling Match.max_hsp_culling
  simp only
  split_ifs <;> rfl

theorem match_eq_of_fields (a b : Match) (h1 : a.target_block_id = b.target_block_id)
    (h2 : a.filter_score = b.filter_score) (h3 : a.hsp = b.hsp) : a = b := by
  cases a; cases b; simp_all

/-- What one call of `inner_culling` leaves: the Hsp list is a front part of the
survivors `ext` of the erase loop over the sorted list `S`, it is empty only if `S` is,
and it has the same first entry as `S`. -/
theorem inner_culling_shape (cfg : Config) (ops : HspOps) (m : Match) (len : Nat) :
    ∃ (ext : List Hsp) (n : Nat),
      (m.inner_culling cfg ops len).hsp = ext.take n ∧
      ext.Sublist (sort_hsp ops (m.hsp.map (map_source_range ops len))) ∧
      (∀ k, envelope_scan ops (cfg.inner_culling_overlap / 100) [] (ext.take k) = ext.take k) ∧
      ¬ (0 < cfg.max_hsps ∧ cfg.max_hsps < (ext.take n).length) ∧
      (match sort_hsp ops (m.hsp.map (map_source_range ops len)) with
        | [] => ext.take n = []
        | h :: _ => ∃ tl, ext.take n = h :: tl) := by
  obtain ⟨ext, h1, h2, h3⟩ := envelope_scan_stable ops (cfg.inner_culling_overlap / 100)
    (sort_hsp ops (m.hsp.map (map_source_range ops len))) []
  rw [List.nil_append] at h1
  have h3' : ∀ k, envelope_scan ops (cfg.inner_culling_overlap / 100) [] (ext.take k)
      = ext.take k := by
    intro k
    simpa using h3 k
  have hhead : match sort_hsp ops (m.hsp.map (map_source_range ops len)) with
      | [] => ext = []
      | h :: _ => ∃ tl, ext = h :: tl := by
    split
    · rename_i heq
      rw [heq] at h2
      exact List.eq_nil_of_sublist_nil h2
    · rename_i h r heq
      rw [heq] at h1
      obtain ⟨tl, htl⟩ := envelope_scan_head ops (cfg.inner_culling_overlap / 100) h r
      exact ⟨tl, by rw [← h1, htl]⟩
  rw [inner_culling_hsp, h1]
  by_cases hc : 0 < cfg.max_hsps ∧ cfg.max_hsps < ext.length
  · refine ⟨ext, cfg.max_hsps, by rw [if_pos hc], h2, h3', ?_, ?_⟩
    · rw [List.length_take]
      omega
    · split
      · rename_i heq
        rw [heq] at hhead
        simp only at hhead
        rw [hhead]
        simp
      · rename_i h r heq
        rw [heq] at hhead
        obtain ⟨tl, htl⟩ := hhead
        obtain ⟨k, hk⟩ : ∃ k, cfg.max_hsps = k + 1 := ⟨cfg.max_hsps - 1, by omega⟩
        rw [htl, hk, List.take_succ_cons]
        exact ⟨_, rfl⟩
  · refine ⟨ext, ext.length, by rw [if_neg hc, List.take_length], h2, h3', ?_, ?_⟩
    · rw [List.take_length]
      exact hc
    · rw [List.take_length]
      exact hhead

/-- C5: `inner_culling` is idempotent.  For every Match, source query length and
configuration, and every `Hsp::operator<` that is a strict weak order (what `hsp.sort()`
requires), applying `inner_culling` twice leaves the same Match (same Hsp entries in the
same order, same `filter_score`) as applying it once. -/
theorem inner_culling_idempotent (cfg : Config) (ops : HspOps) (m : Match) (len : Nat)
    (hasym : ∀ a b, ops.lt a b = true → ops.lt b a = false)
    (htrans : ∀ a b c, ops.lt b a = false → ops.lt c b = false → ops.lt c a = false) :
    (m.inner_culling cfg ops len).inner_culling cfg ops len = m.inner_culling cfg ops len := by
  obtain ⟨ext, n, hR, hsub, hstable, hnotrunc, hhead⟩ := inner_culling_shape cfg ops m len
  have hS := sort_hsp_sorted ops hasym htrans (m.hsp.map (map_source_range ops len))
  -- the second call maps, sorts and scans a list that these steps leave unchanged
  have hRsub : (ext.take n).Sublist (sort_hsp ops (m.hsp.map (map_source_range ops len))) :=
    (List.take_sublist _ _).trans hsub
  have hmap : (ext.take n).map (map_source_range ops len) = ext.take n := by
    conv_rhs => rw [← List.map_id (ext.take n)]
    apply List.map_congr_left
    intro x hx
    have hx' : x ∈ m.hsp.map (map_source_range ops len) :=
      (List.mem_insertionSort _).1 (hRsub.subset hx)
    obtain ⟨y, _, rfl⟩ := List.mem_map.1 hx'
    exact map_source_range_idem ops len y
  have hsort : sort_hsp ops (ext.take n) = ext.take n :=
    List.Sorted.insertionSort_eq (List.Pairwise.sublist hRsub hS)
  have hS2 : sort_hsp ops ((m.inner_culling cfg ops len).hsp.map (map_source_range ops len))
      = ext.take n := by
    rw [hR, hmap, hsort]
  have hE2 : envelope_scan ops (cfg.inner_culling_overlap / 100) [] (ext.take n)
      = ext.take n := hstable n
  apply match_eq_of_fields
  · rw [inner_culling_id]
  · rw [inner_culling_score, hS2, inner_culling_score]
    split at hhead
    · rw [hhead]
    · obtain ⟨tl, htl⟩ := hhead
      rw [htl]
  · rw [inner_culling_hsp, hS2, hE2, if_neg hnotrunc, hR]

/-- Idempotence at a Match with three Hsps, one of them enveloped by the best one. -/
theorem inner_culling_idempotent_witness :
    ((⟨1, 0, [sample_hsp_at 30 2 8, sample_hsp_at 50 0 10, sample_hsp_at 40 20 30]⟩ : Match
        ).inner_culling (sample_config 100 1) sample_ops 100).inner_culling
        (sample_config 100 1) sample_ops 100
      = (⟨1, 0, [sample_hsp_at 30 2 8, sample_hsp_at 50 0 10, sample_hsp_at 40 20 30]⟩ : Match
        ).inner_culling (sample_config 100 1) sample_ops 100 :=
  inner_culling_idempotent (sample_config 100 1) sample_ops _ 100
    (by intro a b h; simp only [sample_ops, decide_eq_true_eq, decide_eq_false_iff_not] at *
        omega)
    (by intro a b c h1 h2; simp only [sample_ops, decide_eq_false_iff_not] at *; omega)

/-- C6 (as stated, refuted): a Match with an empty Hsp list and prior `filter_score` 7
keeps `filter_score` 7 through `inner_culling`, although no Hsp remains. -/
theorem inner_culling_score_empty_list :
    ((⟨1, 7, []⟩ : Match).inner_culling (sample_config 100 1) sample_ops 100).hsp = [] ∧
    ((⟨1, 7, []⟩ : Match).inner_culling (sample_config 100 1) sample_ops 100).filter_score = 7 ∧
    ((⟨1, 7, []⟩ : Match).inner_culling (sample_config 100 1) sample_ops 100).filter_score
      ≠ front_score
        ((⟨1, 7, []⟩ : Match).inner_culling (sample_config 100 1) sample_ops 100).hsp := by
  refine ⟨by decide, by decide, by decide⟩

/-- C6 (amended): after `inner_culling`, for every Match whose Hsp list is non-empty or
whose prior `filter_score` is 0, `filter_score` equals the score of the first surviving
Hsp, or 0 if no Hsp remains; a non-empty list keeps its first Hsp: the first (best) Hsp
of the sorted list is the first survivor. -/
theorem inner_culling_score_front (cfg : Config) (ops : HspOps) (m : Match) (len : Nat)
    (h : m.hsp ≠ [] ∨ m.filter_score = 0) :
    (m.inner_culling cfg ops len).filter_score
        = front_score (m.inner_culling cfg ops len).hsp ∧
    (m.hsp ≠ [] → (m.inner_culling cfg ops len).hsp ≠ []) ∧
    (∀ h0 tl, sort_hsp ops (m.hsp.map (map_source_range ops len)) = h0 :: tl →
      ∃ tl', (m.inner_culling cfg ops len).hsp = h0 :: tl') := by
  obtain ⟨ext, n, hR, _, _, _, hhead⟩ := inner_culling_shape cfg ops m len
  rw [inner_culling_score, hR]
  have hlen : (sort_hsp ops (m.hsp.map (map_source_range ops len))).length = m.hsp.length := by
    rw [sort_hsp, List.length_insertionSort, List.length_map]
  split at hhead
  · rename_i heq
    rw [heq] at hlen
    have hnil : m.hsp = [] := List.length_eq_zero.1 hlen.symm
    rcases h with h | h
    · exact absurd hnil h
    · rw [hhead]
      exact ⟨by simpa [front_score] using h, fun hne => absurd hnil hne,
        fun h0 tl h' => by rw [heq] at h'; exact absurd h' (by simp)⟩
  · rename_i hd r heq
    obtain ⟨tl, htl⟩ := hhead
    rw [htl]
    refine ⟨rfl, fun _ => List.cons_ne_nil _ _, fun h0 tl0 h' => ?_⟩
    rw [heq] at h'
    exact ⟨tl, by rw [(List.cons.inj h').1]⟩

/-- The stored score at a Match with three Hsps. -/
theorem inner_culling_score_front_witness :
    ((⟨1, 0, [sample_hsp_at 30 2 8, sample_hsp_at 50 0 10, sample_hsp_at 40 20 30]⟩ : Match
        ).inner_culling (sample_config 100 1) sample_ops 100).filter_score = 50 := by
  have h := (inner_culling_score_front (sample_config 100 1) sample_ops
    ⟨1, 0, [sample_hsp_at 30 2 8, sample_hsp_at 50 0 10, sample_hsp_at 40 20 30]⟩ 100
    (Or.inl (by decide))).1
  rw [h]
  decide

/-! ## Self hits -/

/-- A length that covers the whole reference length is not below a threshold of at most
100 percent. -/
theorem percent_lt_self (a : Nat) (thr : ℚ) (h : thr ≤ 100) : percent_lt a a thr = false := by
  unfold percent_lt
  split
  · rfl
  · rename_i ha
    have ha' : (a : ℚ) ≠ 0 := by exact_mod_cast ha
    have : Rat.divInt ((a : Int) * 100) (a : Int) = 100 := by
      rw [Rat.divInt_eq_div]
      push_cast
      field_simp
    rw [this]
    simpa using h

/-- C7: self-hit suppression.  For a Match whose only Hsp has `identities == length`, a
mapped query range spanning the whole source query, a subject range spanning the whole
target, and a query title equal to the target title: with `no_self_hits` enabled,
`apply_filters` removes the Hsp and sets `filter_score` to 0, and `culling` of the Match
leaves nothing; with `no_self_hits` disabled and the thresholds `min_id`, `query_cover`,
`subject_cover` all at most 100, `apply_filters` leaves the Hsp list unchanged and
`filter_score` equal to the score of that Hsp. -/
theorem self_hit_suppression (S : StdSort Match Match.filter_score) (cfg : Config)
    (ref : Reference) (id : Nat) (prior : Int) (h : Hsp) (len : Nat) (title : String)
    (hid : h.identities = h.length)
    (hq : h.query_source_range.length = len)
    (hs : h.subject_range.length = ref.len id)
    (ht : title = ref.title id) :
    (cfg.no_self_hits = true →
      (⟨id, prior, [h]⟩ : Match).apply_filters cfg ref len title = ⟨id, 0, []⟩ ∧
      culling S cfg ref [⟨id, prior, [h]⟩] len title = []) ∧
    (cfg.no_self_hits = false → cfg.min_id ≤ 100 → cfg.query_cover ≤ 100 →
      cfg.subject_cover ≤ 100 →
      (⟨id, prior, [h]⟩ : Match).apply_filters cfg ref len title = ⟨id, h.score, [h]⟩) := by
  constructor
  · intro hno
    have hout : filtered_out cfg len title (ref.title id) (ref.len id) h = true := by
      simp [filtered_out, hno, hid, hq, hs, ht]
    have happ : (⟨id, prior, [h]⟩ : Match).apply_filters cfg ref len title = ⟨id, 0, []⟩ := by
      simp [Match.apply_filters, hout, front_score]
    refine ⟨happ, ?_⟩
    rw [culling_unfold]
    simp only [List.map_cons, List.map_nil, happ, std_sort_singleton]
    rfl
  · intro hno hmin hqc hsc
    have hout : filtered_out cfg len title (ref.title id) (ref.len id) h = false := by
      have e1 : h.id_percent_lt cfg.min_id = false := by
        unfold Hsp.id_percent_lt; rw [hid]; exact percent_lt_self _ _ hmin
      have e2 : h.query_cover_percent_lt len cfg.query_cover = false := by
        unfold Hsp.query_cover_percent_lt; rw [hq]; exact percent_lt_self _ _ hqc
      have e3 : h.subject_cover_percent_lt (ref.len id) cfg.subject_cover = false := by
        unfold Hsp.subject_cover_percent_lt; rw [hs]; exact percent_lt_self _ _ hsc
      simp [filtered_out, e1, e2, e3, hno]
    simp [Match.apply_filters, hout, front_score]

/-- Self-hit suppression at an Hsp that covers query and target of length 10, with
`no_self_hits` enabled and `min_id = 90`. -/
theorem self_hit_suppression_witness :
    (⟨3, 50, [sample_hsp 50]⟩ : Match).apply_filters
        { sample_config 100 1 with no_self_hits := true, min_id := 90 }
        sample_reference 10 "target" = ⟨3, 0, []⟩ ∧
    culling (stable_sort Match.filter_score)
        { sample_config 100 1 with no_self_hits := true, min_id := 90 }
        sample_reference [⟨3, 50, [sample_hsp 50]⟩] 10 "target" = [] :=
  (self_hit_suppression (stable_sort Match.filter_score)
    { sample_config 100 1 with no_self_hits := true, min_id := 90 }
    sample_reference 3 50 (sample_hsp 50) 10 "target"
    (by decide) (by decide) (by decide) (by decide)).1 rfl

end Extension

namespace Sequence_set

/-! ## `partition` -/

theorem range_letters_self (s : Sequence_set) (a : Nat) : range_letters s a a = 0 := by
  simp [range_letters]

theorem range_letters_head (s : Sequence_set) (a b : Nat) (h : a < b) :
    range_letters s a b = s.length a + range_letters s (a + 1) b := by
  unfold range_letters
  obtain ⟨k, hk⟩ : ∃ k, b - a = k + 1 := ⟨b - a - 1, by omega⟩
  rw [hk, show b - (a + 1) = k by omega, List.range'_succ]
  simp

theorem range_letters_last (s : Sequence_set) (a b : Nat) (h : a < b) :
    range_letters s a b = range_letters s a (b - 1) + s.length (b - 1) := by
  unfold range_letters
  obtain ⟨k, hk⟩ : ∃ k, b - a = k + 1 := ⟨b - a - 1, by omega⟩
  rw [hk, show b - 1 - a = k by omega, List.range'_concat]
  simp only [List.map_append, List.sum_append, List.map_cons, List.map_nil, List.sum_cons,
    List.sum_nil, Nat.add_zero, Nat.one_mul]
  rw [show a + k = b - 1 by omega]

/-- The inner loop of `partition` from `(i, n)`: it ends at an index `j` in `[i, N]`; if
it ends before the end of the collection the budget is reached; before its last step the
budget was not reached; and it makes a step when it can. -/
theorem partition_scan_spec (s : Sequence_set) (l : Nat) :
    ∀ fuel i n, i ≤ s.get_length → s.get_length - i ≤ fuel →
      i ≤ partition_scan s l fuel i n ∧ partition_scan s l fuel i n ≤ s.get_length ∧
      (partition_scan s l fuel i n < s.get_length →
        l ≤ n + range_letters s i (partition_scan s l fuel i n)) ∧
      (i < partition_scan s l fuel i n →
        n + range_letters s i (partition_scan s l fuel i n - 1) < l) ∧
      (i < s.get_length → n < l → i < partition_scan s l fuel i n) := by
  intro fuel
  induction fuel with
  | zero =>
    intro i n hi hf
    have : i = s.get_length := by omega
    simp only [partition_scan]
    refine ⟨le_refl _, hi, ?_, ?_, ?_⟩ <;> intro h <;> omega
  | succ fuel ih =>
    intro i n hi hf
    rw [partition_scan]
    split
    · rename_i hc
      obtain ⟨h1, h2, h3, h4, _⟩ := ih (i + 1) (n + s.length i) (by omega) (by omega)
      refine ⟨by omega, h2, ?_, ?_, fun _ _ => by omega⟩
      · intro hj
        rw [range_letters_head s i _ (by omega)]
        have := h3 hj
        omega
      · intro _
        by_cases hij : i + 1 = partition_scan s l fuel (i + 1) (n + s.length i)
        · rw [← hij, show i + 1 - 1 = i by omega, range_letters_self]
          omega
        · have hlt : i + 1 < partition_scan s l fuel (i + 1) (n + s.length i) := by omega
          rw [range_letters_head s i _ (by omega)]
          have := h4 hlt
          omega
    · rename_i hc
      refine ⟨le_refl _, hi, ?_, fun h => absurd h (lt_irrefl _), ?_⟩
      · intro hj
        rw [range_letters_self]
        by_contra hcon
        exact hc ⟨hj, by omega⟩
      · intro h1 h2
        exact absurd ⟨h1, h2⟩ hc

/-- With a positive budget the outer loop of `partition` ends within `N - i + 1`
iterations: it appends to `v` a chain of rounds that starts at `i` and ends at `N`. -/
theorem partition_loop_chain (s : Sequence_set) (l : Nat) (hl : 0 < l) :
    ∀ fuel i v, i ≤ s.get_length → s.get_length - i < fuel →
      ∃ ext, partition_loop s l fuel i v = some (v ++ ext) ∧
        List.Chain (partition_round s l) i ext ∧
        (i :: ext).getLast? = some s.get_length := by
  intro fuel
  induction fuel with
  | zero => intro i v _ hf; omega
  | succ fuel ih =>
    intro i v hi hf
    rw [partition_loop]
    split
    · rename_i hlt
      simp only
      obtain ⟨h1, h2, h3, h4, h5⟩ :=
        partition_scan_spec s l (s.get_length - i) i 0 hi (le_refl _)
      have hij := h5 hlt hl
      obtain ⟨ext, e1, e2, e3⟩ := ih (partition_scan s l (s.get_length - i) i 0)
        (v ++ [partition_scan s l (s.get_length - i) i 0]) h2 (by omega)
      refine ⟨partition_scan s l (s.get_length - i) i 0 :: ext, ?_, ?_, ?_⟩
      · rw [e1]; simp
      · refine List.Chain.cons ⟨hij, h2, ?_, ?_⟩ e2
        · intro hj; simpa using h3 hj
        · simpa using h4 hij
      · rw [List.getLast?_cons_cons]; exact e3
    · rename_i hlt
      exact ⟨[], by simp, List.Chain.nil, by simp; omega⟩

/-- C8 (code evaluated at failing inputs): on a collection of one empty sequence the
outer loop of `partition(1)` never ends (no number of iterations yields a result), and
on the collection of lengths `[1, 0]` `partition(1)` returns the three boundaries
`[0, 1, 2]` instead of two. -/
theorem partition_zero_length_sequences :
    (∀ fuel, partition ⟨[[]]⟩ 1 fuel = none) ∧
    (∀ k, partition ⟨[[7], []]⟩ 1 (k + 3) = some [0, 1, 2]) := by
  constructor
  · intro fuel
    have h : ∀ fuel v, partition_loop ⟨[[]]⟩ 0 fuel 0 v = none := by
      intro fuel
      induction fuel with
      | zero => intro v; rfl
      | succ fuel ih =>
        intro v
        rw [partition_loop]
        simp only [get_length, List.length_cons, List.length_nil, Nat.zero_add,
          Nat.lt_one_iff, if_true, Nat.sub_zero]
        exact ih _
    simp only [partition]
    rw [show (letters ⟨[[]]⟩ + 1 - 1) / 1 = 0 by decide, h]
    rfl
  · intro k
    simp [partition, partition_loop, partition_scan, partition_pad, get_length, length,
      letters]

end Sequence_set

namespace Sequence_set

/-! ## Balance of the partitions -/

theorem foldl_max_nat_ge (xs : List Nat) :
    ∀ m0 : Nat, m0 ≤ xs.foldl max m0 ∧ ∀ x ∈ xs, x ≤ xs.foldl max m0 := by
  induction xs with
  | nil => intro m0; simp
  | cons a as ih =>
    intro m0
    obtain ⟨h1, h2⟩ := ih (max m0 a)
    simp only [List.foldl_cons]
    refine ⟨le_trans (le_max_left _ _) h1, ?_⟩
    intro x hx
    rcases List.mem_cons.1 hx with rfl | hx
    · exact le_trans (le_max_right _ _) h1
    · exact h2 x hx

/-- Every sequence of the collection is at most as long as the longest one. -/
theorem length_le_max_len (s : Sequence_set) (k : Nat) (hk : k < s.get_length) :
    s.length k ≤ max_len s 0 s.get_length := by
  unfold max_len
  apply (foldl_max_nat_ge _ 0).2
  rw [List.mem_map]
  exact ⟨k, List.mem_range'_1.2 ⟨Nat.zero_le _, by omega⟩, rfl⟩

/-- The share `letters / n_part` and the budget `ceil(letters / n_part)`. -/
theorem budget_bounds (letters n_part : Nat) (hn : 1 ≤ n_part) :
    letters / n_part ≤ (letters + n_part - 1) / n_part ∧
    (letters + n_part - 1) / n_part ≤ letters / n_part + 1 := by
  constructor
  · exact Nat.div_le_div_right (by omega)
  · have h : (letters + n_part - 1) / n_part ≤ (letters + n_part) / n_part :=
      Nat.div_le_div_right (by omega)
    rw [Nat.add_div_right _ (by omega)] at h
    exact h

/-- What a round of the outer loop gives for the letter count of its partition. -/
theorem partition_round_balanced (s : Sequence_set) (n_part a b : Nat) (hn : 1 ≤ n_part)
    (h : partition_round s ((s.letters + n_part - 1) / n_part) a b) :
    range_letters s a b ≤ s.letters / n_part + max_len s 0 s.get_length ∧
    (b < s.get_length → s.letters / n_part ≤ range_letters s a b) := by
  obtain ⟨h1, h2, h3, h4⟩ := h
  obtain ⟨b1, b2⟩ := budget_bounds s.letters n_part hn
  have hlen := length_le_max_len s (b - 1) (by omega)
  constructor
  · rw [range_letters_last s a b h1]
    omega
  · intro hb
    have := h3 hb
    omega

theorem chain_replicate {R : Nat → Nat → Prop} (x : Nat) (h : R x x) :
    ∀ k, List.Chain R x (List.replicate k x) := by
  intro k
  induction k with
  | zero => exact List.Chain.nil
  | succ k ih => exact List.Chain.cons h ih

/-- More iterations do not change a result the outer loop has reached. -/
theorem partition_loop_mono (s : Sequence_set) (l : Nat) :
    ∀ fuel i v r, partition_loop s l fuel i v = some r →
      ∀ fuel', fuel ≤ fuel' → partition_loop s l fuel' i v = some r := by
  intro fuel
  induction fuel with
  | zero => intro i v r h; simp [partition_loop] at h
  | succ fuel ih =>
    intro i v r h fuel' hf
    obtain ⟨f, rfl⟩ : ∃ f, fuel' = f + 1 := ⟨fuel' - 1, by omega⟩
    rw [partition_loop] at h ⊢
    split
    · rename_i hlt
      rw [if_pos hlt] at h
      exact ih _ _ _ h f (by omega)
    · rename_i hlt
      rw [if_neg hlt] at h
      exact h

/-- C9 (as stated, refuted): nine sequences of length 1 and four partitions give the
boundaries `[0, 3, 6, 9, 9]`; the last partition has no letters, while
`totalLetters / n = 2` and the longest sequence has length 1. -/
theorem partition_balance_last_short :
    partition ⟨List.replicate 9 [0]⟩ 4 10 = some [0, 3, 6, 9, 9] ∧
    partition_sums ⟨List.replicate 9 [0]⟩ [0, 3, 6, 9, 9] = [3, 3, 3, 0] ∧
    letters ⟨List.replicate 9 [0]⟩ / 4 = 2 ∧
    max_len ⟨List.replicate 9 [0]⟩ 0 (get_length ⟨List.replicate 9 [0]⟩) = 1 ∧
    ¬ (letters ⟨List.replicate 9 [0]⟩ / 4 - 0
        ≤ max_len ⟨List.replicate 9 [0]⟩ 0 (get_length ⟨List.replicate 9 [0]⟩)) := by
  refine ⟨by decide, by decide, by decide, by decide, by decide⟩

/-- C9 (amended): for every collection with at least one letter and every partition
count `n >= 1`, `partition(n)` returns (within `N + 1` rounds of its outer loop), and
for every two consecutive boundaries the summed letter count of the partition between
them is at most `totalLetters / n` plus the length of the longest sequence; a partition
that ends before the end of the collection has at least `totalLetters / n` letters. -/
theorem partition_balance (s : Sequence_set) (n_part : Nat) (hn : 1 ≤ n_part)
    (hl : 0 < s.letters) :
    ∃ v, (∀ fuel, s.get_length < fuel → partition s n_part fuel = some v) ∧
      ∀ k, k + 1 < v.length →
        range_letters s (v.getD k 0) (v.getD (k + 1) 0)
          ≤ s.letters / n_part + max_len s 0 s.get_length ∧
        (v.getD (k + 1) 0 < s.get_length →
          s.letters / n_part ≤ range_letters s (v.getD k 0) (v.getD (k + 1) 0)) := by
  have hbudget : 0 < (s.letters + n_part - 1) / n_part := Nat.div_pos (by omega) (by omega)
  obtain ⟨ext, e1, e2, e3⟩ := partition_loop_chain s _ hbudget (s.get_length + 1) 0 [0]
    (Nat.zero_le _) (by omega)
  have hbal : ∀ a b, partition_round s ((s.letters + n_part - 1) / n_part) a b →
      range_letters s a b ≤ s.letters / n_part + max_len s 0 s.get_length ∧
      (b < s.get_length → s.letters / n_part ≤ range_letters s a b) :=
    fun a b h => partition_round_balanced s n_part a b hn h
  have hNN : range_letters s s.get_length s.get_length
        ≤ s.letters / n_part + max_len s 0 s.get_length ∧
      (s.get_length < s.get_length →
        s.letters / n_part ≤ range_letters s s.get_length s.get_length) := by
    rw [range_letters_self]
    exact ⟨Nat.zero_le _, fun h => absurd h (lt_irrefl _)⟩
  have hchain : List.Chain' (fun a b =>
      range_letters s a b ≤ s.letters / n_part + max_len s 0 s.get_length ∧
      (b < s.get_length → s.letters / n_part ≤ range_letters s a b))
      (partition_pad s n_part ([0] ++ ext)) := by
    unfold partition_pad
    apply List.Chain'.append
    · exact List.Chain.imp hbal e2
    · cases hk : (n_part + 1) % 2 ^ 32 - ([0] ++ ext).length with
      | zero => exact List.chain'_nil
      | succ k => exact chain_replicate s.get_length hNN k
    · intro x hx y hy
      have hx' : x = s.get_length := by
        have : ([0] ++ ext).getLast? = some s.get_length := e3
        rw [this] at hx
        simpa using hx.symm
      have hy' : y = s.get_length := by
        cases hk : (n_part + 1) % 2 ^ 32 - ([0] ++ ext).length with
        | zero => rw [hk] at hy; simp at hy
        | succ k =>
          rw [hk] at hy
          simpa [List.replicate_succ] using hy.symm
      rw [hx', hy']
      exact hNN
  refine ⟨partition_pad s n_part ([0] ++ ext), ?_, ?_⟩
  · intro fuel hf
    unfold partition
    simp only
    rw [partition_loop_mono s _ _ 0 [0] _ e1 fuel (by omega)]
    rfl
  · intro k hk
    have h := List.chain'_iff_get.1 hchain k (by omega)
    rw [List.getD_eq_getElem _ 0 (by omega), List.getD_eq_getElem _ 0 hk]
    exact h

/-- The balance bounds at the collection of lengths `[2, 0, 1, 3, 0]` and three
partitions. -/
theorem partition_balance_witness :
    ∃ v, (∀ fuel, get_length ⟨[[0, 0], [], [0], [0, 0, 0], []]⟩ < fuel →
        partition ⟨[[0, 0], [], [0], [0, 0, 0], []]⟩ 3 fuel = some v) ∧
      ∀ k, k + 1 < v.length →
        range_letters ⟨[[0, 0], [], [0], [0, 0, 0], []]⟩ (v.getD k 0) (v.getD (k + 1) 0)
          ≤ letters ⟨[[0, 0], [], [0], [0, 0, 0], []]⟩ / 3
            + max_len ⟨[[0, 0], [], [0], [0, 0, 0], []]⟩ 0
                (get_length ⟨[[0, 0], [], [0], [0, 0, 0], []]⟩) ∧
        (v.getD (k + 1) 0 < get_length ⟨[[0, 0], [], [0], [0, 0, 0], []]⟩ →
          letters ⟨[[0, 0], [], [0], [0, 0, 0], []]⟩ / 3
            ≤ range_letters ⟨[[0, 0], [], [0], [0, 0, 0], []]⟩ (v.getD k 0) (v.getD (k + 1) 0)) :=
  partition_balance ⟨[[0, 0], [], [0], [0, 0, 0], []]⟩ 3 (by decide) (by decide)

end Sequence_set

namespace Sequence_set

/-! ## Strategy dispatch -/

/-- C10: `enum_seeds_worker` takes the contiguous path exactly when the shape range holds
one shape, that shape is contiguous, exactly one shape is configured and (the algorithm
mode is query-indexed or the contiguous hint is set).  On that path it raises if and
only if (shape length, bit-width) is not one of (5,4), (6,4), (7,4), and otherwise runs
the contiguous strategy for that pair; off that path with `hashed_seeds` it raises if
and only if the bit-width is not 4, and otherwise runs the hashed strategy; otherwise it
runs the generic strategy and does not raise.  Whenever it raises, the sink has received
no call. -/
theorem enum_seeds_worker_dispatch (env : SeedEnv) (st : Strategies) (b e : Nat)
    (shape_range : Nat × Nat) (contig : Bool) :
    (contiguous_path env shape_range contig = true ↔
      (shape_range.2 = shape_range.1 + 1 ∧ (env.shapes shape_range.1).contiguous = true ∧
        env.count = 1 ∧ (env.algo = env.query_indexed ∨ contig = true))) ∧
    (contiguous_path env shape_range contig = true →
      ((enum_seeds_worker env st b e shape_range contig).error ≠ none ↔
        ¬ (((env.shapes shape_range.1).length_ = 5 ∨ (env.shapes shape_range.1).length_ = 6 ∨
            (env.shapes shape_range.1).length_ = 7) ∧ env.bit_size = 4)) ∧
      ((enum_seeds_worker env st b e shape_range contig).error = none →
        (enum_seeds_worker env st b e shape_range contig).calls
          = st.enum_seeds_contiguous (env.shapes shape_range.1).length_ env.bit_size b e)) ∧
    (contiguous_path env shape_range contig = false → env.hashed_seeds = true →
      ((enum_seeds_worker env st b e shape_range contig).error ≠ none ↔ env.bit_size ≠ 4) ∧
      ((enum_seeds_worker env st b e shape_range contig).error = none →
        (enum_seeds_worker env st b e shape_range contig).calls
          = st.enum_seeds_hashed env.bit_size b e shape_range)) ∧
    (contiguous_path env shape_range contig = false → env.hashed_seeds = false →
      enum_seeds_worker env st b e shape_range contig
        = ⟨st.enum_seeds b e shape_range, none⟩) ∧
    ((enum_seeds_worker env st b e shape_range contig).error ≠ none →
      (enum_seeds_worker env st b e shape_range contig).calls = []) := by
  refine ⟨?_, ?_, ?_, ?_, ?_⟩
  · simp only [contiguous_path, Bool.and_eq_true, Bool.or_eq_true, decide_eq_true_eq]
    constructor
    · rintro ⟨⟨⟨h1, h2⟩, h3⟩, h4⟩
      exact ⟨by omega, h2, h3, h4⟩
    · rintro ⟨h1, h2, h3, h4⟩
      exact ⟨⟨⟨by omega, h2⟩, h3⟩, h4⟩
  · intro hp
    unfold enum_seeds_worker
    rw [if_pos hp]
    simp only
    by_cases h7 : (env.shapes shape_range.1).length_ = 7
    · by_cases hb : env.bit_size = 4 <;> simp [h7, hb]
    · by_cases h6 : (env.shapes shape_range.1).length_ = 6
      · by_cases hb : env.bit_size = 4 <;> simp [h6, hb]
      · by_cases h5 : (env.shapes shape_range.1).length_ = 5
        · by_cases hb : env.bit_size = 4 <;> simp [h5, hb]
        · simp [h7, h6, h5]
  · intro hp hh
    unfold enum_seeds_worker
    rw [if_neg (by simp [hp]), if_pos hh]
    by_cases hb : env.bit_size = 4 <;> simp [hb]
  · intro hp hh
    unfold enum_seeds_worker
    rw [if_neg (by simp [hp]), if_neg (by simp [hh])]
  · unfold enum_seeds_worker
    simp only
    split_ifs <;> simp

/-- The dispatch at one contiguous shape of length 8 with bit-width 4 and the contiguous
hint: the run raises and the sink receives no call. -/
theorem enum_seeds_worker_dispatch_witness :
    enum_seeds_worker ⟨fun _ => ⟨8, true⟩, 1, 4, 0, 1, true⟩
      ⟨fun _ _ _ => [SinkCall.finish], fun _ _ _ _ => [SinkCall.finish],
        fun _ _ _ _ => [SinkCall.finish]⟩ 0 3 (0, 1) true
      = ⟨[], some "Unsupported contiguous seed."⟩ ∧
    (enum_seeds_worker ⟨fun _ => ⟨8, true⟩, 1, 4, 0, 1, true⟩
      ⟨fun _ _ _ => [SinkCall.finish], fun _ _ _ _ => [SinkCall.finish],
        fun _ _ _ _ => [SinkCall.finish]⟩ 0 3 (0, 1) true).calls = [] :=
  ⟨by decide,
    (enum_seeds_worker_dispatch ⟨fun _ => ⟨8, true⟩, 1, 4, 0, 1, true⟩
      ⟨fun _ _ _ => [SinkCall.finish], fun _ _ _ _ => [SinkCall.finish],
        fun _ _ _ _ => [SinkCall.finish]⟩ 0 3 (0, 1) true).2.2.2.2 (by decide)⟩

end Sequence_set

namespace Extension

/-! ## The decision of `add_more_targets` -/

/-- The batch maximum of lines 61-63 is 0 or the score of a batch entry. -/
theorem foldl_max_attained (b : List Target) :
    ∀ m0 : Int, b.foldl (fun m t => max m t.filter_score) m0 = m0 ∨
      ∃ t ∈ b, t.filter_score = b.foldl (fun m t => max m t.filter_score) m0 := by
  induction b with
  | nil => intro m0; exact Or.inl rfl
  | cons a as ih =>
    intro m0
    simp only [List.foldl_cons]
    rcases ih (max m0 a.filter_score) with h | ⟨t, ht, h⟩
    · rcases le_total m0 a.filter_score with hle | hle
      · right
        refine ⟨a, List.mem_cons_self _ _, ?_⟩
        rw [h, max_eq_right hle]
      · left
        rw [h, max_eq_left hle]
    · exact Or.inr ⟨t, List.mem_cons_of_mem _ ht, h⟩

/-- C13 (as stated, refuted).  First, in fixed-count mode with `max_alignments = 5`, one
kept target, low-score bound -1 and a batch of one target of score -5, the maximum of the
batch is -5 and does not exceed the bound, yet `add_more_targets` returns true: it
starts its maximum from 0 (line 61).  Second, with `toppercent = 90`, one kept target of
score 100, low-score bound 0 and a batch of one target of score 9, the batch maximum 9 is
below `floor((1 - 90/100) * 100) = 10`, yet `add_more_targets` returns true: the product
computed in `double` is just below 10 and `int` makes it 9 (line 75). -/
theorem add_more_targets_refuted :
    (add_more_targets (sample_config 100 5) [⟨1, 3⟩] [⟨2, -5⟩] (-1) = true ∧
      (∀ t ∈ [(⟨2, -5⟩ : Target)], t.filter_score ≤ -5) ∧ (-5 : Int) ≤ -1 ∧
      batch_max [⟨2, -5⟩] = 0) ∧
    (add_more_targets (sample_config 90 5) [⟨1, 100⟩] [⟨2, 9⟩] 0 = true ∧
      batch_max [⟨2, 9⟩] = 9 ∧ front_filter_score [⟨1, 100⟩] = 100 ∧
      ⌊(1 - (90 : ℚ) / 100) * ((100 : Int) : ℚ)⌋ = 10 ∧ top_score 90 100 = 9) := by
  refine ⟨⟨by decide, by decide, by decide, by decide⟩,
    ⟨by decide, by decide, by decide, ?_, by decide⟩⟩
  have h : (1 - (90 : ℚ) / 100) * ((100 : Int) : ℚ) = ((10 : Int) : ℚ) := by norm_num
  rw [h, Int.floor_intCast]

/-- C13 (amended): `add_more_targets` returns true if the kept vector is empty;
otherwise false if the batch maximum, which starts from 0 and so is never negative, is
at most `low_score`; otherwise true if `toppercent == 100` and (the kept size is below
`max_alignments` or a quality filter is active); otherwise, for `toppercent == 100`,
true exactly when the batch maximum reaches the score of the last kept target, and for
any other `toppercent` exactly when it reaches `int((1.0 - toppercent/100.0) * s)` as
computed in `double` arithmetic, `s` the score of the first (best) kept target; that
value is `floor((1 - toppercent/100) * s)` or differs from it by 1 (for `toppercent` in
`[0, 100]` and a non-negative `s` in the range of `int`). -/
theorem add_more_targets_table (cfg : Config) (T b : List Target) (low : Int) :
    (add_more_targets cfg T b low =
      if T = [] then true
      else if batch_max b ≤ low then false
      else if cfg.toppercent = 100 ∧
          (T.length < cfg.max_alignments ∨ filters_active cfg = true) then true
      else if cfg.toppercent = 100 then decide (back_filter_score T ≤ batch_max b)
      else decide (top_score cfg.toppercent (front_filter_score T) ≤ batch_max b)) ∧
    (0 ≤ cfg.toppercent → cfg.toppercent ≤ 100 → 0 ≤ front_filter_score T →
      front_filter_score T < 2 ^ 31 →
      |top_score cfg.toppercent (front_filter_score T)
          - ⌊(1 - cfg.toppercent / 100) * (front_filter_score T : ℚ)⌋| ≤ 1) ∧
    (0 ≤ batch_max b ∧ (∀ t ∈ b, t.filter_score ≤ batch_max b) ∧
      (batch_max b = 0 ∨ ∃ t ∈ b, t.filter_score = batch_max b)) ∧
    (∀ t rest, T = t :: rest → front_filter_score T = t.filter_score) ∧
    (∀ init t, T = init ++ [t] → back_filter_score T = t.filter_score) ∧
    (filters_active cfg = true ↔
      (0 < cfg.min_id ∨ 0 < cfg.query_cover ∨ 0 < cfg.subject_cover ∨
        cfg.no_self_hits = true)) := by
  have hmax0 : 0 ≤ batch_max b := (foldl_max_ge b 0).1
  refine ⟨?_, fun h0 h100 hs0 hs => top_score_near_floor _ _ h0 h100 hs0 hs,
    ⟨hmax0, (foldl_max_ge b 0).2, foldl_max_attained b 0⟩, ?_, ?_, ?_⟩
  · unfold add_more_targets
    cases T with
    | nil => simp
    | cons t rest =>
      simp only [List.isEmpty_cons, Bool.false_eq_true, if_false,
        List.cons_ne_nil]
      by_cases h1 : batch_max b ≤ low
      · simp [h1]
      · simp only [h1, if_false]
        by_cases htp : cfg.toppercent = 100
        · by_cases hlen : rest.length + 1 < cfg.max_alignments
          · simp [htp, hlen]
          · by_cases hf : filters_active cfg = true
            · simp [htp, hf]
            · simp [htp, hlen, hf]
        · simp only [htp, false_and, if_false]
  · intro t rest h
    subst h
    simp [front_filter_score]
  · intro init t h
    subst h
    simp [back_filter_score]
  · simp [filters_active, or_assoc]

/-! ## Early termination of `score_only_culling` -/

/-- C14 (as stated, refuted): in fixed-count mode with the filter `min_id = 50` active,
kept vector of one target of score 5, a batch of maximum 3 and low-score bound 10, the
batch is not merged but `score_only_culling` returns 1 (line 91), whatever `std::sort`
does. -/
theorem score_only_culling_filter_returns_one :
    batch_max [⟨2, 3⟩] ≤ 10 ∧
    add_more_targets { sample_config 100 5 with min_id := 50 } [⟨1, 5⟩] [⟨2, 3⟩] 10 = false ∧
    ∀ S : StdSort Target Target.filter_score,
      score_only_culling S { sample_config 100 5 with min_id := 50 } [⟨1, 5⟩] [⟨2, 3⟩] 10
        = ([⟨1, 5⟩], 1) := by
  refine ⟨by decide, by decide, ?_⟩
  intro S
  rw [score_only_culling_congr S (stable_sort Target.filter_score) _ _ _ _
    (std_sort_agree _ _ _ (by decide) (by decide))]
  decide

/-- C14 (amended): for every configuration, every non-empty kept vector and every batch
whose maximum (started from 0, lines 61-63) does not exceed `low_score`,
`score_only_culling` does not merge the batch: it leaves what it leaves for an empty
batch, a sublist of the sorted kept vector; and unless `toppercent == 100` with a
quality filter active (the early return of line 91), it returns 0. -/
theorem score_only_culling_rejects (S : StdSort Target Target.filter_score) (cfg : Config)
    (T b : List Target) (low : Int) (hT : T ≠ []) (hmax : batch_max b ≤ low) :
    add_more_targets cfg T b low = false ∧
    score_only_culling S cfg T b low = score_only_culling S cfg T [] low ∧
    (score_only_culling S cfg T b low).1.Sublist (S.sort T) ∧
    (¬ (cfg.toppercent = 100 ∧ filters_active cfg = true) →
      (score_only_culling S cfg T b low).2 = 0) := by
  have hlow : (0 : Int) ≤ low := le_trans (foldl_max_ge b 0).1 hmax
  have hrej : ∀ c : List Target, batch_max c ≤ low → add_more_targets cfg T c low = false := by
    intro c hc
    unfold add_more_targets
    cases T with
    | nil => exact absurd rfl hT
    | cons t rest => simp [hc]
  have h1 := hrej b hmax
  have h2 := hrej [] (by simpa [batch_max] using hlow)
  refine ⟨h1, ?_, ?_, ?_⟩
  · unfold score_only_culling
    simp only [h1, h2, Bool.false_eq_true, if_false]
  · unfold score_only_culling
    simp only [h1, Bool.false_eq_true, if_false]
    generalize S.sort T = L
    cases L with
    | nil => exact List.Sublist.refl _
    | cons t rest =>
      simp only
      split_ifs
      · exact List.nil_sublist _
      · exact List.Sublist.refl _
      · exact select_front_sublist _ _ _ _
  · intro hno
    unfold score_only_culling
    simp only [h1, Bool.false_eq_true, if_false]
    generalize S.sort T = L
    cases L with
    | nil => rfl
    | cons t rest =>
      simp only
      split_ifs <;> rfl

/-- Early termination at two kept targets and a batch of maximum 2 under the bound 4. -/
theorem score_only_culling_rejects_witness :
    score_only_culling (stable_sort Target.filter_score) (sample_config 100 1)
        [⟨1, 5⟩, ⟨2, 4⟩] [⟨3, 2⟩, ⟨4, 1⟩] 4
      = ([⟨1, 5⟩], 0) := by
  have h := score_only_culling_rejects (stable_sort Target.filter_score)
    (sample_config 100 1) [⟨1, 5⟩, ⟨2, 4⟩] [⟨3, 2⟩, ⟨4, 1⟩] 4 (by decide) (by decide)
  rw [h.2.1]
  decide

/-! ## The fixed-count cut and entries beyond the window -/

end Extension

namespace Extension

/-! ## `inner_culling` against the greedy reference -/

/-- The erase loop is the fold of the greedy step over the scanned entries. -/
theorem envelope_scan_eq_foldl (ops : HspOps) (overlap : ℚ) :
    ∀ (rest kept : List Hsp), envelope_scan ops overlap kept rest =
      rest.foldl (fun kept h => if kept.any (fun k => ops.is_enveloped_by h k overlap)
        then kept else kept ++ [h]) kept := by
  intro rest
  induction rest with
  | nil => intro kept; rfl
  | cons h r ih =>
    intro kept
    rw [envelope_scan, List.foldl_cons]
    unfold enveloped_by_any
    split <;> exact ih _

theorem envelope_scan_eq_greedy (ops : HspOps) (overlap : ℚ) (S : List Hsp) :
    envelope_scan ops overlap [] S = greedy_keep ops overlap S :=
  envelope_scan_eq_foldl ops overlap S []

/-- The greedy step at the entry behind a scanned front part. -/
theorem greedy_keep_snoc (ops : HspOps) (overlap : ℚ) (pre : List Hsp) (h : Hsp) :
    greedy_keep ops overlap (pre ++ [h]) =
      if enveloped_by_any ops overlap (greedy_keep ops overlap pre) h
      then greedy_keep ops overlap pre else greedy_keep ops overlap pre ++ [h] := by
  unfold greedy_keep enveloped_by_any
  rw [List.foldl_append]
  rfl

/-- The survivors of a front part stay at the front of the survivors of the list. -/
theorem greedy_keep_append (ops : HspOps) (overlap : ℚ) (pre post : List Hsp) :
    ∃ rest, greedy_keep ops overlap (pre ++ post) = greedy_keep ops overlap pre ++ rest := by
  obtain ⟨ext, h1, _, _⟩ := envelope_scan_stable ops overlap post (greedy_keep ops overlap pre)
  refine ⟨ext, ?_⟩
  rw [← h1, envelope_scan_eq_foldl]
  unfold greedy_keep
  rw [List.foldl_append]

/-- C15: `inner_culling` equals the greedy reference.  With `S` the mapped and sorted
Hsp list, the Hsp list it leaves is the first `max_hsps` entries (all when
`max_hsps == 0`) of the list obtained by scanning `S` best-first and keeping an Hsp
exactly when no Hsp kept before it envelops it at fraction `inner_culling_overlap/100`;
no surviving Hsp is enveloped by an earlier surviving Hsp; every Hsp the scan drops is
enveloped by an Hsp kept before it, which stays among the scan's survivors; and a
non-empty input keeps its best Hsp. -/
theorem inner_culling_greedy (cfg : Config) (ops : HspOps) (m : Match) (len : Nat) :
    (m.inner_culling cfg ops len).hsp
        = inner_culling_reference cfg ops (sort_hsp ops (m.hsp.map (map_source_range ops len))) ∧
    (∀ A h B, (m.inner_culling cfg ops len).hsp = A ++ h :: B →
      enveloped_by_any ops (cfg.inner_culling_overlap / 100) A h = false) ∧
    (∀ pre h post, sort_hsp ops (m.hsp.map (map_source_range ops len)) = pre ++ h :: post →
      (greedy_keep ops (cfg.inner_culling_overlap / 100) (pre ++ [h])
          = greedy_keep ops (cfg.inner_culling_overlap / 100) pre ++ [h] ↔
        enveloped_by_any ops (cfg.inner_culling_overlap / 100)
          (greedy_keep ops (cfg.inner_culling_overlap / 100) pre) h = false) ∧
      (greedy_keep ops (cfg.inner_culling_overlap / 100) (pre ++ [h])
          ≠ greedy_keep ops (cfg.inner_culling_overlap / 100) pre ++ [h] →
        ∃ k ∈ greedy_keep ops (cfg.inner_culling_overlap / 100) pre,
          ops.is_enveloped_by h k (cfg.inner_culling_overlap / 100) = true ∧
          k ∈ greedy_keep ops (cfg.inner_culling_overlap / 100)
            (sort_hsp ops (m.hsp.map (map_source_range ops len))))) ∧
    (m.hsp ≠ [] →
      (m.inner_culling cfg ops len).hsp.head?
        = (sort_hsp ops (m.hsp.map (map_source_range ops len))).head? ∧
      (m.inner_culling cfg ops len).hsp ≠ []) := by
  refine ⟨?_, ?_, ?_, ?_⟩
  · rw [inner_culling_hsp, envelope_scan_eq_greedy]
    unfold inner_culling_reference
    by_cases h0 : cfg.max_hsps = 0
    · rw [if_pos h0, if_neg (by omega)]
    · rw [if_neg h0]
      by_cases hlt : cfg.max_hsps < (greedy_keep ops (cfg.inner_culling_overlap / 100)
          (sort_hsp ops (m.hsp.map (map_source_range ops len)))).length
      · rw [if_pos ⟨by omega, hlt⟩]
      · rw [if_neg (fun h => hlt h.2), List.take_of_length_le (by omega)]
  · intro A h B hR
    obtain ⟨ext, n, hRe, _, hstable, _, _⟩ := inner_culling_shape cfg ops m len
    rw [hRe] at hR
    have hA : ext.take A.length = A := by
      have := congrArg (List.take A.length) hR
      rw [List.take_take, List.take_left'] at this
      · have hle : A.length ≤ n := by
          have hl := congrArg List.length hR
          rw [List.length_take, List.length_append, List.length_cons] at hl
          omega
        rw [min_eq_left hle] at this
        exact this
      · rfl
    have hAh : ext.take (A.length + 1) = A ++ [h] := by
      have := congrArg (List.take (A.length + 1)) hR
      rw [List.take_take] at this
      have hle : A.length + 1 ≤ n := by
        have hl := congrArg List.length hR
        rw [List.length_take, List.length_append, List.length_cons] at hl
        omega
      rw [min_eq_left hle] at this
      rw [this, show A ++ h :: B = (A ++ [h]) ++ B by simp, List.take_left']
      simp
    have e1 := hstable A.length
    have e2 := hstable (A.length + 1)
    rw [hA, envelope_scan_eq_greedy] at e1
    rw [hAh, envelope_scan_eq_greedy, greedy_keep_snoc, e1] at e2
    by_contra hne
    rw [if_pos (by simpa using hne)] at e2
    have := congrArg List.length e2
    simp at this
  · intro pre h post hS
    have hsnoc := greedy_keep_snoc ops (cfg.inner_culling_overlap / 100) pre h
    constructor
    · constructor
      · intro heq
        by_contra hne
        rw [if_pos (by simpa using hne)] at hsnoc
        rw [hsnoc] at heq
        have := congrArg List.length heq
        simp at this
      · intro hfalse
        rw [hsnoc, if_neg (by simp [hfalse])]
    · intro hdrop
      have henv : enveloped_by_any ops (cfg.inner_culling_overlap / 100)
          (greedy_keep ops (cfg.inner_culling_overlap / 100) pre) h = true := by
        by_contra hne
        rw [if_neg hne] at hsnoc
        exact hdrop hsnoc
      unfold enveloped_by_any at henv
      obtain ⟨k, hk, hkenv⟩ := List.any_eq_true.1 henv
      obtain ⟨rest, hrest⟩ := greedy_keep_append ops (cfg.inner_culling_overlap / 100) pre
        (h :: post)
      refine ⟨k, hk, hkenv, ?_⟩
      rw [hS, hrest]
      exact List.mem_append_left _ hk
  · intro hne
    obtain ⟨ext, n, hRe, _, _, _, hhead⟩ := inner_culling_shape cfg ops m len
    have hlen : (sort_hsp ops (m.hsp.map (map_source_range ops len))).length = m.hsp.length := by
      rw [sort_hsp, List.length_insertionSort, List.length_map]
    rw [hRe]
    split at hhead
    · rename_i heq
      rw [heq] at hlen
      exact absurd (List.length_eq_zero.1 hlen.symm) hne
    · rename_i x r heq
      obtain ⟨tl, htl⟩ := hhead
      rw [htl, heq]
      exact ⟨rfl, List.cons_ne_nil _ _⟩

end Extension

namespace Extension

/-! ## `apply_filters` against the specification -/

/-- The test `a * 100.0 / b < thr` fails exactly when the percentage reaches the
threshold or is not a number. -/
theorem percent_lt_eq_false_iff (a b : Nat) (thr : ℚ) :
    (!(percent_lt a b thr)) = (percent_ge a b thr || percent_nan a b) := by
  unfold percent_lt percent_ge percent_nan
  by_cases hb : b = 0
  · by_cases ha : a = 0 <;> simp [hb, ha]
  · simp only [hb, if_false]
    generalize Rat.divInt ((a : Int) * 100) (b : Int) = x
    by_cases h : x < thr
    · simp [h]
    · simp [h, not_lt.1 h]

/-- An Hsp is erased exactly when it does not pass the filters, a percentage that is not
a number counting as passed. -/
theorem filtered_out_eq_not_passes (cfg : Config) (len : Nat) (q t : String) (l : Nat)
    (h : Hsp) :
    (!(filtered_out cfg len q t l h)) = passes_filters_or_nan cfg len q t l h := by
  have e1 := percent_lt_eq_false_iff h.identities h.length cfg.min_id
  have e2 := percent_lt_eq_false_iff h.query_source_range.length len cfg.query_cover
  have e3 := percent_lt_eq_false_iff h.subject_range.length l cfg.subject_cover
  unfold filtered_out passes_filters_or_nan Hsp.id_percent_lt Hsp.query_cover_percent_lt
    Hsp.subject_cover_percent_lt is_self_hit
  rw [← e1, ← e2, ← e3]
  cases percent_lt h.identities h.length cfg.min_id <;>
  cases percent_lt h.query_source_range.length len cfg.query_cover <;>
  cases percent_lt h.subject_range.length l cfg.subject_cover <;>
  simp [Bool.or_assoc]

/-- C16 (as stated, refuted): with `min_id = 50`, an Hsp of alignment length 0 with 0
identities has a percent identity that is not a number, so "percent identity >= min_id"
does not hold for it, yet `apply_filters` keeps it: the test `id_percent() < min_id` of
line 113 is false. -/
theorem apply_filters_keeps_zero_length :
    percent_ge ({ sample_hsp 50 with length := 0, identities := 0 } : Hsp).identities
      ({ sample_hsp 50 with length := 0, identities := 0 } : Hsp).length
      ({ sample_config 100 1 with min_id := 50 } : Config).min_id = false ∧
    passes_filters { sample_config 100 1 with min_id := 50 } 10 "query" "target" 10
      { sample_hsp 50 with length := 0, identities := 0 } = false ∧
    (([{ sample_hsp 50 with length := 0, identities := 0 }] : List Hsp).filter
      (passes_filters { sample_config 100 1 with min_id := 50 } 10 "query"
        (sample_reference.title 1) (sample_reference.len 1))) = [] ∧
    ((⟨1, 0, [{ sample_hsp 50 with length := 0, identities := 0 }]⟩ : Match).apply_filters
        { sample_config 100 1 with min_id := 50 } sample_reference 10 "query")
      = ⟨1, 50, [{ sample_hsp 50 with length := 0, identities := 0 }]⟩ := by
  refine ⟨by decide, by decide, by decide, by decide⟩

/-- C16 (amended): for every Match, `apply_filters` leaves exactly the sub-list, in the
original order, of the Hsps whose percent identity, percent query coverage and percent
subject coverage each reach their minimum (`min_id`, `query_cover`, `subject_cover`) or
are not a number (0 over a length of 0), and that are not self hits under
`no_self_hits`; it sets `filter_score` to the score of the first survivor, or 0 if there
is none; for an Hsp with a non-zero alignment length, a non-zero source query length and
a non-zero target length no percentage is not a number; and with all three thresholds 0
and `no_self_hits` off the Hsp list is left unchanged. -/
theorem apply_filters_survivors (cfg : Config) (ref : Reference) (m : Match) (len : Nat)
    (title : String) :
    (m.apply_filters cfg ref len title).hsp
        = m.hsp.filter (passes_filters_or_nan cfg len title (ref.title m.target_block_id)
            (ref.len m.target_block_id)) ∧
    (m.apply_filters cfg ref len title).filter_score
        = front_score (m.hsp.filter (passes_filters_or_nan cfg len title
            (ref.title m.target_block_id) (ref.len m.target_block_id))) ∧
    (m.apply_filters cfg ref len title).target_block_id = m.target_block_id ∧
    (∀ h : Hsp, 0 < h.length → 0 < len → 0 < ref.len m.target_block_id →
      passes_filters_or_nan cfg len title (ref.title m.target_block_id)
          (ref.len m.target_block_id) h
        = passes_filters cfg len title (ref.title m.target_block_id)
          (ref.len m.target_block_id) h) ∧
    (cfg.min_id = 0 → cfg.query_cover = 0 → cfg.subject_cover = 0 →
      cfg.no_self_hits = false → (m.apply_filters cfg ref len title).hsp = m.hsp) := by
  have hfilter : m.hsp.filter (fun h => !(filtered_out cfg len title
        (ref.title m.target_block_id) (ref.len m.target_block_id) h))
      = m.hsp.filter (passes_filters_or_nan cfg len title (ref.title m.target_block_id)
          (ref.len m.target_block_id)) := by
    apply List.filter_congr
    intro h _
    exact filtered_out_eq_not_passes cfg len title _ _ h
  refine ⟨?_, ?_, rfl, ?_, ?_⟩
  · unfold Match.apply_filters
    simp only
    exact hfilter
  · unfold Match.apply_filters
    simp only
    rw [hfilter]
  · intro h hh hlen hl
    have n1 : percent_nan h.identities h.length = false := by
      simp [percent_nan]; omega
    have n2 : percent_nan h.query_source_range.length len = false := by
      simp [percent_nan]; omega
    have n3 : percent_nan h.subject_range.length (ref.len m.target_block_id) = false := by
      simp [percent_nan]; omega
    unfold passes_filters_or_nan passes_filters
    rw [n1, n2, n3]
    simp
  · intro hmin hq hsc hno
    rw [apply_filters_off_hsp cfg ref m len title hmin hq hsc hno]

/-- The survivors at a Match of four Hsps with `min_id = 60`: the Hsp with 5 identities
on length 10 is erased, the Hsp of length 0 is kept. -/
theorem apply_filters_survivors_witness :
    ((⟨1, 0, [sample_hsp 30, { sample_hsp 50 with identities := 5 },
          { sample_hsp 20 with length := 0, identities := 0 }, sample_hsp 40]⟩ : Match
        ).apply_filters { sample_config 100 1 with min_id := 60 } sample_reference 10
        "query").hsp
      = ([sample_hsp 30, { sample_hsp 50 with identities := 5 },
          { sample_hsp 20 with length := 0, identities := 0 }, sample_hsp 40] : List Hsp).filter
          (passes_filters_or_nan { sample_config 100 1 with min_id := 60 } 10 "query"
            "target" 10) ∧
    ((⟨1, 0, [sample_hsp 30, { sample_hsp 50 with identities := 5 },
          { sample_hsp 20 with length := 0, identities := 0 }, sample_hsp 40]⟩ : Match
        ).apply_filters { sample_config 100 1 with min_id := 60 } sample_reference 10
        "query").hsp
      = [sample_hsp 30, { sample_hsp 20 with length := 0, identities := 0 }, sample_hsp 40] :=
  ⟨(apply_filters_survivors { sample_config 100 1 with min_id := 60 } sample_reference
      ⟨1, 0, [sample_hsp 30, { sample_hsp 50 with identities := 5 },
        { sample_hsp 20 with length := 0, identities := 0 }, sample_hsp 40]⟩ 10 "query").1,
    by decide⟩

end Extension

namespace Sequence_set

/-! ## `reverse_translated_len` -/

/-- C17: `reverse_translated_len` reconstructs the nucleotide length.  For every
nucleotide length `L >= 2` and every index `i` whose block of six entries starts with
entries of lengths `floor(L/3)`, `floor((L-1)/3)` and `floor((L-2)/3)`,
`reverse_translated_len(i) = L`; for every collection the result depends only on the
block start `i - i mod 6` and is `3 * l + r` with `l` the length of the first entry of
the block and `r` in `{0, 1, 2}`. -/
theorem reverse_translated_len_spec (s : Sequence_set) (i L : Nat) (hL : 2 ≤ L)
    (h0 : s.length (i - i % 6) = L / 3)
    (h1 : s.length (i - i % 6 + 1) = (L - 1) / 3)
    (h2 : s.length (i - i % 6 + 2) = (L - 2) / 3) :
    reverse_translated_len s i = L ∧
    (∀ (s' : Sequence_set) (a b : Nat), a - a % 6 = b - b % 6 →
      reverse_translated_len s' a = reverse_translated_len s' b) ∧
    (∀ (s' : Sequence_set) (a : Nat), ∃ r, r ≤ 2 ∧
      reverse_translated_len s' a = 3 * s'.length (a - a % 6) + r) := by
  refine ⟨?_, ?_, ?_⟩
  · unfold reverse_translated_len
    simp only [h0, h1, h2]
    split_ifs <;> omega
  · intro s' a b hab
    unfold reverse_translated_len
    simp only [hab]
  · intro s' a
    unfold reverse_translated_len
    simp only
    split_ifs
    · exact ⟨2, le_refl _, by omega⟩
    · exact ⟨1, by omega, by omega⟩
    · exact ⟨0, by omega, by omega⟩

/-- The reconstruction at index 10 of a collection whose second block of six holds the
frames of a nucleotide sequence of length 7 (frame lengths 2, 2, 1). -/
theorem reverse_translated_len_spec_witness :
    reverse_translated_len
      ⟨[[], [], [], [], [], [], [0, 0], [0, 0], [0], [0, 0], [0, 0], [0]]⟩ 10 = 7 :=
  (reverse_translated_len_spec
    ⟨[[], [], [], [], [], [], [0, 0], [0, 0], [0], [0, 0], [0, 0], [0]]⟩ 10 7
    (by decide) (by decide) (by decide) (by decide)).1

end Sequence_set

namespace Sequence_set

/-! ## Greedy bounds of `partition` -/

theorem range_letters_split (s : Sequence_set) (a b : Nat) (hab : a ≤ b) :
    ∀ c, b ≤ c → range_letters s a c = range_letters s a b + range_letters s b c := by
  intro c hbc
  induction c, hbc using Nat.le_induction with
  | base => rw [range_letters_self, Nat.add_zero]
  | succ c hbc ih =>
    rw [range_letters_last s a (c + 1) (by omega), range_letters_last s b (c + 1) (by omega)]
    simp only [Nat.add_sub_cancel]
    rw [ih]
    omega

/-- The total letter count is the letter count of the whole index range. -/
theorem letters_eq_range (s : Sequence_set) : s.letters = range_letters s 0 s.get_length := by
  unfold letters range_letters get_length length
  congr 1
  apply List.ext_getElem
  · simp
  · intro i h1 h2
    simp only [List.getElem_map, List.getElem_range', Nat.sub_zero]
    simp only [List.length_map] at h1
    rw [Nat.zero_add, Nat.one_mul, List.getD_eq_getElem _ _ h1]

/-- A non-empty index range of sequences of length at least 1 holds a letter. -/
theorem range_letters_pos (s : Sequence_set) (hlen : ∀ i < s.get_length, 1 ≤ s.length i)
    (a b : Nat) (hab : a < b) (hb : b ≤ s.get_length) : 1 ≤ range_letters s a b := by
  rw [range_letters_last s a b hab]
  have := hlen (b - 1) (by omega)
  omega

/-- A chain of `k` rounds from `i` to the end of a collection of sequences of length at
least 1 covers at least `(k - 1) * l + 1` letters. -/
theorem chain_letters_ge (s : Sequence_set) (l : Nat)
    (hlen : ∀ i < s.get_length, 1 ≤ s.length i) :
    ∀ (ext : List Nat) (i : Nat), List.Chain (partition_round s l) i ext →
      (i :: ext).getLast? = some s.get_length → ext ≠ [] →
      (ext.length - 1) * l + 1 ≤ range_letters s i s.get_length := by
  intro ext
  induction ext with
  | nil => intro i _ _ h; exact absurd rfl h
  | cons j rest ih =>
    intro i hc hlast _
    obtain ⟨hr, hc'⟩ := List.chain_cons.1 hc
    obtain ⟨hij, hjN, hbudget, _⟩ := hr
    rw [List.getLast?_cons_cons] at hlast
    cases rest with
    | nil =>
      have hj : j = s.get_length := by simpa using hlast
      subst hj
      have := range_letters_pos s hlen i _ hij (le_refl _)
      simpa using this
    | cons k rest' =>
      have hjk : j < k ∧ k ≤ s.get_length := by
        obtain ⟨hr', _⟩ := List.chain_cons.1 hc'
        exact ⟨hr'.1, hr'.2.1⟩
      have h1 := hbudget (by omega)
      have h2 := ih j hc' hlast (List.cons_ne_nil _ _)
      rw [range_letters_split s i j (by omega) s.get_length hjN]
      simp only [List.length_cons, Nat.add_sub_cancel] at h2 ⊢
      have : (rest'.length + 1) * l = rest'.length * l + l := by ring
      omega

/-- The budget `ceil(letters / n_part)` times `n_part` covers the letters. -/
theorem letters_le_budget_mul (letters n_part : Nat) (hn : 1 ≤ n_part) :
    letters ≤ n_part * ((letters + n_part - 1) / n_part) := by
  have h := Nat.lt_mul_div_succ (letters + n_part - 1) (show 0 < n_part by omega)
  have : n_part * ((letters + n_part - 1) / n_part + 1)
      = n_part * ((letters + n_part - 1) / n_part) + n_part := by ring
  omega

/-- The boundary vector after the padding loop is a chain for every relation that holds
for the rounds and for the pair `(N, N)`. -/
theorem partition_pad_chain (s : Sequence_set) (l n_part : Nat) (R : Nat → Nat → Prop)
    (ext : List Nat) (hc : List.Chain (partition_round s l) 0 ext)
    (hlast : (0 :: ext).getLast? = some s.get_length)
    (hR : ∀ a b, partition_round s l a b → R a b) (hNN : R s.get_length s.get_length) :
    List.Chain' R (partition_pad s n_part ([0] ++ ext)) := by
  unfold partition_pad
  apply List.Chain'.append
  · exact List.Chain.imp hR hc
  · cases hk : (n_part + 1) % 2 ^ 32 - ([0] ++ ext).length with
    | zero => exact List.chain'_nil
    | succ k => exact chain_replicate s.get_length hNN k
  · intro x hx y hy
    have hx' : x = s.get_length := by
      have : ([0] ++ ext).getLast? = some s.get_length := hlast
      rw [this] at hx
      simpa using hx.symm
    have hy' : y = s.get_length := by
      cases hk : (n_part + 1) % 2 ^ 32 - ([0] ++ ext).length with
      | zero => rw [hk] at hy; simp at hy
      | succ k =>
        rw [hk] at hy
        simpa [List.replicate_succ] using hy.symm
    rw [hx', hy']
    exact hNN

/-- Greedy partition bounds.  For every collection whose sequences all have length at
least 1 and every `n_part >= 1`, with `T = ceil(letters / n_part)`, `partition(n_part)`
returns (within `N + 1` rounds of its outer loop); it returns exactly `n_part + 1`
boundaries when `n_part + 1` does not wrap; every partition that is followed by a
non-empty partition has letter sum at least `T`; and every non-empty partition's letter
sum minus the length of its last sequence is below `T`. -/
theorem partition_greedy_bounds (s : Sequence_set) (n_part : Nat) (hn : 1 ≤ n_part)
    (hlen : ∀ i < s.get_length, 1 ≤ s.length i) :
    ∃ v, (∀ fuel, s.get_length < fuel → partition s n_part fuel = some v) ∧
      (n_part + 1 < 2 ^ 32 → v.length = n_part + 1) ∧
      (∀ k, k + 2 < v.length → v.getD (k + 1) 0 < v.getD (k + 2) 0 →
        (s.letters + n_part - 1) / n_part
          ≤ range_letters s (v.getD k 0) (v.getD (k + 1) 0)) ∧
      (∀ k, k + 1 < v.length → v.getD k 0 < v.getD (k + 1) 0 →
        range_letters s (v.getD k 0) (v.getD (k + 1) 0) - s.length (v.getD (k + 1) 0 - 1)
          < (s.letters + n_part - 1) / n_part) := by
  -- the loop result: the boundary 0 followed by a chain of rounds ending at N
  have hloop : ∃ ext, (∀ fuel, s.get_length < fuel →
        partition_loop s ((s.letters + n_part - 1) / n_part) fuel 0 [0] = some ([0] ++ ext)) ∧
      List.Chain (partition_round s ((s.letters + n_part - 1) / n_part)) 0 ext ∧
      (0 :: ext).getLast? = some s.get_length ∧ ext.length ≤ n_part := by
    by_cases hN : s.get_length = 0
    · refine ⟨[], ?_, List.Chain.nil, by simp [hN], Nat.zero_le _⟩
      intro fuel hf
      obtain ⟨f, rfl⟩ : ∃ f, fuel = f + 1 := ⟨fuel - 1, by omega⟩
      rw [partition_loop, if_neg (by omega)]
      rfl
    · have hletters : 1 ≤ s.letters := by
        rw [letters_eq_range]
        exact range_letters_pos s hlen 0 _ (by omega) (le_refl _)
      have hbudget : 0 < (s.letters + n_part - 1) / n_part :=
        Nat.div_pos (by omega) (by omega)
      obtain ⟨ext, e1, e2, e3⟩ := partition_loop_chain s _ hbudget (s.get_length + 1) 0 [0]
        (Nat.zero_le _) (by omega)
      refine ⟨ext, ?_, e2, e3, ?_⟩
      · intro fuel hf
        exact partition_loop_mono s _ _ 0 [0] _ e1 fuel (by omega)
      · by_cases hext : ext = []
        · rw [hext]; exact Nat.zero_le _
        · have h1 := chain_letters_ge s _ hlen ext 0 e2 e3 hext
          rw [← letters_eq_range] at h1
          have h2 := letters_le_budget_mul s.letters n_part hn
          have h3 : (ext.length - 1) * ((s.letters + n_part - 1) / n_part)
              < n_part * ((s.letters + n_part - 1) / n_part) := by omega
          have h4 := Nat.lt_of_mul_lt_mul_right h3
          omega
  obtain ⟨ext, e1, e2, e3, e4⟩ := hloop
  have hchain := partition_pad_chain s _ n_part
    (fun a b => b ≤ s.get_length ∧
      (b < s.get_length → (s.letters + n_part - 1) / n_part ≤ range_letters s a b) ∧
      (a < b → range_letters s a b - s.length (b - 1) < (s.letters + n_part - 1) / n_part))
    ext e2 e3
    (by
      rintro a b ⟨h1, h2, h3, h4⟩
      refine ⟨h2, h3, fun _ => ?_⟩
      rw [range_letters_last s a b h1]
      omega)
    ⟨le_refl _, fun h => absurd h (lt_irrefl _), fun h => absurd h (lt_irrefl _)⟩
  refine ⟨partition_pad s n_part ([0] ++ ext), ?_, ?_, ?_, ?_⟩
  · intro fuel hf
    unfold partition
    simp only
    rw [e1 fuel hf]
    rfl
  · intro hwrap
    unfold partition_pad
    rw [Nat.mod_eq_of_lt hwrap]
    simp only [List.length_append, List.length_cons, List.length_nil, List.length_replicate]
    omega
  · generalize partition_pad s n_part ([0] ++ ext) = v at hchain
    intro k hk hlt
    have hk0 : k < v.length := by omega
    have hk1 : k + 1 < v.length := by omega
    have h1 := List.chain'_iff_get.1 hchain k (by omega)
    have h2 := List.chain'_iff_get.1 hchain (k + 1) (by omega)
    rw [List.getD_eq_getElem v 0 hk1, List.getD_eq_getElem v 0 hk] at hlt
    rw [List.getD_eq_getElem v 0 hk0, List.getD_eq_getElem v 0 hk1]
    have h3 : v[k + 1 + 1] ≤ s.get_length := h2.1
    have h4 : v[k + 1] < s.get_length := by
      have : v[k + 1 + 1] = v[k + 2] := rfl
      omega
    exact h1.2.1 h4
  · generalize partition_pad s n_part ([0] ++ ext) = v at hchain
    intro k hk hlt
    have hk0 : k < v.length := by omega
    have h1 := List.chain'_iff_get.1 hchain k (by omega)
    rw [List.getD_eq_getElem v 0 hk0, List.getD_eq_getElem v 0 hk] at hlt ⊢
    exact h1.2.2 hlt

/-- C20 (defect of the code at `n_part = 2^32 - 1`): for the collection of one sequence
of length 1 and `n_part = 4294967295`, the bound `n_part + 1` of the padding loop wraps
to 0, nothing is padded, and `partition` returns the two boundaries `[0, 1]` where the
claim says `n_part + 1 = 4294967296`.  Everywhere else the claim holds: for every
collection whose sequences all have length at least 1 and every `n_part >= 1` with
`n_part + 1 < 2^32`, `partition(n_part)` returns exactly `n_part + 1` boundaries; and for
every `n_part >= 1`, every partition that is followed by a non-empty partition has
letter sum at least `T = ceil(letters / n_part)`, and every non-empty partition's letter
sum minus the length of its last sequence is below `T`. -/
theorem partition_boundaries_wrap :
    (∀ i < get_length ⟨[[0]]⟩, 1 ≤ length ⟨[[0]]⟩ i) ∧
    (∀ fuel, get_length ⟨[[0]]⟩ < fuel → partition ⟨[[0]]⟩ 4294967295 fuel = some [0, 1]) ∧
    ([0, 1] : List Nat).length ≠ 4294967295 + 1 ∧
    (∀ (s : Sequence_set) (n_part : Nat), 1 ≤ n_part →
      (∀ i < s.get_length, 1 ≤ s.length i) →
      ∃ v, (∀ fuel, s.get_length < fuel → partition s n_part fuel = some v) ∧
        (n_part + 1 < 2 ^ 32 → v.length = n_part + 1) ∧
        (∀ k, k + 2 < v.length → v.getD (k + 1) 0 < v.getD (k + 2) 0 →
          (s.letters + n_part - 1) / n_part
            ≤ range_letters s (v.getD k 0) (v.getD (k + 1) 0)) ∧
        (∀ k, k + 1 < v.length → v.getD k 0 < v.getD (k + 1) 0 →
          range_letters s (v.getD k 0) (v.getD (k + 1) 0) - s.length (v.getD (k + 1) 0 - 1)
            < (s.letters + n_part - 1) / n_part)) := by
  refine ⟨by decide, ?_, by decide, fun s n_part hn hlen =>
    partition_greedy_bounds s n_part hn hlen⟩
  intro fuel hf
  obtain ⟨v, hv, _⟩ := partition_greedy_bounds ⟨[[0]]⟩ 4294967295 (by decide) (by decide)
  rw [hv fuel hf, ← hv 2 (by decide)]
  decide

end Sequence_set

namespace Sequence_set

/-! ## The generic strategy -/

/-- The inner loop emits, left to right, for the offsets whose key is valid and accepted
by the filter. -/
theorem seed_loop_eq_filterMap (key : Nat → Option Nat) (contains : Nat → Nat → Bool)
    (i sid : Nat) :
    ∀ n j, seed_loop key contains i sid n j =
      (List.range' j n).filterMap (fun j' => match key j' with
        | some k => if contains k sid then some (SinkCall.emit k i j' sid) else none
        | none => none) := by
  intro n
  induction n with
  | zero => intro j; rfl
  | succ n ih =>
    intro j
    rw [seed_loop, List.range'_succ, List.filterMap_cons, ih]
    cases hk : key j with
    | none => simp
    | some k =>
      by_cases hc : contains k sid = true
      · simp [hc]
      · simp [hc]

/-- Every call of the inner loop is an emit for its sequence and shape. -/
theorem seed_loop_mem (key : Nat → Option Nat) (contains : Nat → Nat → Bool) (i sid : Nat) :
    ∀ n j c, c ∈ seed_loop key contains i sid n j → ∃ k off, c = SinkCall.emit k i off sid := by
  intro n j c hc
  rw [seed_loop_eq_filterMap, List.mem_filterMap] at hc
  obtain ⟨off, _, h⟩ := hc
  cases hk : key off with
  | none => simp [hk] at h
  | some k =>
    rw [hk] at h
    by_cases hcon : contains k sid = true
    · simp only [hcon, if_true, Option.some.injEq] at h
      exact ⟨k, off, h.symm⟩
    · simp [hcon] at h

/-- When every visited offset has a valid and accepted key the inner loop emits once per
offset. -/
theorem seed_loop_length (key : Nat → Option Nat) (contains : Nat → Nat → Bool)
    (i sid : Nat) :
    ∀ n j, (∀ j', j ≤ j' → j' < j + n → ∃ k, key j' = some k ∧ contains k sid = true) →
      (seed_loop key contains i sid n j).length = n := by
  intro n
  induction n with
  | zero => intro j _; rfl
  | succ n ih =>
    intro j hall
    obtain ⟨k, hk, hc⟩ := hall j (le_refl _) (by omega)
    rw [seed_loop, hk]
    simp only [hc, if_true, List.singleton_append, List.length_cons]
    rw [ih (j + 1) (fun j' h1 h2 => hall j' (by omega) (by omega))]

theorem emits_of_append (i sid : Nat) (a b : List SinkCall) :
    emits_of i sid (a ++ b) = emits_of i sid a ++ emits_of i sid b := by
  unfold emits_of
  exact List.filter_append _ _

/-- The emits for `(i, sid)` among calls that are all emits for `(i', sid')`. -/
theorem emits_of_block (i sid i' sid' : Nat) (L : List SinkCall)
    (h : ∀ c ∈ L, ∃ k off, c = SinkCall.emit k i' off sid') :
    emits_of i sid L = if i' = i ∧ sid' = sid then L else [] := by
  unfold emits_of
  split
  · rename_i heq
    rw [List.filter_eq_self]
    intro c hc
    obtain ⟨k, off, rfl⟩ := h c hc
    simp [heq.1, heq.2]
  · rename_i hne
    rw [List.filter_eq_nil_iff]
    intro c hc
    obtain ⟨k, off, rfl⟩ := h c hc
    simp only [Bool.and_eq_true, decide_eq_true_eq]
    exact hne

/-- The calls of one round of the shape loop. -/
theorem shape_block_mem (shape_len : Nat → Nat) (key : Nat → Nat → Option Nat)
    (contains : Nat → Nat → Bool) (i seq_len sid : Nat) :
    ∀ c ∈ (if seq_len < shape_len sid then []
        else seed_loop (key sid) contains i sid (seq_len - shape_len sid + 1) 0),
      ∃ k off, c = SinkCall.emit k i off sid := by
  intro c hc
  split at hc
  · simp at hc
  · exact seed_loop_mem _ _ _ _ _ _ c hc

/-- The emits of the shape loop for one sequence and one shape. -/
theorem emits_of_shape_loop (shape_len : Nat → Nat) (key : Nat → Nat → Option Nat)
    (contains : Nat → Nat → Bool) (i i' seq_len sid : Nat) :
    ∀ n sid0, emits_of i sid (shape_loop shape_len key contains i' seq_len n sid0) =
      if i' = i ∧ sid0 ≤ sid ∧ sid < sid0 + n then
        (if seq_len < shape_len sid then []
          else seed_loop (key sid) contains i sid (seq_len - shape_len sid + 1) 0)
      else [] := by
  intro n
  induction n with
  | zero =>
    intro sid0
    rw [if_neg (by omega)]
    rfl
  | succ n ih =>
    intro sid0
    rw [shape_loop, emits_of_append, ih,
      emits_of_block i sid i' sid0 _ (shape_block_mem shape_len key contains i' seq_len sid0)]
    by_cases h1 : i' = i ∧ sid0 = sid
    · obtain ⟨rfl, rfl⟩ := h1
      generalize (if seq_len < shape_len sid0 then []
        else seed_loop (key sid0) contains i' sid0 (seq_len - shape_len sid0 + 1) 0) = blk
      split_ifs <;> first | (exfalso; omega) | simp
    · rw [if_neg h1, List.nil_append]
      generalize (if seq_len < shape_len sid then []
        else seed_loop (key sid) contains i sid (seq_len - shape_len sid + 1) 0) = blk
      split_ifs with h2 h3 h3
      · rfl
      · exfalso; exact h3 ⟨h2.1, by omega, by omega⟩
      · exfalso
        by_cases h6 : sid0 = sid
        · exact h1 ⟨h3.1, h6⟩
        · exact h2 ⟨h3.1, by omega, by omega⟩
      · rfl

/-- The emits of the sequence loop of `enum_seeds` for one sequence and one shape. -/
theorem emits_of_enum_seeds_range (s : Sequence_set) (env : SeedEnv) (cod : SeedCoding)
    (contains : Nat → Nat → Bool) (sr : Nat × Nat) (i sid : Nat) :
    ∀ n i0, emits_of i sid (enum_seeds_range s env cod contains sr n i0) =
      if (i0 ≤ i ∧ i < i0 + n) ∧ sr.1 ≤ sid ∧ sid < sr.1 + (sr.2 - sr.1) then
        (if (s.seqs.getD i []).length < (env.shapes sid).length_ then []
          else seed_loop (fun j => seed_key env cod sid (reduce_seq cod (s.seqs.getD i [])) j)
            contains i sid ((s.seqs.getD i []).length - (env.shapes sid).length_ + 1) 0)
      else [] := by
  intro n
  induction n with
  | zero =>
    intro i0
    rw [if_neg (by omega)]
    rfl
  | succ n ih =>
    intro i0
    rw [enum_seeds_range, emits_of_append, ih, emits_of_shape_loop]
    by_cases h0 : i0 = i
    · subst h0
      generalize (if (s.seqs.getD i0 []).length < (env.shapes sid).length_ then []
        else seed_loop (fun j => seed_key env cod sid (reduce_seq cod (s.seqs.getD i0 [])) j)
          contains i0 sid ((s.seqs.getD i0 []).length - (env.shapes sid).length_ + 1) 0) = blk
      split_ifs <;> first | (exfalso; omega) | simp
    · rw [if_neg (fun h => h0 h.1), List.nil_append]
      generalize (if (s.seqs.getD i []).length < (env.shapes sid).length_ then []
        else seed_loop (fun j => seed_key env cod sid (reduce_seq cod (s.seqs.getD i [])) j)
          contains i sid ((s.seqs.getD i []).length - (env.shapes sid).length_ + 1) 0) = blk
      split_ifs <;> first | (exfalso; omega) | rfl

/-- C11: seed coverage of the generic strategy.  For every sequence `i` of the range and
every shape `sid` of the shape range, with `L` the length of the sequence and `sl` the
length of the shape: if `sl <= L`, the emits of `enum_seeds` for that sequence and shape
are, in increasing offset, exactly those for the offsets `j` in `0..L-sl` whose key is
valid and accepted by the filter, each with position `(i, j)`; if every such offset has
a valid and accepted key there are exactly `L - sl + 1` of them; and if `L < sl` there
is none. -/
theorem enum_seeds_coverage (s : Sequence_set) (env : SeedEnv) (cod : SeedCoding)
    (contains : Nat → Nat → Bool) (b e : Nat) (sr : Nat × Nat) (i sid : Nat)
    (hi : b ≤ i ∧ i < e) (hs : sr.1 ≤ sid ∧ sid < sr.2) :
    ((env.shapes sid).length_ ≤ s.length i →
      emits_of i sid (enum_seeds s env cod contains b e sr) =
        (List.range (s.length i - (env.shapes sid).length_ + 1)).filterMap (fun j =>
          match seed_key env cod sid (reduce_seq cod (s.seqs.getD i [])) j with
          | some k => if contains k sid then some (SinkCall.emit k i j sid) else none
          | none => none)) ∧
    ((env.shapes sid).length_ ≤ s.length i →
      (∀ j, j ≤ s.length i - (env.shapes sid).length_ →
        ∃ k, seed_key env cod sid (reduce_seq cod (s.seqs.getD i [])) j = some k ∧
          contains k sid = true) →
      (emits_of i sid (enum_seeds s env cod contains b e sr)).length
        = s.length i - (env.shapes sid).length_ + 1) ∧
    (s.length i < (env.shapes sid).length_ →
      emits_of i sid (enum_seeds s env cod contains b e sr) = []) := by
  have hmain : emits_of i sid (enum_seeds s env cod contains b e sr) =
      if (s.seqs.getD i []).length < (env.shapes sid).length_ then []
      else seed_loop (fun j => seed_key env cod sid (reduce_seq cod (s.seqs.getD i [])) j)
        contains i sid ((s.seqs.getD i []).length - (env.shapes sid).length_ + 1) 0 := by
    unfold enum_seeds
    rw [emits_of_append, emits_of_enum_seeds_range,
      if_pos ⟨⟨hi.1, by omega⟩, hs.1, by omega⟩]
    simp [emits_of]
  have hclosed : (env.shapes sid).length_ ≤ s.length i →
      emits_of i sid (enum_seeds s env cod contains b e sr) =
        (List.range (s.length i - (env.shapes sid).length_ + 1)).filterMap (fun j =>
          match seed_key env cod sid (reduce_seq cod (s.seqs.getD i [])) j with
          | some k => if contains k sid then some (SinkCall.emit k i j sid) else none
          | none => none) := by
    intro hle
    rw [hmain, if_neg (by unfold length at hle; omega), seed_loop_eq_filterMap,
      List.range_eq_range']
    rfl
  refine ⟨hclosed, ?_, ?_⟩
  · intro hle hall
    rw [hmain, if_neg (by unfold length at hle; omega)]
    apply seed_loop_length
    intro j _ hj
    apply hall j
    unfold length
    omega
  · intro hlt
    rw [hmain, if_pos (by unfold length at hlt; exact hlt)]

/-- Seed coverage at the sequence `[5, 9, 6, 7]` (index 2) and a shape of length 2: the
offsets 0 and 1 have no valid key, offset 2 is emitted with its true offset. -/
theorem enum_seeds_coverage_witness :
    emits_of 2 0 (enum_seeds ⟨[[1, 2, 3], [4], [5, 9, 6, 7]]⟩ sample_env sample_coding
        (fun _ _ => true) 0 3 (0, 1))
      = [SinkCall.emit 103 2 2 0] := by
  rw [(enum_seeds_coverage ⟨[[1, 2, 3], [4], [5, 9, 6, 7]]⟩ sample_env sample_coding
    (fun _ _ => true) 0 3 (0, 1) 2 0 (by decide) (by decide)).1 (by decide)]
  decide

end Sequence_set

namespace Sequence_set

/-! ## The contiguous strategy against the generic strategy -/

/-- The inner loop reads the key only at the offsets it visits. -/
theorem seed_loop_congr (key1 key2 : Nat → Option Nat) (contains : Nat → Nat → Bool)
    (i sid : Nat) :
    ∀ n j, (∀ j', j ≤ j' → j' < j + n → key1 j' = key2 j') →
      seed_loop key1 contains i sid n j = seed_loop key2 contains i sid n j := by
  intro n
  induction n with
  | zero => intro j _; rfl
  | succ n ih =>
    intro j h
    rw [seed_loop, seed_loop, h j (le_refl _) (by omega),
      ih (j + 1) (fun j' h1 h2 => h j' (by omega) (by omega))]

/-- With a sink that always answers true the contiguous inner loop makes the calls of the
generic inner loop for shape 0. -/
theorem contiguous_loop_all_true (key : Nat → Option Nat) (contains : Nat → Nat → Bool)
    (i : Nat) :
    ∀ n j hist, contiguous_loop key contains (fun _ => true) i n j hist
      = (hist ++ seed_loop key contains i 0 n j, false) := by
  intro n
  induction n with
  | zero => intro j hist; simp [contiguous_loop, seed_loop]
  | succ n ih =>
    intro j hist
    rw [contiguous_loop, seed_loop]
    cases hk : key j with
    | none => simp [ih]
    | some k =>
      by_cases hc : contains k 0 = true
      · simp [hc, ih]
      · simp [hc, ih]

/-- Where the window fits within the sequence, the contiguous iterator and the generic
iterator for the unbroken shape of the same length yield the same key. -/
theorem contiguous_key_eq_seed_key (env : SeedEnv) (cod : SeedCoding) (l : Nat)
    (seq : List Letter) (j : Nat) (hpos : cod.positions 0 = List.range l)
    (hfit : j + l ≤ seq.length) :
    contiguous_key cod l env.bit_size seq j = seed_key env cod 0 (reduce_seq cod seq) j := by
  unfold contiguous_key seed_key reduce_seq
  rw [hpos]
  congr 1
  apply List.map_congr_left
  intro p hp
  have hp' : j + p < seq.length := by have := List.mem_range.1 hp; omega
  rw [List.getD_eq_getElem _ _ hp', List.getD_eq_getElem _ _ (by simpa using hp'),
    List.getElem_map]

/-- With a sink that always answers true the contiguous sequence loop makes the calls of
the generic sequence loop for the shape range `[0, 1)`. -/
theorem contiguous_range_all_true (s : Sequence_set) (env : SeedEnv) (cod : SeedCoding)
    (contains : Nat → Nat → Bool) (l : Nat) (hlen : (env.shapes 0).length_ = l)
    (hpos : cod.positions 0 = List.range l) :
    ∀ n i hist, contiguous_range s cod contains (fun _ => true) l env.bit_size n i hist
      = (hist ++ enum_seeds_range s env cod contains (0, 1) n i, false) := by
  intro n
  induction n with
  | zero => intro i hist; simp [contiguous_range, enum_seeds_range]
  | succ n ih =>
    intro i hist
    rw [contiguous_range, enum_seeds_range]
    simp only [Nat.sub_zero, shape_loop, List.append_nil, hlen]
    by_cases hshort : (s.seqs.getD i []).length < l
    · rw [if_pos hshort, if_pos hshort, ih, List.nil_append]
    · rw [if_neg hshort, if_neg hshort, contiguous_loop_all_true]
      simp only [Bool.false_eq_true, if_false]
      rw [ih, List.append_assoc]
      congr 2
      congr 1
      apply seed_loop_congr
      intro j _ hj
      exact contiguous_key_eq_seed_key env cod l _ j hpos (by omega)

/-- C12: strategy equivalence.  For every collection and range, when shape 0 is the
unbroken window of length `l` and both strategies pack with the same bit-width, with a
sink that never asks to stop, `enum_seeds_contiguous` and `enum_seeds` (shape range
`[0, 1)`) make the same calls on the sink in the same order, so they emit the identical
multiset of (key, position) pairs. -/
theorem strategy_equivalence (s : Sequence_set) (env : SeedEnv) (cod : SeedCoding)
    (contains : Nat → Nat → Bool) (b e l : Nat) (hlen : (env.shapes 0).length_ = l)
    (hpos : cod.positions 0 = List.range l) :
    enum_seeds_contiguous s cod contains (fun _ => true) l env.bit_size b e
        = enum_seeds s env cod contains b e (0, 1) ∧
    (emitted_pairs (enum_seeds_contiguous s cod contains (fun _ => true) l env.bit_size b e)
        : Multiset (Nat × Nat × Nat))
      = (emitted_pairs (enum_seeds s env cod contains b e (0, 1)) : Multiset (Nat × Nat × Nat)) := by
  have h : enum_seeds_contiguous s cod contains (fun _ => true) l env.bit_size b e
      = enum_seeds s env cod contains b e (0, 1) := by
    unfold enum_seeds_contiguous enum_seeds
    simp only [contiguous_range_all_true s env cod contains l hlen hpos, List.nil_append,
      Bool.false_eq_true, if_false]
  exact ⟨h, by rw [h]⟩

/-- Strategy equivalence at three sequences and the window of length 2. -/
theorem strategy_equivalence_witness :
    enum_seeds_contiguous ⟨[[1, 2, 3], [4], [5, 9, 6, 7]]⟩ sample_coding (fun _ _ => true)
        (fun _ => true) 2 sample_env.bit_size 0 3
      = enum_seeds ⟨[[1, 2, 3], [4], [5, 9, 6, 7]]⟩ sample_env sample_coding
          (fun _ _ => true) 0 3 (0, 1) :=
  (strategy_equivalence ⟨[[1, 2, 3], [4], [5, 9, 6, 7]]⟩ sample_env sample_coding
    (fun _ _ => true) 0 3 2 (by decide) (by decide)).1

end Sequence_set

namespace Sequence_set

/-! ## Calls of `finish` -/

theorem answered_true_nil (respond : List SinkCall → Bool) (hist : List SinkCall) :
    answered_true respond hist [] := by
  intro n hn
  simp at hn

theorem answered_true_single (respond : List SinkCall → Bool) (hist : List SinkCall)
    (c : SinkCall) (h : respond (hist ++ [c]) = true) : answered_true respond hist [c] := by
  intro n hn
  have : n = 0 := by simpa using hn
  subst this
  simpa using h

theorem answered_true_append (respond : List SinkCall → Bool) (hist e1 e2 : List SinkCall)
    (h1 : answered_true respond hist e1) (h2 : answered_true respond (hist ++ e1) e2) :
    answered_true respond hist (e1 ++ e2) := by
  intro n hn
  by_cases hle : n + 1 ≤ e1.length
  · rw [List.take_append_of_le_length hle]
    exact h1 n (by omega)
  · rw [List.take_append_eq_append_take, List.take_of_length_le (by omega),
      ← List.append_assoc, show n + 1 - e1.length = (n - e1.length) + 1 by omega]
    apply h2
    rw [List.length_append] at hn
    omega

/-- The inner loop of the contiguous strategy: it appends emits to the calls received so
far; if it is left at its end every emit was answered with true, and if it is left by
`return` the last emit is the first one answered with false. -/
theorem contiguous_loop_spec (key : Nat → Option Nat) (contains : Nat → Nat → Bool)
    (respond : List SinkCall → Bool) (i : Nat) :
    ∀ n j hist, ∃ ext,
      (contiguous_loop key contains respond i n j hist).1 = hist ++ ext ∧
      (∀ c ∈ ext, c ≠ SinkCall.finish) ∧
      ((contiguous_loop key contains respond i n j hist).2 = false →
        answered_true respond hist ext) ∧
      ((contiguous_loop key contains respond i n j hist).2 = true →
        ∃ pre c, ext = pre ++ [c] ∧ answered_true respond hist pre ∧
          respond (hist ++ pre ++ [c]) = false) := by
  intro n
  induction n with
  | zero =>
    intro j hist
    exact ⟨[], by simp [contiguous_loop], by simp, fun _ => answered_true_nil _ _,
      by simp [contiguous_loop]⟩
  | succ n ih =>
    intro j hist
    rw [contiguous_loop]
    cases hk : key j with
    | none => exact ih (j + 1) hist
    | some k =>
      simp only
      by_cases hc : contains k 0 = true
      · rw [if_pos hc]
        by_cases hr : respond (hist ++ [SinkCall.emit k i j 0]) = true
        · rw [if_pos hr]
          obtain ⟨ext, e1, e2, e3, e4⟩ := ih (j + 1) (hist ++ [SinkCall.emit k i j 0])
          refine ⟨SinkCall.emit k i j 0 :: ext, ?_, ?_, ?_, ?_⟩
          · rw [e1]; simp
          · intro c hcm
            rcases List.mem_cons.1 hcm with rfl | hcm
            · simp
            · exact e2 c hcm
          · intro hfalse
            exact answered_true_append respond hist [SinkCall.emit k i j 0] ext
              (answered_true_single respond hist _ hr) (e3 hfalse)
          · intro htrue
            obtain ⟨pre, c, p1, p2, p3⟩ := e4 htrue
            refine ⟨SinkCall.emit k i j 0 :: pre, c, by rw [p1]; rfl, ?_, ?_⟩
            · exact answered_true_append respond hist [SinkCall.emit k i j 0] pre
                (answered_true_single respond hist _ hr) p2
            · simpa using p3
        · rw [if_neg hr]
          refine ⟨[SinkCall.emit k i j 0], rfl, by simp, by simp, fun _ => ?_⟩
          exact ⟨[], _, rfl, answered_true_nil _ _, by simpa using hr⟩
      · rw [if_neg hc]
        exact ih (j + 1) hist

/-- The sequence loop of the contiguous strategy, as the inner loop. -/
theorem contiguous_range_spec (s : Sequence_set) (cod : SeedCoding)
    (contains : Nat → Nat → Bool) (respond : List SinkCall → Bool) (l bits : Nat) :
    ∀ n i hist, ∃ ext,
      (contiguous_range s cod contains respond l bits n i hist).1 = hist ++ ext ∧
      (∀ c ∈ ext, c ≠ SinkCall.finish) ∧
      ((contiguous_range s cod contains respond l bits n i hist).2 = false →
        answered_true respond hist ext) ∧
      ((contiguous_range s cod contains respond l bits n i hist).2 = true →
        ∃ pre c, ext = pre ++ [c] ∧ answered_true respond hist pre ∧
          respond (hist ++ pre ++ [c]) = false) := by
  intro n
  induction n with
  | zero =>
    intro i hist
    exact ⟨[], by simp [contiguous_range], by simp, fun _ => answered_true_nil _ _,
      by simp [contiguous_range]⟩
  | succ n ih =>
    intro i hist
    rw [contiguous_range]
    by_cases hshort : (s.seqs.getD i []).length < l
    · rw [if_pos hshort]
      exact ih (i + 1) hist
    · rw [if_neg hshort]
      simp only
      obtain ⟨ext1, a1, a2, a3, a4⟩ := contiguous_loop_spec
        (contiguous_key cod l bits (s.seqs.getD i [])) contains respond i
        ((s.seqs.getD i []).length - l + 1) 0 hist
      cases hstop : (contiguous_loop (contiguous_key cod l bits (s.seqs.getD i [])) contains
          respond i ((s.seqs.getD i []).length - l + 1) 0 hist).2 with
      | true =>
        simp only [if_true]
        exact ⟨ext1, a1, a2, fun h => by rw [hstop] at h; exact absurd h (by decide), a4⟩
      | false =>
        simp only [Bool.false_eq_true, if_false]
        rw [a1]
        obtain ⟨ext2, b1, b2, b3, b4⟩ := ih (i + 1) (hist ++ ext1)
        refine ⟨ext1 ++ ext2, by rw [b1, List.append_assoc], ?_, ?_, ?_⟩
        · intro c hc
          rcases List.mem_append.1 hc with h | h
          · exact a2 c h
          · exact b2 c h
        · intro hfalse
          exact answered_true_append respond hist ext1 ext2 (a3 hstop) (b3 hfalse)
        · intro htrue
          obtain ⟨pre, c, p1, p2, p3⟩ := b4 htrue
          refine ⟨ext1 ++ pre, c, by rw [p1, List.append_assoc], ?_, ?_⟩
          · exact answered_true_append respond hist ext1 pre (a3 hstop) p2
          · simpa [List.append_assoc] using p3

theorem shape_loop_no_finish (shape_len : Nat → Nat) (key : Nat → Nat → Option Nat)
    (contains : Nat → Nat → Bool) (i seq_len : Nat) :
    ∀ n sid0, ∀ c ∈ shape_loop shape_len key contains i seq_len n sid0,
      c ≠ SinkCall.finish := by
  intro n
  induction n with
  | zero => intro sid0 c hc; simp [shape_loop] at hc
  | succ n ih =>
    intro sid0 c hc
    rw [shape_loop] at hc
    rcases List.mem_append.1 hc with h | h
    · obtain ⟨k, off, rfl⟩ := shape_block_mem shape_len key contains i seq_len sid0 c h
      simp
    · exact ih _ c h

theorem enum_seeds_range_no_finish (s : Sequence_set) (env : SeedEnv) (cod : SeedCoding)
    (contains : Nat → Nat → Bool) (sr : Nat × Nat) :
    ∀ n i, ∀ c ∈ enum_seeds_range s env cod contains sr n i, c ≠ SinkCall.finish := by
  intro n
  induction n with
  | zero => intro i c hc; simp [enum_seeds_range] at hc
  | succ n ih =>
    intro i c hc
    rw [enum_seeds_range] at hc
    rcases List.mem_append.1 hc with h | h
    · exact shape_loop_no_finish _ _ _ _ _ _ _ c h
    · exact ih _ c h

theorem enum_seeds_hashed_range_no_finish (s : Sequence_set) (env : SeedEnv)
    (cod : SeedCoding) (contains : Nat → Nat → Bool) (bits : Nat) (sr : Nat × Nat) :
    ∀ n i, ∀ c ∈ enum_seeds_hashed_range s env cod contains bits sr n i,
      c ≠ SinkCall.finish := by
  intro n
  induction n with
  | zero => intro i c hc; simp [enum_seeds_hashed_range] at hc
  | succ n ih =>
    intro i c hc
    rw [enum_seeds_hashed_range] at hc
    rcases List.mem_append.1 hc with h | h
    · exact shape_loop_no_finish _ _ _ _ _ _ _ c h
    · exact ih _ c h

/-- C19: for every range and sink, the generic and the hashed strategy call `finish`
exactly once, as their last call.  The contiguous strategy either receives true for every
emit and then calls `finish` exactly once, as its last call, or it receives false for an
emit, which was preceded only by emits answered with true and is its last call: no
further emit and no `finish` follow. -/
theorem finish_called_once (s : Sequence_set) (env : SeedEnv) (cod : SeedCoding)
    (contains : Nat → Nat → Bool) (respond : List SinkCall → Bool) (l bits b e : Nat)
    (sr : Nat × Nat) :
    (∃ calls, enum_seeds s env cod contains b e sr = calls ++ [SinkCall.finish] ∧
      ∀ c ∈ calls, c ≠ SinkCall.finish) ∧
    (∃ calls, enum_seeds_hashed s env cod contains bits b e sr = calls ++ [SinkCall.finish] ∧
      ∀ c ∈ calls, c ≠ SinkCall.finish) ∧
    ((∃ calls, enum_seeds_contiguous s cod contains respond l bits b e
          = calls ++ [SinkCall.finish] ∧
        (∀ c ∈ calls, c ≠ SinkCall.finish) ∧ answered_true respond [] calls) ∨
      (∃ pre c, enum_seeds_contiguous s cod contains respond l bits b e = pre ++ [c] ∧
        (∀ d ∈ pre ++ [c], d ≠ SinkCall.finish) ∧ answered_true respond [] pre ∧
        respond (pre ++ [c]) = false)) := by
  refine ⟨⟨_, rfl, enum_seeds_range_no_finish s env cod contains sr _ _⟩,
    ⟨_, rfl, enum_seeds_hashed_range_no_finish s env cod contains bits sr _ _⟩, ?_⟩
  obtain ⟨ext, h1, h2, h3, h4⟩ := contiguous_range_spec s cod contains respond l bits
    (e - b) b []
  rw [List.nil_append] at h1
  unfold enum_seeds_contiguous
  simp only
  cases hstop : (contiguous_range s cod contains respond l bits (e - b) b []).2 with
  | false =>
    left
    simp only [Bool.false_eq_true, if_false]
    exact ⟨ext, by rw [h1], h2, h3 hstop⟩
  | true =>
    right
    simp only [if_true]
    obtain ⟨pre, c, p1, p2, p3⟩ := h4 hstop
    refine ⟨pre, c, by rw [h1, p1], ?_, p2, by simpa using p3⟩
    intro d hd
    exact h2 d (by rw [p1]; exact hd)

end Sequence_set
